import Mathlib

/-!
Verification of the Floyd-Warshall APSP engine (`floyd_warshall.py`).

The engine state is a distance matrix over vertices `0..n-1` together with a
staleness flag.  We embed the Python class shallowly: the matrix is a function
`Nat → Nat → Int`, the in-place loops become left folds over `List.range n`
threading the matrix, and each operation returns the post-call state paired
with the exception it raised, if any (`AssertionError` for the `assert`
statements, `RuntimeError` for the stale-state guard).
-/

set_option maxHeartbeats 1000000

namespace FWSpec

/-- The two kinds of exception the Python code can raise:
`assertionError` models a failing `assert`, `runtimeError` models the
`RuntimeError` raised on stale-state misuse (the spec's `StaleStateError`). -/
inductive Err : Type
  | assertionError : Err
  | runtimeError : Err
  deriving DecidableEq, Repr

/-- Engine state: vertex count `n`, sentinel `inf`, distance matrix `dist`
(entries outside `[0,n) × [0,n)` are never touched by the operations), and the
staleness flag `needs_solve` (the negation of the spec's `valid`). -/
structure FW : Type where
  n : Nat
  inf : Int
  dist : Nat → Nat → Int
  needs_solve : Bool

/-- Pointwise update of one matrix entry, modelling `dist[a][b] = x`. -/
def updD (d : Nat → Nat → Int) (a b : Nat) (x : Int) : Nat → Nat → Int :=
  fun i j => if i = a ∧ j = b then x else d i j

/-- The matrix built by `__init__`: 0 on the diagonal, `inf` elsewhere. -/
def initMat (inf : Int) : Nat → Nat → Int :=
  fun i j => if i = j then 0 else inf

/-- The freshly constructed engine record (after the `assert inf > 0`). -/
def mkFW (num_v : Nat) (inf : Int) : FW :=
  ⟨num_v, inf, initMat inf, false⟩

/-- `__init__`: asserts `inf > 0`, then builds the diagonal matrix with the
flag clear. -/
def initFW (num_v : Nat) (inf : Int) : Except Err FW :=
  if 0 < inf then .ok (mkFW num_v inf) else .error .assertionError

/-- The propagation loop of `add_edge(update_dists=True)`: for each `i` with
`dist[i][u] ≠ inf`, snapshot `tmp = dist[i][u] + weight`, then for each `j`
with `dist[v][j] ≠ inf` relax `dist[i][j]` with `tmp + dist[v][j]`, mutating
in place (later iterations read earlier updates). -/
def propagateMat (n : Nat) (inf : Int) (u v : Nat) (weight : Int)
    (d0 : Nat → Nat → Int) : Nat → Nat → Int :=
  (List.range n).foldl
    (fun d i =>
      if d i u = inf then d
      else
        (List.range n).foldl
          (fun d' j =>
            if d' v j = inf then d'
            else if d i u + weight + d' v j < d' i j then
              updD d' i j (d i u + weight + d' v j)
            else d') d) d0

/-- `add_edge(u, v, weight, update_dists)`.  Returns the post-call state and
the exception raised, if any; every raising branch occurs before any mutation,
exactly as in the source. -/
def addEdge (fw : FW) (u v : Nat) (weight : Int) (update_dists : Bool) :
    FW × Option Err :=
  if ¬ u < fw.n then (fw, some .assertionError)
  else if ¬ v < fw.n then (fw, some .assertionError)
  else if ¬ weight < fw.inf then (fw, some .assertionError)
  else if update_dists ∧ fw.needs_solve then (fw, some .runtimeError)
  else if fw.dist u v ≤ weight then (fw, none)
  else if ¬ update_dists then (⟨fw.n, fw.inf, updD fw.dist u v weight, true⟩, none)
  else
    (⟨fw.n, fw.inf,
      propagateMat fw.n fw.inf u v weight (updD fw.dist u v weight), false⟩, none)

/-- The triple loop of `solve()`: for each intermediate `k`, each `i` with
`dist[i][k] ≠ inf` (snapshotting `dik`), each `j` with `dist[k][j] ≠ inf`,
relax `dist[i][j]` with `dik + dist[k][j]`, in place. -/
def fwLoop (n : Nat) (inf : Int) (d0 : Nat → Nat → Int) : Nat → Nat → Int :=
  (List.range n).foldl
    (fun d k =>
      (List.range n).foldl
        (fun d' i =>
          if d' i k = inf then d'
          else
            (List.range n).foldl
              (fun d'' j =>
                if d'' k j = inf then d''
                else if d' i k + d'' k j < d'' i j then
                  updD d'' i j (d' i k + d'' k j)
                else d'') d') d) d0

/-- `solve()`: asserts `inf > 0`; returns immediately when the matrix is up to
date, otherwise runs the Floyd-Warshall loops and clears the flag. -/
def solve (fw : FW) : FW × Option Err :=
  if ¬ 0 < fw.inf then (fw, some .assertionError)
  else if ¬ fw.needs_solve then (fw, none)
  else (⟨fw.n, fw.inf, fwLoop fw.n fw.inf fw.dist, false⟩, none)

/-- The `dist` property: raises `RuntimeError` when stale, otherwise returns
the matrix. -/
def distQ (fw : FW) : Except Err (Nat → Nat → Int) :=
  if fw.needs_solve then .error .runtimeError else .ok fw.dist

/-- `has_negative_cycle()`: raises `RuntimeError` when stale, otherwise
returns `any(dist[v][v] < 0 for v in range(n))`. -/
def hasNegCycle (fw : FW) : Except Err Bool :=
  if fw.needs_solve then .error .runtimeError
  else .ok ((List.range fw.n).any (fun v => decide (fw.dist v v < 0)))

/-- Run a sequence of `add_edge` calls (arguments `(u, v, weight, propagate)`)
left to right, stopping at the first exception, as an uncaught Python
exception would abort the calling loop. -/
def runAdds (fw : FW) : List (Nat × Nat × Int × Bool) → FW × Option Err
  | [] => (fw, none)
  | e :: rest =>
    match addEdge fw e.1 e.2.1 e.2.2.1 e.2.2.2 with
    | (s, none) => runAdds s rest
    | (s, some err) => (s, some err)

/-- The edge set inserted by a call sequence (drops the propagate flags). -/
def edgesOf (calls : List (Nat × Nat × Int × Bool)) : List (Nat × Nat × Int) :=
  calls.map (fun e => (e.1, e.2.1, e.2.2.1))

/-! ### Basic facts about the operations -/

theorem updD_same (d : Nat → Nat → Int) (a b : Nat) (x : Int) :
    updD d a b x a b = x := by
  simp [updD]

theorem updD_of_ne (d : Nat → Nat → Int) (a b : Nat) (x : Int) {i j : Nat}
    (h : ¬ (i = a ∧ j = b)) : updD d a b x i j = d i j := by
  simp only [updD, if_neg h]

/-- A fold whose step never increases any matrix entry never increases any
matrix entry. -/
theorem foldl_pointwise_le {α : Type} (f : (Nat → Nat → Int) → α → Nat → Nat → Int)
    (hf : ∀ d a i j, f d a i j ≤ d i j) :
    ∀ (L : List α) (d : Nat → Nat → Int) (i j : Nat), L.foldl f d i j ≤ d i j := by
  intro L
  induction L with
  | nil => intro d i j; exact le_refl _
  | cons a L ih => intro d i j; exact le_trans (ih (f d a) i j) (hf d a i j)

theorem propagateMat_le (n : Nat) (inf : Int) (u v : Nat) (w : Int)
    (d0 : Nat → Nat → Int) (i j : Nat) : propagateMat n inf u v w d0 i j ≤ d0 i j := by
  refine foldl_pointwise_le _ ?_ (List.range n) d0 i j
  intro d a i j
  by_cases h1 : d a u = inf
  · simp only [if_pos h1]; exact le_refl _
  · simp only [if_neg h1]
    refine foldl_pointwise_le _ ?_ (List.range n) d i j
    intro d' b i j
    by_cases h2 : d' v b = inf
    · simp only [if_pos h2]; exact le_refl _
    simp only [if_neg h2]
    by_cases h3 : d a u + w + d' v b < d' a b
    · simp only [if_pos h3]
      by_cases h4 : i = a ∧ j = b
      · rw [updD, if_pos h4]
        obtain ⟨rfl, rfl⟩ := h4
        exact le_of_lt h3
      · rw [updD_of_ne _ _ _ _ h4]
    · simp only [if_neg h3]; exact le_refl _

theorem fwLoop_le (n : Nat) (inf : Int) (d0 : Nat → Nat → Int) (i j : Nat) :
    fwLoop n inf d0 i j ≤ d0 i j := by
  refine foldl_pointwise_le _ ?_ (List.range n) d0 i j
  intro d k i j
  refine foldl_pointwise_le _ ?_ (List.range n) d i j
  intro d' a i j
  by_cases h1 : d' a k = inf
  · simp only [if_pos h1]; exact le_refl _
  · simp only [if_neg h1]
    refine foldl_pointwise_le _ ?_ (List.range n) d' i j
    intro d'' b i j
    by_cases h2 : d'' k b = inf
    · simp only [if_pos h2]; exact le_refl _
    simp only [if_neg h2]
    by_cases h3 : d' a k + d'' k b < d'' a b
    · simp only [if_pos h3]
      by_cases h4 : i = a ∧ j = b
      · rw [updD, if_pos h4]
        obtain ⟨rfl, rfl⟩ := h4
        exact le_of_lt h3
      · rw [updD_of_ne _ _ _ _ h4]
    · simp only [if_neg h3]; exact le_refl _

theorem addEdge_n (s : FW) (u v : Nat) (w : Int) (p : Bool) :
    (addEdge s u v w p).1.n = s.n := by
  unfold addEdge; repeat' split
  all_goals rfl

theorem addEdge_inf (s : FW) (u v : Nat) (w : Int) (p : Bool) :
    (addEdge s u v w p).1.inf = s.inf := by
  unfold addEdge; repeat' split
  all_goals rfl

theorem solve_n (s : FW) : (solve s).1.n = s.n := by
  unfold solve; repeat' split
  all_goals rfl

theorem solve_inf (s : FW) : (solve s).1.inf = s.inf := by
  unfold solve; repeat' split
  all_goals rfl

theorem addEdge_dist_le (s : FW) (u v : Nat) (w : Int) (p : Bool) (i j : Nat) :
    (addEdge s u v w p).1.dist i j ≤ s.dist i j := by
  have hupd : ∀ i j, (w < s.dist u v) → updD s.dist u v w i j ≤ s.dist i j := by
    intro i j hlt
    by_cases h4 : i = u ∧ j = v
    · rw [updD, if_pos h4]
      obtain ⟨rfl, rfl⟩ := h4
      exact le_of_lt hlt
    · rw [updD_of_ne _ _ _ _ h4]
  unfold addEdge
  repeat' split
  · exact le_refl _
  · exact le_refl _
  · exact le_refl _
  · exact le_refl _
  · exact le_refl _
  · next h5 _ =>
    exact hupd i j (lt_of_not_le h5)
  · next h5 _ =>
    exact le_trans (propagateMat_le _ _ _ _ _ _ i j) (hupd i j (lt_of_not_le h5))

theorem solve_dist_le (s : FW) (i j : Nat) : (solve s).1.dist i j ≤ s.dist i j := by
  unfold solve
  repeat' split
  · exact le_refl _
  · exact le_refl _
  · exact fwLoop_le _ _ _ i j

/-- Complete case analysis of a successful `add_edge` call. -/
theorem addEdge_ok_elim {s s' : FW} {u v : Nat} {w : Int} {p : Bool}
    (h : addEdge s u v w p = (s', none)) :
    u < s.n ∧ v < s.n ∧ w < s.inf ∧ ¬ (p = true ∧ s.needs_solve = true) ∧
    ((s.dist u v ≤ w ∧ s' = s) ∨
     (w < s.dist u v ∧ p = false ∧
        s' = ⟨s.n, s.inf, updD s.dist u v w, true⟩) ∨
     (w < s.dist u v ∧ p = true ∧ s.needs_solve = false ∧
        s' = ⟨s.n, s.inf,
          propagateMat s.n s.inf u v w (updD s.dist u v w), false⟩)) := by
  unfold addEdge at h
  split at h
  · exact absurd (congrArg Prod.snd h) (by simp)
  next h1 =>
  split at h
  · exact absurd (congrArg Prod.snd h) (by simp)
  next h2 =>
  split at h
  · exact absurd (congrArg Prod.snd h) (by simp)
  next h3 =>
  split at h
  · exact absurd (congrArg Prod.snd h) (by simp)
  next h4 =>
  rw [not_not] at h1 h2 h3
  refine ⟨h1, h2, h3, by simpa using h4, ?_⟩
  split at h
  next h5 =>
    exact Or.inl ⟨h5, (congrArg Prod.fst h).symm⟩
  next h5 =>
  split at h
  next h6 =>
    exact Or.inr (Or.inl ⟨lt_of_not_le h5, by simpa using h6, (congrArg Prod.fst h).symm⟩)
  next h6 =>
    rw [not_not] at h6
    refine Or.inr (Or.inr ⟨lt_of_not_le h5, h6, ?_, (congrArg Prod.fst h).symm⟩)
    exact (by simpa using h4 : p = true → s.needs_solve = false) h6

/-- States reachable from the constructor by arbitrary `add_edge` and `solve`
calls; a call that raises leaves the object in its pre-call state, so failing
calls are included as identity steps. -/
inductive Reachable : FW → Prop
  | construct {num_v : Nat} {inf : Int} {s : FW} :
      initFW num_v inf = .ok s → Reachable s
  | insert {s : FW} (u v : Nat) (w : Int) (p : Bool) :
      Reachable s → Reachable (addEdge s u v w p).1
  | runSolve {s : FW} : Reachable s → Reachable (solve s).1

/-! ### Claims C5, C6, C7, C8, C9, C10 -/

/-- C5: every failing operation leaves the state exactly as it was: whenever
`add_edge` raises (index out of range, `weight ≥ inf`, or the stale-state
`RuntimeError`), and whenever `solve` raises, the post-call state equals the
pre-call state (the accessors `dist` and `has_negative_cycle` never mutate the
state at all, being modelled as pure functions of it). -/
theorem insertEdge_failure_preserves_state (s : FW) (u v : Nat) (w : Int) (p : Bool) :
    ((addEdge s u v w p).2.isSome → (addEdge s u v w p).1 = s) ∧
    ((solve s).2.isSome → (solve s).1 = s) := by
  constructor
  · unfold addEdge
    repeat' split
    all_goals simp
  · unfold solve
    repeat' split
    all_goals simp

theorem insertEdge_failure_preserves_state_witness :
    (addEdge (mkFW 1 10) 5 0 0 false).2.isSome = true ∧
    (addEdge (mkFW 1 10) 5 0 0 false).1 = mkFW 1 10 :=
  ⟨by rfl, (insertEdge_failure_preserves_state (mkFW 1 10) 5 0 0 false).1 (by rfl)⟩

/-- C6: inserting an edge with `weight ≥ dist[u][v]` into a valid engine with
in-range arguments is a successful no-op for either propagate flag: the state
(matrix and flag) is returned unchanged and no exception is raised. -/
theorem insertEdge_nonimproving_noop (s : FW) (u v : Nat) (w : Int) (p : Bool)
    (hu : u < s.n) (hv : v < s.n) (hw : w < s.inf)
    (hvalid : s.needs_solve = false) (hge : s.dist u v ≤ w) :
    addEdge s u v w p = (s, none) := by
  simp [addEdge, hu, hv, hw, hvalid, hge]

theorem insertEdge_nonimproving_noop_witness :
    addEdge (mkFW 2 10) 0 0 5 true = (mkFW 2 10, none) :=
  insertEdge_nonimproving_noop (mkFW 2 10) 0 0 5 true (by decide) (by decide)
    (by decide) (by decide) (by decide)

/-- C7: `solve` is idempotent: a second `solve` right after a first one
returns the same state (hence the same matrix) and raises nothing, and on an
already-valid engine `solve` returns immediately with the state unchanged. -/
theorem solve_of_valid (t : FW) (hinf : 0 < t.inf) (hv : t.needs_solve = false) :
    solve t = (t, none) := by
  unfold solve
  rw [if_neg (not_not_intro hinf), if_pos (by simp [hv])]

theorem solve_flag_clear (s : FW) (hinf : 0 < s.inf) :
    (solve s).1.needs_solve = false := by
  unfold solve
  rw [if_neg (not_not_intro hinf)]
  by_cases hns : s.needs_solve = true
  · rw [if_neg (by simp [hns])]
  · rw [if_pos (by simpa using hns)]
    simpa using hns

theorem solve_idempotent (s : FW) (hinf : 0 < s.inf) :
    solve (solve s).1 = ((solve s).1, none) ∧
    (s.needs_solve = false → solve s = (s, none)) := by
  constructor
  · exact solve_of_valid _ (by rw [solve_inf]; exact hinf) (solve_flag_clear s hinf)
  · intro hv
    exact solve_of_valid s hinf hv

theorem solve_idempotent_witness :
    solve (solve (mkFW 2 7)).1 = ((solve (mkFW 2 7)).1, none) :=
  (solve_idempotent (mkFW 2 7) (by decide)).1

/-- C8: on a valid engine, `has_negative_cycle` succeeds and returns `true`
iff some vertex `v < n` has `dist[v][v] < 0`; concretely, the 3-cycle with
weights 1, 1, -3 solves to `true` and the 3-cycle with weights 1, 1, 1 to
`false`. -/
theorem hasNegCycle_iff_negative_diagonal :
    (∀ s : FW, s.needs_solve = false →
        (hasNegCycle s = .ok true ↔ ∃ v, v < s.n ∧ s.dist v v < 0)) ∧
    hasNegCycle (solve (runAdds (mkFW 3 1000000000)
        [(0, 1, 1, false), (1, 2, 1, false), (2, 0, (-3), false)]).1).1 = .ok true ∧
    hasNegCycle (solve (runAdds (mkFW 3 1000000000)
        [(0, 1, 1, false), (1, 2, 1, false), (2, 0, 1, false)]).1).1 = .ok false := by
  refine ⟨?_, by rfl, by rfl⟩
  intro s hv
  unfold hasNegCycle
  rw [if_neg (by simp [hv])]
  simp only [Except.ok.injEq, List.any_eq_true, List.mem_range, decide_eq_true_eq]

theorem hasNegCycle_iff_negative_diagonal_witness :
    hasNegCycle (mkFW 3 5) = .ok true ↔ ∃ v, v < (mkFW 3 5).n ∧ (mkFW 3 5).dist v v < 0 :=
  hasNegCycle_iff_negative_diagonal.1 (mkFW 3 5) (by rfl)

/-- C9: no operation ever increases a matrix entry: both `add_edge` (any
flags, improving or not, succeeding or raising) and `solve` yield a state
whose every entry is at most the corresponding pre-call entry. -/
theorem matrix_entries_nonincreasing (s : FW) (u v : Nat) (w : Int) (p : Bool)
    (i j : Nat) :
    (addEdge s u v w p).1.dist i j ≤ s.dist i j ∧
    (solve s).1.dist i j ≤ s.dist i j :=
  ⟨addEdge_dist_le s u v w p i j, solve_dist_le s i j⟩

/-- C10: in every reachable state the sentinel bounds every matrix entry:
`dist[i][j] ≤ inf`, i.e. each entry is the sentinel exactly or lies strictly
below it; no value above the sentinel is ever stored. -/
theorem reachable_entries_le_sentinel {s : FW} (hs : Reachable s) :
    ∀ i j, s.dist i j ≤ s.inf ∧ (s.dist i j = s.inf ∨ s.dist i j < s.inf) := by
  have main : 0 < s.inf ∧ ∀ i j, s.dist i j ≤ s.inf := by
    induction hs with
    | construct h =>
      next num_v inf s =>
      unfold initFW at h
      split at h
      · next hpos =>
        obtain rfl : mkFW num_v inf = s := by simpa using h
        refine ⟨hpos, ?_⟩
        intro i j
        show (if i = j then 0 else inf) ≤ inf
        split
        · exact le_of_lt hpos
        · exact le_refl _
      · simp at h
    | insert u v w p hr ih =>
      refine ⟨by rw [addEdge_inf]; exact ih.1, ?_⟩
      intro i j
      rw [addEdge_inf]
      exact le_trans (addEdge_dist_le _ _ _ _ _ i j) (ih.2 i j)
    | runSolve hr ih =>
      refine ⟨by rw [solve_inf]; exact ih.1, ?_⟩
      intro i j
      rw [solve_inf]
      exact le_trans (solve_dist_le _ i j) (ih.2 i j)
  intro i j
  exact ⟨main.2 i j, (lt_or_eq_of_le (main.2 i j)).symm.imp id id⟩

theorem reachable_entries_le_sentinel_witness :
    (mkFW 2 5).dist 0 1 ≤ (mkFW 2 5).inf :=
  (reachable_entries_le_sentinel
    (Reachable.construct (rfl : initFW 2 5 = .ok (mkFW 2 5))) 0 1).1

/-! ### Claim C4 -/

/-- Decides whether an `Except` result is a success. -/
def isOkE {α : Type} : Except Err α → Bool
  | .ok _ => true
  | .error _ => false

/-- A stale engine stays stale through any `add_edge` call (successful lazy
inserts keep the flag set; raising calls leave the state unchanged). -/
theorem addEdge_preserves_stale (s : FW) (u v : Nat) (w : Int) (p : Bool)
    (h : s.needs_solve = true) : (addEdge s u v w p).1.needs_solve = true := by
  unfold addEdge
  repeat' split
  all_goals simp_all

/-- A valid engine accepts any in-range `add_edge` call without raising. -/
theorem addEdge_valid_ok (s : FW) (u v : Nat) (w : Int) (p : Bool)
    (hu : u < s.n) (hv : v < s.n) (hw : w < s.inf)
    (hvalid : s.needs_solve = false) : (addEdge s u v w p).2 = none := by
  unfold addEdge
  repeat' split
  all_goals simp_all

/-- C4 counterexample: the claim quantifies over every `propagate=false`
insertion, but a non-improving one (here weight 5 against `dist[0][0] = 0`)
returns before setting the stale flag, so the engine stays valid and
`Distances()`, `HasNegativeCycle()` and `InsertEdge(propagate=true)` all still
succeed with no intervening `Solve()`. -/
theorem staleGate_counterexample :
    (addEdge (mkFW 1 10) 0 0 5 false).2 = none ∧
    (addEdge (mkFW 1 10) 0 0 5 false).1.needs_solve = false ∧
    isOkE (distQ (addEdge (mkFW 1 10) 0 0 5 false).1) = true ∧
    hasNegCycle (addEdge (mkFW 1 10) 0 0 5 false).1 = .ok false ∧
    (addEdge (addEdge (mkFW 1 10) 0 0 5 false).1 0 0 7 true).2 = none :=
  ⟨rfl, rfl, rfl, rfl, rfl⟩

/-- C4 (amended): after an `InsertEdge(..., propagate=false)` call that
strictly lowers `dist[u][v]`, the engine is stale: `Distances()` and
`HasNegativeCycle()` raise the stale-state error, every in-range
`InsertEdge(..., propagate=true)` raises it too, and any further `add_edge`
call keeps the engine stale — until `Solve()` runs, after which the flag is
clear and all three operations succeed again. -/
theorem staleGate_enforcement (s s' : FW) (u v : Nat) (w : Int)
    (hinf : 0 < s.inf) (himp : w < s.dist u v)
    (hok : addEdge s u v w false = (s', none)) :
    s'.needs_solve = true ∧
    distQ s' = .error .runtimeError ∧
    hasNegCycle s' = .error .runtimeError ∧
    (∀ a b : Nat, ∀ c : Int, a < s'.n → b < s'.n → c < s'.inf →
        addEdge s' a b c true = (s', some .runtimeError)) ∧
    (∀ a b : Nat, ∀ c : Int, ∀ q : Bool, (addEdge s' a b c q).1.needs_solve = true) ∧
    (solve s').2 = none ∧
    (solve s').1.needs_solve = false ∧
    isOkE (distQ (solve s').1) = true ∧
    isOkE (hasNegCycle (solve s').1) = true ∧
    (∀ a b : Nat, ∀ c : Int, a < (solve s').1.n → b < (solve s').1.n →
        c < (solve s').1.inf → (addEdge (solve s').1 a b c true).2 = none) := by
  obtain ⟨hu, hv, hw, -, hcases⟩ := addEdge_ok_elim hok
  have hs' : s' = ⟨s.n, s.inf, updD s.dist u v w, true⟩ := by
    rcases hcases with ⟨hle, -⟩ | ⟨-, -, h⟩ | ⟨-, hp, -⟩
    · exact absurd hle (not_le_of_lt himp)
    · exact h
    · exact absurd hp (by simp)
  have hflag : s'.needs_solve = true := by rw [hs']
  have hinf' : 0 < s'.inf := by rw [hs']; exact hinf
  have hsolved : (solve s').1.needs_solve = false := solve_flag_clear s' hinf'
  refine ⟨hflag, ?_, ?_, ?_, ?_, ?_, hsolved, ?_, ?_, ?_⟩
  · unfold distQ; rw [if_pos (by simp [hflag])]
  · unfold hasNegCycle; rw [if_pos (by simp [hflag])]
  · intro a b c ha hb hc
    unfold addEdge
    rw [if_neg (not_not_intro ha), if_neg (not_not_intro hb),
      if_neg (not_not_intro hc), if_pos (by simp [hflag])]
  · intro a b c q; exact addEdge_preserves_stale s' a b c q hflag
  · unfold solve
    rw [if_neg (not_not_intro hinf'), if_neg (by simp [hflag])]
  · unfold distQ isOkE; rw [if_neg (by simp [hsolved])]
  · unfold hasNegCycle isOkE; rw [if_neg (by simp [hsolved])]
  · intro a b c ha hb hc
    exact addEdge_valid_ok _ a b c true ha hb hc hsolved

theorem staleGate_enforcement_witness :
    distQ (addEdge (mkFW 2 10) 0 1 3 false).1 = .error .runtimeError :=
  (staleGate_enforcement (mkFW 2 10) (addEdge (mkFW 2 10) 0 1 3 false).1 0 1 3
    (by decide) (by decide) (by rfl)).2.1

/-! ### The in-place loops compute a simultaneous relaxation

Both inner loops of the source (the `j` loop of `solve` and the `j` loop of
the propagation in `add_edge`) have the same shape: relax entry `(i, j)` with
`c + dist[r][j]` for a fixed addend `c` and a fixed source row `r`, skipping
`j` with `dist[r][j] = inf`.  As long as row `r` itself is never updated, the
in-place sequential loop computes the same result as a simultaneous update
from the loop-entry matrix; the lemmas here establish that. -/

/-- The common inner-loop step. -/
def rStep (inf : Int) (r i : Nat) (c : Int) (d : Nat → Nat → Int) (j : Nat) :
    Nat → Nat → Int :=
  if d r j = inf then d
  else if c + d r j < d i j then updD d i j (c + d r j)
  else d

theorem rStep_ne_row (inf : Int) (r i : Nat) (c : Int) (d : Nat → Nat → Int)
    (j a b : Nat) (ha : a ≠ i) : rStep inf r i c d j a b = d a b := by
  unfold rStep
  repeat' split
  · rfl
  · exact updD_of_ne _ _ _ _ (fun hh => ha hh.1)
  · rfl

theorem rStep_ne_col (inf : Int) (r i : Nat) (c : Int) (d : Nat → Nat → Int)
    (j a b : Nat) (hb : b ≠ j) : rStep inf r i c d j a b = d a b := by
  unfold rStep
  repeat' split
  · rfl
  · exact updD_of_ne _ _ _ _ (fun hh => hb hh.2)
  · rfl

theorem rStep_at (inf : Int) (r i : Nat) (c : Int) (d : Nat → Nat → Int) (j : Nat) :
    rStep inf r i c d j i j =
      if d r j = inf then d i j
      else if c + d r j < d i j then c + d r j
      else d i j := by
  unfold rStep
  repeat' split
  · rfl
  · exact updD_same _ _ _ _
  · rfl

/-- The inner loop updates exactly row `i`, and (provided `i ≠ r`) each entry
`(i, b)` with `b` in the loop list gets the simultaneous relaxed value
computed from the loop-entry matrix. -/
theorem rFold_spec (inf : Int) (r i : Nat) (c : Int) (hir : i ≠ r) :
    ∀ (L : List Nat), L.Nodup → ∀ (d : Nat → Nat → Int) (a b : Nat),
      (L.foldl (rStep inf r i c) d) a b =
        if a = i ∧ b ∈ L then
          (if d r b = inf then d i b
           else if c + d r b < d i b then c + d r b
           else d i b)
        else d a b := by
  intro L
  induction L with
  | nil => intro _ d a b; simp
  | cons j L ih =>
    intro hnd d a b
    have hjL : j ∉ L := (List.nodup_cons.mp hnd).1
    have hndL : L.Nodup := (List.nodup_cons.mp hnd).2
    rw [List.foldl_cons, ih hndL]
    have hrowj : ∀ b' : Nat, rStep inf r i c d j r b' = d r b' :=
      fun b' => rStep_ne_row inf r i c d j r b' (Ne.symm hir)
    by_cases hai : a = i
    · by_cases hbj : b = j
      · have hc1 : ¬ (a = i ∧ b ∈ L) := fun hh => hjL (hbj ▸ hh.2)
        have hc2 : a = i ∧ b ∈ j :: L := ⟨hai, by rw [hbj]; exact List.mem_cons_self _ _⟩
        rw [if_neg hc1, if_pos hc2, hai, hbj]
        exact rStep_at inf r i c d j
      · have hcol : rStep inf r i c d j i b = d i b :=
          rStep_ne_col inf r i c d j i b hbj
        by_cases hbL : b ∈ L
        · have hc1 : a = i ∧ b ∈ L := ⟨hai, hbL⟩
          have hc2 : a = i ∧ b ∈ j :: L := ⟨hai, List.mem_cons_of_mem _ hbL⟩
          rw [if_pos hc1, if_pos hc2, hrowj b, hcol]
        · have hc1 : ¬ (a = i ∧ b ∈ L) := fun hh => hbL hh.2
          have hc2 : ¬ (a = i ∧ b ∈ j :: L) := fun hh => by
            rcases List.mem_cons.mp hh.2 with h1 | h1
            · exact hbj h1
            · exact hbL h1
          rw [if_neg hc1, if_neg hc2, hai, hcol]
    · have hc1 : ¬ (a = i ∧ b ∈ L) := fun hh => hai hh.1
      have hc2 : ¬ (a = i ∧ b ∈ j :: L) := fun hh => hai hh.1
      rw [if_neg hc1, if_neg hc2, rStep_ne_row inf r i c d j a b hai]

/-- When the updated row is the source row itself and the addend is
nonnegative, the inner loop does nothing. -/
theorem rFold_self_noop (inf : Int) (r : Nat) (c : Int) (hc : 0 ≤ c) :
    ∀ (L : List Nat) (d : Nat → Nat → Int), L.foldl (rStep inf r r c) d = d := by
  intro L
  induction L with
  | nil => intro d; rfl
  | cons j L ih =>
    intro d
    rw [List.foldl_cons]
    have hstep : rStep inf r r c d j = d := by
      unfold rStep
      by_cases h1 : d r j = inf
      · rw [if_pos h1]
      · rw [if_neg h1, if_neg (not_lt_of_le (le_add_of_nonneg_left hc))]
    rw [hstep, ih]

/-- The simultaneous relaxation both outer loops compute: relax `(a, b)` with
`g (d a q) + d r b`, skipping sentinel reads of `d a q` and `d r b`. -/
def simRelax (inf : Int) (q r : Nat) (g : Int → Int) (d : Nat → Nat → Int)
    (a b : Nat) : Int :=
  if d a q = inf then d a b
  else if d r b = inf then d a b
  else if g (d a q) + d r b < d a b then g (d a q) + d r b
  else d a b

/-- The common outer-loop step. -/
def mStep (inf : Int) (q r : Nat) (g : Int → Int) (LJ : List Nat)
    (d : Nat → Nat → Int) (i : Nat) : Nat → Nat → Int :=
  if d i q = inf then d else LJ.foldl (rStep inf r i (g (d i q))) d

/-- The outer loop computes the simultaneous relaxation of every entry
`(a, b)` with `a` in the row list and `b` in the column list, from the
loop-entry matrix, provided the source row `r` can never improve itself
(`d r q = inf`, or the addend computed from row `r` is nonnegative). -/
theorem mFold_spec (inf : Int) (q r : Nat) (g : Int → Int) (LJ : List Nat)
    (hndJ : LJ.Nodup) :
    ∀ (LI : List Nat), LI.Nodup → ∀ (d : Nat → Nat → Int),
      (d r q = inf ∨ 0 ≤ g (d r q)) →
      ∀ a b, (LI.foldl (mStep inf q r g LJ) d) a b =
        if a ∈ LI ∧ b ∈ LJ then simRelax inf q r g d a b else d a b := by
  intro LI
  induction LI with
  | nil => intro _ d _ a b; simp
  | cons i0 LI ih =>
    intro hnd d hrow a b
    have hiL : i0 ∉ LI := (List.nodup_cons.mp hnd).1
    have hndL : LI.Nodup := (List.nodup_cons.mp hnd).2
    rw [List.foldl_cons]
    -- one outer step performs the simultaneous relaxation of row i0
    have hd1 : ∀ a b : Nat, (mStep inf q r g LJ d i0) a b =
        if a = i0 ∧ b ∈ LJ then simRelax inf q r g d i0 b else d a b := by
      intro a b
      by_cases hskip : d i0 q = inf
      · have hm : mStep inf q r g LJ d i0 = d := by
          unfold mStep; rw [if_pos hskip]
        rw [hm]
        by_cases hcond : a = i0 ∧ b ∈ LJ
        · rw [if_pos hcond]
          unfold simRelax
          rw [if_pos hskip, hcond.1]
        · rw [if_neg hcond]
      · have hm : mStep inf q r g LJ d i0 =
            LJ.foldl (rStep inf r i0 (g (d i0 q))) d := by
          unfold mStep; rw [if_neg hskip]
        by_cases hir : i0 = r
        · subst hir
          have hc : 0 ≤ g (d i0 q) := hrow.resolve_left hskip
          rw [hm, rFold_self_noop inf i0 (g (d i0 q)) hc LJ d]
          by_cases hcond : a = i0 ∧ b ∈ LJ
          · rw [if_pos hcond, hcond.1]
            unfold simRelax
            rw [if_neg hskip]
            by_cases h2 : d i0 b = inf
            · rw [if_pos h2]
            · rw [if_neg h2, if_neg (not_lt_of_le (le_add_of_nonneg_left hc))]
          · rw [if_neg hcond]
        · rw [hm, rFold_spec inf r i0 (g (d i0 q)) hir LJ hndJ d a b]
          by_cases hcond : a = i0 ∧ b ∈ LJ
          · rw [if_pos hcond, if_pos hcond]
            unfold simRelax
            rw [if_neg hskip]
          · rw [if_neg hcond, if_neg hcond]
    -- row r is untouched by the step
    have hrowFix : ∀ b' : Nat, (mStep inf q r g LJ d i0) r b' = d r b' := by
      intro b'
      rw [hd1 r b']
      by_cases hcond : r = i0 ∧ b' ∈ LJ
      · rw [if_pos hcond]
        unfold simRelax
        rcases hrow with h | h
        · rw [if_pos (by rw [hcond.1] at h; exact h), hcond.1]
        · by_cases h1 : d i0 q = inf
          · rw [if_pos h1, hcond.1]
          · rw [if_neg h1]
            by_cases h2 : d r b' = inf
            · rw [if_pos h2, hcond.1]
            · rw [if_neg h2, hcond.1,
                if_neg (not_lt_of_le (le_add_of_nonneg_left (by rw [← hcond.1]; exact h)))]
      · rw [if_neg hcond]
    have hrow1 : (mStep inf q r g LJ d i0) r q = inf ∨
        0 ≤ g ((mStep inf q r g LJ d i0) r q) := by
      rw [hrowFix q]; exact hrow
    rw [ih hndL _ hrow1]
    by_cases hbJ : b ∈ LJ
    case neg =>
      have hc1 : ¬ (a ∈ LI ∧ b ∈ LJ) := fun hh => hbJ hh.2
      have hc2 : ¬ (a ∈ i0 :: LI ∧ b ∈ LJ) := fun hh => hbJ hh.2
      have hc3 : ¬ (a = i0 ∧ b ∈ LJ) := fun hh => hbJ hh.2
      rw [if_neg hc1, if_neg hc2, hd1 a b, if_neg hc3]
    by_cases haL : a ∈ LI
    · have ha0 : a ≠ i0 := fun hh => hiL (hh ▸ haL)
      have hc1 : a ∈ LI ∧ b ∈ LJ := ⟨haL, hbJ⟩
      have hc2 : a ∈ i0 :: LI ∧ b ∈ LJ := ⟨List.mem_cons_of_mem _ haL, hbJ⟩
      have hq : (mStep inf q r g LJ d i0) a q = d a q := by
        rw [hd1 a q]
        exact if_neg (fun hh => ha0 hh.1)
      have hb : (mStep inf q r g LJ d i0) a b = d a b := by
        rw [hd1 a b]
        exact if_neg (fun hh => ha0 hh.1)
      rw [if_pos hc1, if_pos hc2]
      unfold simRelax
      rw [hq, hrowFix b, hb]
    · by_cases hai : a = i0
      · have hc1 : ¬ (a ∈ LI ∧ b ∈ LJ) := fun hh => haL hh.1
        have hc2 : a ∈ i0 :: LI ∧ b ∈ LJ := ⟨by rw [hai]; exact List.mem_cons_self _ _, hbJ⟩
        have hc3 : a = i0 ∧ b ∈ LJ := ⟨hai, hbJ⟩
        rw [if_neg hc1, if_pos hc2, hd1 a b, if_pos hc3, hai]
      · have hc1 : ¬ (a ∈ LI ∧ b ∈ LJ) := fun hh => haL hh.1
        have hc2 : ¬ (a ∈ i0 :: LI ∧ b ∈ LJ) := fun hh => by
          rcases List.mem_cons.mp hh.1 with h1 | h1
          · exact hai h1
          · exact haL h1
        have hc3 : ¬ (a = i0 ∧ b ∈ LJ) := fun hh => hai hh.1
        rw [if_neg hc1, if_neg hc2, hd1 a b, if_neg hc3]

/-- The propagation loop of `add_edge` equals the simultaneous single-edge
relaxation of the loop-entry matrix, provided the new edge cannot improve row
`v` (no known `v → u` path, or closing the cycle is nonnegative). -/
theorem propagateMat_eq_sim (n : Nat) (inf : Int) (u v : Nat) (w : Int)
    (d : Nat → Nat → Int) (hrow : d v u = inf ∨ 0 ≤ d v u + w) (a b : Nat) :
    propagateMat n inf u v w d a b =
      if a < n ∧ b < n then simRelax inf u v (fun x => x + w) d a b
      else d a b := by
  have heq : propagateMat n inf u v w d =
      (List.range n).foldl (mStep inf u v (fun x => x + w) (List.range n)) d := rfl
  rw [heq, mFold_spec inf u v (fun x => x + w) (List.range n) (List.nodup_range n)
    (List.range n) (List.nodup_range n) d hrow a b]
  simp only [List.mem_range]

/-- The `solve` loop is the `n`-fold iteration of one `k`-round. -/
theorem fwLoop_eq_rounds (n : Nat) (inf : Int) (d0 : Nat → Nat → Int) :
    fwLoop n inf d0 = (List.range n).foldl
      (fun d k => (List.range n).foldl (mStep inf k k id (List.range n)) d) d0 := rfl

/-- One `k`-round of `solve` equals the simultaneous relaxation through `k`
of the round-entry matrix, provided `dist[k][k]` is the sentinel or
nonnegative. -/
theorem fwRound_eq_sim (n : Nat) (inf : Int) (k : Nat) (d : Nat → Nat → Int)
    (hkk : d k k = inf ∨ 0 ≤ d k k) (a b : Nat) :
    (List.range n).foldl (mStep inf k k id (List.range n)) d a b =
      if a < n ∧ b < n then simRelax inf k k id d a b else d a b := by
  rw [mFold_spec inf k k id (List.range n) (List.nodup_range n) (List.range n)
    (List.nodup_range n) d hkk a b]
  simp only [List.mem_range]

/-! ### Claim C3 -/

theorem if_lt_eq_min (x y : Int) : (if y < x then y else x) = min x y := by
  rcases lt_or_le y x with h | h
  · rw [if_pos h, min_eq_right (le_of_lt h)]
  · rw [if_neg (not_lt_of_le h), min_eq_left h]

/-- Modelled from the claim text (not the source): the post-state matrix
claimed for `InsertEdge(u, v, w, propagate=true)` — set `dist[u][v] := w`,
then for every vertex `i` with `dist[i][u] ≠ sentinel` and every vertex `j`
with `dist[v][j] ≠ sentinel`, replace `dist[i][j]` by
`min(dist[i][j], dist[i][u] + w + dist[v][j])`, all entries read
simultaneously from the matrix after the direct assignment; no other entry
changes. -/
def specPropagate (n : Nat) (inf : Int) (d : Nat → Nat → Int) (u v : Nat)
    (w : Int) (i j : Nat) : Int :=
  if i < n ∧ j < n ∧ updD d u v w i u ≠ inf ∧ updD d u v w v j ≠ inf then
    min (updD d u v w i j) (updD d u v w i u + w + updD d u v w v j)
  else updD d u v w i j

/-- The engine state reached by inserting edges `1→0` (weight 1) and `2→1`
(weight 0) and solving, with three vertices and sentinel 100. -/
def c3pre : FW :=
  (solve (runAdds (mkFW 3 100) [(1, 0, 1, false), (2, 1, 0, false)]).1).1

/-- C3 counterexample: on the valid solved engine `c3pre`, inserting edge
`0→1` with weight -2 (improving: -2 < sentinel = dist[0][1]) and propagating
closes a negative cycle `0→1→0`; the in-place loop then reads row 1 entries
it has already lowered, producing `dist[2][0] = -1`, while the claim's
simultaneous formula yields `0` at entry `(2, 0)`. -/
theorem insertEdge_propagate_formula_counterexample :
    c3pre.needs_solve = false ∧
    (-2 : Int) < c3pre.dist 0 1 ∧
    (addEdge c3pre 0 1 (-2) true).2 = none ∧
    (addEdge c3pre 0 1 (-2) true).1.dist 2 0 = -1 ∧
    specPropagate c3pre.n c3pre.inf c3pre.dist 0 1 (-2) 2 0 = 0 :=
  ⟨rfl, by decide, rfl, by decide, by decide⟩

/-- C3 (amended): when `InsertEdge(u, v, w, propagate=true)` is called on a
valid engine with in-range arguments and `w < dist[u][v]`, and the relaxed
edge does not close a negative cycle with a known `v → u` path (after the
direct assignment, `dist[v][u]` is the sentinel or `dist[v][u] + w ≥ 0`),
the call succeeds, the engine remains valid, and the post matrix is exactly
the claim's simultaneous relaxation formula. -/
theorem insertEdge_propagate_eq_formula (s : FW) (u v : Nat) (w : Int)
    (hu : u < s.n) (hv : v < s.n) (hw : w < s.inf)
    (hvalid : s.needs_solve = false) (himp : w < s.dist u v)
    (hsafe : updD s.dist u v w v u = s.inf ∨ 0 ≤ updD s.dist u v w v u + w) :
    (addEdge s u v w true).2 = none ∧
    (addEdge s u v w true).1.needs_solve = false ∧
    (addEdge s u v w true).1.n = s.n ∧
    ∀ i j, (addEdge s u v w true).1.dist i j =
      specPropagate s.n s.inf s.dist u v w i j := by
  have haddeq : addEdge s u v w true =
      (⟨s.n, s.inf, propagateMat s.n s.inf u v w (updD s.dist u v w), false⟩,
        none) := by
    unfold addEdge
    rw [if_neg (not_not_intro hu), if_neg (not_not_intro hv),
      if_neg (not_not_intro hw), if_neg (by simp [hvalid]),
      if_neg (not_le_of_lt himp), if_neg (by simp)]
  rw [haddeq]
  refine ⟨rfl, rfl, rfl, ?_⟩
  intro i j
  show propagateMat s.n s.inf u v w (updD s.dist u v w) i j = _
  rw [propagateMat_eq_sim s.n s.inf u v w (updD s.dist u v w) hsafe i j]
  unfold specPropagate simRelax
  set P := updD s.dist u v w with hPdef
  by_cases hA : i < s.n
  case neg =>
    have hc1 : ¬ (i < s.n ∧ j < s.n) := fun hh => hA hh.1
    have hc2 : ¬ (i < s.n ∧ j < s.n ∧ P i u ≠ s.inf ∧ P v j ≠ s.inf) :=
      fun hh => hA hh.1
    rw [if_neg hc1, if_neg hc2]
  by_cases hB : j < s.n
  case neg =>
    have hc1 : ¬ (i < s.n ∧ j < s.n) := fun hh => hB hh.2
    have hc2 : ¬ (i < s.n ∧ j < s.n ∧ P i u ≠ s.inf ∧ P v j ≠ s.inf) :=
      fun hh => hB hh.2.1
    rw [if_neg hc1, if_neg hc2]
  have hAB : i < s.n ∧ j < s.n := ⟨hA, hB⟩
  rw [if_pos hAB]
  by_cases hC : P i u = s.inf
  · have hc2 : ¬ (i < s.n ∧ j < s.n ∧ P i u ≠ s.inf ∧ P v j ≠ s.inf) :=
      fun hh => hh.2.2.1 hC
    rw [if_pos hC, if_neg hc2]
  · rw [if_neg hC]
    by_cases hD : P v j = s.inf
    · have hc2 : ¬ (i < s.n ∧ j < s.n ∧ P i u ≠ s.inf ∧ P v j ≠ s.inf) :=
        fun hh => hh.2.2.2 hD
      rw [if_pos hD, if_neg hc2]
    · have hc2 : i < s.n ∧ j < s.n ∧ P i u ≠ s.inf ∧ P v j ≠ s.inf :=
        ⟨hA, hB, hC, hD⟩
      rw [if_neg hD, if_pos hc2]
      exact if_lt_eq_min (P i j) (P i u + w + P v j)

/-- The engine state of the spec's concrete scenario: edges `0→1` weight 3
and `1→2` weight 4, solved, sentinel 10^9. -/
def c3wit : FW :=
  (solve (runAdds (mkFW 3 1000000000) [(0, 1, 3, false), (1, 2, 4, false)]).1).1

theorem insertEdge_propagate_eq_formula_witness :
    (addEdge c3wit 0 2 1 true).1.dist 0 2 =
      specPropagate c3wit.n c3wit.inf c3wit.dist 0 2 1 0 2 :=
  (insertEdge_propagate_eq_formula c3wit 0 2 1 (by decide) (by decide) (by decide)
    (by rfl) (by decide) (by decide)).2.2.2 0 2

/-! ### Directed walks over the inserted edge list

Edges are the triples `(u, v, w)` passed to successful `add_edge` calls; a
repeated pair keeps all its inserted weights, so minimising over walks
automatically takes the minimum inserted weight of each ordered pair. -/

/-- A walk of at least one edge from `i` to `j` over the edges `E`; `l` lists
the intermediate vertices in order and `c` is the total weight. -/
inductive EWalk (E : List (Nat × Nat × Int)) : Nat → Nat → List Nat → Int → Prop
  | single {u v : Nat} {w : Int} : (u, v, w) ∈ E → EWalk E u v [] w
  | cons {u v j : Nat} {w c : Int} {l : List Nat} :
      (u, v, w) ∈ E → EWalk E v j l c → EWalk E u j (v :: l) (w + c)

/-- `c` is the cost of some (possibly empty) walk from `i` to `j`. -/
def WalkAny (E : List (Nat × Nat × Int)) (i j : Nat) (c : Int) : Prop :=
  (i = j ∧ c = 0) ∨ ∃ l, EWalk E i j l c

/-- No negative cycle: every closed walk has nonnegative total weight
(equivalent to no simple cycle being negative, since a negative closed walk
contains a negative simple cycle). -/
def NoNegCycle (E : List (Nat × Nat × Int)) : Prop :=
  ∀ v l c, EWalk E v v l c → 0 ≤ c

/-- The sentinel dominates every simple path: any walk that repeats no vertex
costs strictly less than `inf`. -/
def SimpleBound (E : List (Nat × Nat × Int)) (inf : Int) : Prop :=
  ∀ i j l c, EWalk E i j l c → (i :: l ++ [j]).Nodup → c < inf

/-- Inserted edges have in-range endpoints and weight below the sentinel
(what the `add_edge` assertions enforce). -/
def WFE (E : List (Nat × Nat × Int)) (n : Nat) (inf : Int) : Prop :=
  ∀ e ∈ E, e.1 < n ∧ e.2.1 < n ∧ e.2.2 < inf

theorem EWalk_append {E : List (Nat × Nat × Int)} {i m j : Nat}
    {l1 l2 : List Nat} {c1 c2 : Int} (h1 : EWalk E i m l1 c1)
    (h2 : EWalk E m j l2 c2) : EWalk E i j (l1 ++ m :: l2) (c1 + c2) := by
  induction h1 with
  | single he => exact EWalk.cons he h2
  | cons he _ ih =>
    rw [add_assoc]
    exact EWalk.cons he (ih h2)

theorem EWalk_split {E : List (Nat × Nat × Int)} {x j : Nat} {l2 : List Nat} :
    ∀ (l1 : List Nat) {i : Nat} {c : Int}, EWalk E i j (l1 ++ x :: l2) c →
      ∃ c1 c2, EWalk E i x l1 c1 ∧ EWalk E x j l2 c2 ∧ c = c1 + c2 := by
  intro l1
  induction l1 with
  | nil =>
    intro i c h
    cases h with
    | cons he hrest => exact ⟨_, _, EWalk.single he, hrest, rfl⟩
  | cons y l1 ih =>
    intro i c h
    cases h with
    | cons he hrest =>
      obtain ⟨c1, c2, hw1, hw2, hc⟩ := ih hrest
      exact ⟨_, c2, EWalk.cons he hw1, hw2, by rw [hc, add_assoc]⟩

theorem EWalk_mono {E F : List (Nat × Nat × Int)} (hEF : E ⊆ F) {i j : Nat}
    {l : List Nat} {c : Int} (h : EWalk E i j l c) : EWalk F i j l c := by
  induction h with
  | single he => exact EWalk.single (hEF he)
  | cons he _ ih => exact EWalk.cons (hEF he) ih

theorem WalkAny_mono {E F : List (Nat × Nat × Int)} (hEF : E ⊆ F) {i j : Nat}
    {c : Int} (h : WalkAny E i j c) : WalkAny F i j c := by
  rcases h with h | ⟨l, h⟩
  · exact Or.inl h
  · exact Or.inr ⟨l, EWalk_mono hEF h⟩

theorem NoNegCycle_anti {E F : List (Nat × Nat × Int)} (hEF : E ⊆ F)
    (h : NoNegCycle F) : NoNegCycle E :=
  fun v l c hw => h v l c (EWalk_mono hEF hw)

theorem SimpleBound_anti {E F : List (Nat × Nat × Int)} (hEF : E ⊆ F)
    {inf : Int} (h : SimpleBound F inf) : SimpleBound E inf :=
  fun i j l c hw hnd => h i j l c (EWalk_mono hEF hw) hnd

theorem EWalk_vertices_lt {E : List (Nat × Nat × Int)} {n : Nat} {inf : Int}
    (hwf : WFE E n inf) {i j : Nat} {l : List Nat} {c : Int}
    (h : EWalk E i j l c) : i < n ∧ j < n ∧ ∀ x ∈ l, x < n := by
  induction h with
  | single he => exact ⟨(hwf _ he).1, (hwf _ he).2.1, by simp⟩
  | cons he _ ih =>
    refine ⟨(hwf _ he).1, ih.2.1, ?_⟩
    intro x hx
    rcases List.mem_cons.mp hx with rfl | hx
    · exact ih.1
    · exact ih.2.2 x hx

theorem EWalk_cost_le {E : List (Nat × Nat × Int)} {B : Int}
    (hB : ∀ e ∈ E, e.2.2 ≤ B) {i j : Nat} {l : List Nat} {c : Int}
    (h : EWalk E i j l c) : c ≤ ((l.length : Int) + 1) * B := by
  induction h with
  | single he => simpa using hB _ he
  | cons he hw ih =>
    next u v j' w c' l' =>
    have h1 : w ≤ B := hB _ he
    calc w + c' ≤ B + ((l'.length : Int) + 1) * B := add_le_add h1 ih
    _ = (((v :: l').length : Int) + 1) * B := by
        simp only [List.length_cons]
        push_cast
        ring

theorem nonneg_weights_no_neg_cycle {E : List (Nat × Nat × Int)}
    (h : ∀ e ∈ E, 0 ≤ e.2.2) : NoNegCycle E := by
  have hall : ∀ i j l c, EWalk E i j l c → 0 ≤ c := by
    intro i j l c hw
    induction hw with
    | single he => exact h _ he
    | cons he _ ih => exact add_nonneg (h _ he) ih
  exact fun v l c hw => hall v v l c hw

/-- A strictly increasing vertex measure along every edge rules out cycles. -/
theorem measure_increasing_no_neg_cycle {E : List (Nat × Nat × Int)}
    (f : Nat → Nat) (h : ∀ e ∈ E, f e.1 < f e.2.1) : NoNegCycle E := by
  have hall : ∀ i j l c, EWalk E i j l c → f i < f j := by
    intro i j l c hw
    induction hw with
    | single he => exact h _ he
    | cons he _ ih => exact lt_trans (h _ he) ih
  exact fun v l c hw => absurd (hall v v l c hw) (lt_irrefl _)

theorem sublist_pair_decomp {a : Nat} :
    ∀ l : List Nat, List.Sublist [a, a] l →
      ∃ l1 l2 l3, l = l1 ++ a :: (l2 ++ a :: l3) := by
  intro l
  induction l with
  | nil => intro h; cases h
  | cons b t ih =>
    intro h
    cases h with
    | cons _ hs =>
      obtain ⟨l1, l2, l3, rfl⟩ := ih hs
      exact ⟨b :: l1, l2, l3, rfl⟩
    | cons₂ _ hs =>
      have ha : a ∈ t := List.Sublist.subset hs (by simp)
      obtain ⟨l2, l3, rfl⟩ := List.append_of_mem ha
      exact ⟨[], l2, l3, rfl⟩

/-- Cycle removal: under no negative cycle, every walk between distinct
vertices dominates a simple path between them using only vertices of the
walk. -/
theorem EWalk_reduce {E : List (Nat × Nat × Int)} (hE : NoNegCycle E) :
    ∀ (m : Nat) {i j : Nat} {l : List Nat} {c : Int}, l.length ≤ m →
      EWalk E i j l c → i ≠ j →
      ∃ l' c', EWalk E i j l' c' ∧ c' ≤ c ∧ l' ⊆ l ∧ (i :: l' ++ [j]).Nodup := by
  intro m
  induction m with
  | zero =>
    intro i j l c hlen hw hij
    have hl : l = [] := List.length_eq_zero.mp (Nat.le_zero.mp hlen)
    subst hl
    refine ⟨[], c, hw, le_refl _, List.Subset.refl _, ?_⟩
    simp [hij]
  | succ m ih =>
    intro i j l c hlen hw hij
    by_cases hil : i ∈ l
    · obtain ⟨l1, l2, hl⟩ := List.append_of_mem hil
      subst hl
      obtain ⟨c1, c2, hw1, hw2, hc⟩ := EWalk_split l1 hw
      have hc1 : 0 ≤ c1 := hE _ _ _ hw1
      have hlen2 : l2.length ≤ m := by
        rw [List.length_append, List.length_cons] at hlen
        omega
      obtain ⟨l', c', hw', hle', hsub', hnd'⟩ := ih hlen2 hw2 hij
      refine ⟨l', c', hw', ?_, ?_, hnd'⟩
      · rw [hc]; linarith
      · exact fun x hx =>
          List.mem_append.mpr (Or.inr (List.mem_cons_of_mem _ (hsub' hx)))
    · by_cases hjl : j ∈ l
      · obtain ⟨l1, l2, hl⟩ := List.append_of_mem hjl
        subst hl
        obtain ⟨c1, c2, hw1, hw2, hc⟩ := EWalk_split l1 hw
        have hc2 : 0 ≤ c2 := hE _ _ _ hw2
        have hlen1 : l1.length ≤ m := by
          rw [List.length_append, List.length_cons] at hlen
          omega
        obtain ⟨l', c', hw', hle', hsub', hnd'⟩ := ih hlen1 hw1 hij
        refine ⟨l', c', hw', ?_, ?_, hnd'⟩
        · rw [hc]; linarith
        · exact fun x hx => List.mem_append.mpr (Or.inl (hsub' hx))
      · by_cases hnd : l.Nodup
        · refine ⟨l, c, hw, le_refl _, List.Subset.refl _, ?_⟩
          refine List.nodup_cons.mpr ⟨?_, List.nodup_append.mpr
            ⟨hnd, List.nodup_singleton _, ?_⟩⟩
          · intro hmem
            rcases List.mem_append.mp hmem with h1 | h1
            · exact hil h1
            · exact hij (List.mem_singleton.mp h1)
          · intro x hx hx1
            exact hjl ((List.mem_singleton.mp hx1) ▸ hx)
        · have hdup : ∃ a, List.Sublist [a, a] l := by
            rcases not_forall.mp
              (fun hh => hnd (List.nodup_iff_sublist.mpr hh)) with ⟨a, ha⟩
            exact ⟨a, not_not.mp ha⟩
          obtain ⟨a, ha⟩ := hdup
          obtain ⟨l1, l2, l3, hl⟩ := sublist_pair_decomp l ha
          subst hl
          obtain ⟨c1, c23, hw1, hw23, hc⟩ := EWalk_split l1 hw
          obtain ⟨c2, c3, hw2, hw3, hc23⟩ := EWalk_split l2 hw23
          have hc2 : 0 ≤ c2 := hE _ _ _ hw2
          have hglue := EWalk_append hw1 hw3
          have hlen' : (l1 ++ a :: l3).length ≤ m := by
            rw [List.length_append, List.length_cons] at hlen ⊢
            rw [List.length_append, List.length_cons] at hlen
            omega
          obtain ⟨l', c', hw', hle', hsub', hnd'⟩ := ih hlen' hglue hij
          refine ⟨l', c', hw', ?_, ?_, hnd'⟩
          · rw [hc, hc23]; linarith
          · intro x hx
            rcases List.mem_append.mp (hsub' hx) with h1 | h1
            · exact List.mem_append.mpr (Or.inl h1)
            · rcases List.mem_cons.mp h1 with rfl | h1
              · exact List.mem_append.mpr (Or.inr (List.mem_cons_self _ _))
              · refine List.mem_append.mpr (Or.inr (List.mem_cons_of_mem _ ?_))
                exact List.mem_append.mpr (Or.inr (List.mem_cons_of_mem _ h1))

/-- Closed walks are nonnegative, including the empty one. -/
theorem WalkAny_closed_nonneg {E : List (Nat × Nat × Int)} (hE : NoNegCycle E)
    {v : Nat} {c : Int} (h : WalkAny E v v c) : 0 ≤ c := by
  rcases h with ⟨-, rfl⟩ | ⟨l, h⟩
  · exact le_refl _
  · exact hE _ _ _ h

/-! ### The mathematical Floyd-Warshall recursion

`DD base k i j` is the textbook value after relaxing through intermediate
vertices `0..k-1`, over `WithTop Int` (with `⊤` for "no known path") starting
from an arbitrary base matrix; the code's capped matrix is related to it
through `liftI`, which sends the sentinel to `⊤`. -/

/-- Lift a sentinel-capped entry to `WithTop Int`. -/
def liftI (inf : Int) (x : Int) : WithTop Int :=
  if x = inf then ⊤ else (x : WithTop Int)

/-- The textbook recursion. -/
def DD (base : Nat → Nat → WithTop Int) : Nat → Nat → Nat → WithTop Int
  | 0 => base
  | (k + 1) => fun i j => min (DD base k i j) (DD base k i k + DD base k k j)

/-- A walk cost whose intermediate vertices all lie below `k`. -/
def WalkB (E : List (Nat × Nat × Int)) (k : Nat) (i j : Nat) (c : Int) : Prop :=
  (i = j ∧ c = 0) ∨ ∃ l, EWalk E i j l c ∧ ∀ y ∈ l, y < k

theorem WalkB_mono {E : List (Nat × Nat × Int)} {k k' : Nat} (hk : k ≤ k')
    {i j : Nat} {c : Int} (h : WalkB E k i j c) : WalkB E k' i j c := by
  rcases h with h | ⟨l, hw, hb⟩
  · exact Or.inl h
  · exact Or.inr ⟨l, hw, fun y hy => lt_of_lt_of_le (hb y hy) hk⟩

theorem WalkB_toAny {E : List (Nat × Nat × Int)} {k i j : Nat} {c : Int}
    (h : WalkB E k i j c) : WalkAny E i j c := by
  rcases h with h | ⟨l, hw, -⟩
  · exact Or.inl h
  · exact Or.inr ⟨l, hw⟩

/-- Gluing two bounded walks at the midpoint `k` gives a walk bounded by
`k + 1`. -/
theorem WalkB_glue {E : List (Nat × Nat × Int)} {k a b : Nat} {c1 c2 : Int}
    (h1 : WalkB E k a k c1) (h2 : WalkB E k k b c2) :
    WalkB E (k + 1) a b (c1 + c2) := by
  rcases h1 with ⟨rfl, rfl⟩ | ⟨l1, hw1, hb1⟩
  · rcases h2 with ⟨rfl, rfl⟩ | ⟨l2, hw2, hb2⟩
    · exact Or.inl ⟨rfl, by ring⟩
    · rw [zero_add]
      exact Or.inr ⟨l2, hw2, fun y hy => lt_trans (hb2 y hy) (Nat.lt_succ_self _)⟩
  · rcases h2 with ⟨rfl, rfl⟩ | ⟨l2, hw2, hb2⟩
    · rw [add_zero]
      exact Or.inr ⟨l1, hw1, fun y hy => lt_trans (hb1 y hy) (Nat.lt_succ_self _)⟩
    · refine Or.inr ⟨l1 ++ k :: l2, EWalk_append hw1 hw2, ?_⟩
      intro y hy
      rcases List.mem_append.mp hy with hy | hy
      · exact lt_trans (hb1 y hy) (Nat.lt_succ_self _)
      · rcases List.mem_cons.mp hy with rfl | hy
        · exact Nat.lt_succ_self _
        · exact lt_trans (hb2 y hy) (Nat.lt_succ_self _)

theorem liftI_of_ne {inf x : Int} (h : x ≠ inf) :
    liftI inf x = (x : WithTop Int) := if_neg h

theorem liftI_self (inf : Int) : liftI inf inf = ⊤ := if_pos rfl

theorem liftI_eq_top_iff {inf x : Int} : liftI inf x = ⊤ ↔ x = inf := by
  unfold liftI
  by_cases h : x = inf
  · simp [h]
  · simp [h]

theorem liftI_eq_coe {inf x y : Int} (h : liftI inf x = (y : WithTop Int)) :
    x = y ∧ x ≠ inf := by
  unfold liftI at h
  by_cases hx : x = inf
  · rw [if_pos hx] at h
    exact absurd h.symm (WithTop.coe_ne_top)
  · rw [if_neg hx] at h
    exact ⟨WithTop.coe_injective h, hx⟩

theorem DD_le_base (base : Nat → Nat → WithTop Int) :
    ∀ k i j, DD base k i j ≤ base i j := by
  intro k
  induction k with
  | zero => intro i j; exact le_refl _
  | succ k ih => intro i j; exact le_trans (min_le_left _ _) (ih i j)

theorem DD_succ_le (base : Nat → Nat → WithTop Int) (k i j : Nat) :
    DD base (k + 1) i j ≤ DD base k i j := min_le_left _ _

/-- Soundness: every finite `DD` value on in-range vertices dominates the
cost of a bounded walk. -/
theorem DD_sound {E : List (Nat × Nat × Int)} {n : Nat}
    {base : Nat → Nat → WithTop Int}
    (hbase : ∀ i j, i < n → j < n → ∀ x : Int, base i j = (x : WithTop Int) →
      ∃ c, WalkB E 0 i j c ∧ c ≤ x) :
    ∀ k, k ≤ n → ∀ i j, i < n → j < n → ∀ x : Int,
      DD base k i j = (x : WithTop Int) → ∃ c, WalkB E k i j c ∧ c ≤ x := by
  intro k
  induction k with
  | zero => intro _ ; exact hbase
  | succ k ih =>
    intro hkn i j hi hj x hx
    have hkn' : k ≤ n := Nat.le_of_succ_le hkn
    have hkltn : k < n := Nat.lt_of_succ_le hkn
    rcases min_cases (DD base k i j) (DD base k i k + DD base k k j) with
      ⟨hmin, -⟩ | ⟨hmin, -⟩
    · have h1 : DD base k i j = (x : WithTop Int) := by
        rw [← hmin]; exact hx
      obtain ⟨c, hc, hcx⟩ := ih hkn' i j hi hj x h1
      exact ⟨c, WalkB_mono (Nat.le_succ k) hc, hcx⟩
    · have h1 : DD base k i k + DD base k k j = (x : WithTop Int) := by
        rw [← hmin]; exact hx
      -- both summands must be finite
      have hne : DD base k i k + DD base k k j ≠ ⊤ := by
        rw [h1]; exact WithTop.coe_ne_top
      have hiknt : DD base k i k ≠ ⊤ := fun hh => hne (by rw [hh, WithTop.top_add])
      have hkjnt : DD base k k j ≠ ⊤ := fun hh => hne (by rw [hh, WithTop.add_top])
      obtain ⟨y, hy⟩ := WithTop.ne_top_iff_exists.mp hiknt
      obtain ⟨z, hz⟩ := WithTop.ne_top_iff_exists.mp hkjnt
      rw [← hy, ← hz, ← WithTop.coe_add] at h1
      have hsum : y + z = x := WithTop.coe_injective h1
      obtain ⟨c1, hc1, hc1y⟩ := ih hkn' i k hi hkltn y hy.symm
      obtain ⟨c2, hc2, hc2z⟩ := ih hkn' k j hkltn hj z hz.symm
      exact ⟨c1 + c2, WalkB_glue hc1 hc2, by rw [← hsum]; exact add_le_add hc1y hc2z⟩

/-- Completeness: `DD` is below the cost of every duplicate-free walk whose
intermediates lie below `k`. -/
theorem DD_complete {E : List (Nat × Nat × Int)}
    {base : Nat → Nat → WithTop Int}
    (hedge : ∀ e ∈ E, base e.1 e.2.1 ≤ ((e.2.2 : Int) : WithTop Int)) :
    ∀ k {i j : Nat} {l : List Nat} {c : Int}, EWalk E i j l c → l.Nodup →
      (∀ y ∈ l, y < k) → DD base k i j ≤ ((c : Int) : WithTop Int) := by
  intro k
  induction k with
  | zero =>
    intro i j l c hw hnd hb
    have hl : l = [] := by
      cases l with
      | nil => rfl
      | cons y t => exact absurd (hb y (List.mem_cons_self _ _)) (Nat.not_lt_zero y)
    subst hl
    cases hw with
    | single he => exact hedge _ he
  | succ k ih =>
    intro i j l c hw hnd hb
    by_cases hkl : k ∈ l
    · obtain ⟨l1, l2, hl⟩ := List.append_of_mem hkl
      subst hl
      obtain ⟨c1, c2, hw1, hw2, hc⟩ := EWalk_split l1 hw
      have hnd1 : l1.Nodup := (List.nodup_append.mp hnd).1
      have hnd2 : l2.Nodup := ((List.nodup_append.mp hnd).2.1).of_cons
      have hk1 : k ∉ l1 := by
        intro hk
        exact (List.nodup_append.mp hnd).2.2 hk (List.mem_cons_self _ _)
      have hk2 : k ∉ l2 := by
        have := (List.nodup_append.mp hnd).2.1
        exact (List.nodup_cons.mp this).1
      have hb1 : ∀ y ∈ l1, y < k := by
        intro y hy
        have hlt := hb y (List.mem_append.mpr (Or.inl hy))
        have : y ≠ k := fun hh => hk1 (hh ▸ hy)
        omega
      have hb2 : ∀ y ∈ l2, y < k := by
        intro y hy
        have hlt := hb y (List.mem_append.mpr (Or.inr (List.mem_cons_of_mem _ hy)))
        have : y ≠ k := fun hh => hk2 (hh ▸ hy)
        omega
      calc DD base (k + 1) i j ≤ DD base k i k + DD base k k j := min_le_right _ _
        _ ≤ ((c1 : Int) : WithTop Int) + ((c2 : Int) : WithTop Int) :=
            add_le_add (ih hw1 hnd1 hb1) (ih hw2 hnd2 hb2)
        _ = ((c : Int) : WithTop Int) := by rw [← WithTop.coe_add, hc]
    · have hb' : ∀ y ∈ l, y < k := by
        intro y hy
        have hlt := hb y hy
        have : y ≠ k := fun hh => hkl (hh ▸ hy)
        omega
      exact le_trans (DD_succ_le base k i j) (ih hw hnd hb')

/-! ### The exact all-pairs shortest-distance matrix -/

theorem WalkAny_glue {E : List (Nat × Nat × Int)} {a m b : Nat} {c1 c2 : Int}
    (h1 : WalkAny E a m c1) (h2 : WalkAny E m b c2) :
    WalkAny E a b (c1 + c2) := by
  rcases h1 with ⟨rfl, rfl⟩ | ⟨l1, hw1⟩
  · rw [zero_add]; exact h2
  · rcases h2 with ⟨rfl, rfl⟩ | ⟨l2, hw2⟩
    · rw [add_zero]; exact Or.inr ⟨l1, hw1⟩
    · exact Or.inr ⟨l1 ++ m :: l2, EWalk_append hw1 hw2⟩

theorem WalkAny_edge {E : List (Nat × Nat × Int)} {u v : Nat} {w : Int}
    (he : (u, v, w) ∈ E) : WalkAny E u v w := Or.inr ⟨[], EWalk.single he⟩

theorem WalkAny_nil (E : List (Nat × Nat × Int)) (i : Nat) : WalkAny E i i 0 :=
  Or.inl ⟨rfl, rfl⟩

theorem EWalk_nil_elim {i j : Nat} {l : List Nat} {c : Int}
    (h : EWalk [] i j l c) : False := by
  cases h with
  | single he => exact absurd he (List.not_mem_nil _)
  | cons he _ => exact absurd he (List.not_mem_nil _)

/-- `d` is the true all-pairs shortest-distance matrix for `E` with
unreachable sentinel `inf`: on each in-range pair, `d i j` is the cost of a
walk and below every walk cost when `i` reaches `j`, and equals `inf`
otherwise. -/
def Exact (E : List (Nat × Nat × Int)) (n : Nat) (inf : Int)
    (d : Nat → Nat → Int) : Prop :=
  ∀ i j, i < n → j < n →
    ((∃ c, WalkAny E i j c) →
      WalkAny E i j (d i j) ∧ ∀ c, WalkAny E i j c → d i j ≤ c) ∧
    ((¬ ∃ c, WalkAny E i j c) → d i j = inf)

theorem Exact_unique {E : List (Nat × Nat × Int)} {n : Nat} {inf : Int}
    {d d' : Nat → Nat → Int} (h : Exact E n inf d) (h' : Exact E n inf d')
    {i j : Nat} (hi : i < n) (hj : j < n) : d i j = d' i j := by
  by_cases hr : ∃ c, WalkAny E i j c
  · have h1 := (h i j hi hj).1 hr
    have h2 := (h' i j hi hj).1 hr
    exact le_antisymm (h1.2 _ h2.1) (h2.2 _ h1.1)
  · rw [(h i j hi hj).2 hr, (h' i j hi hj).2 hr]

theorem Exact_diag {E : List (Nat × Nat × Int)} {n : Nat} {inf : Int}
    {d : Nat → Nat → Int} (h : Exact E n inf d) (hN : NoNegCycle E)
    {i : Nat} (hi : i < n) : d i i = 0 := by
  have h1 := (h i i hi hi).1 ⟨0, WalkAny_nil E i⟩
  exact le_antisymm (h1.2 0 (WalkAny_nil E i)) (WalkAny_closed_nonneg hN h1.1)

theorem Exact_min {E : List (Nat × Nat × Int)} {n : Nat} {inf : Int}
    {d : Nat → Nat → Int} (h : Exact E n inf d) {i j : Nat} (hi : i < n)
    (hj : j < n) {c : Int} (hc : WalkAny E i j c) : d i j ≤ c :=
  ((h i j hi hj).1 ⟨c, hc⟩).2 c hc

theorem Exact_achieves {E : List (Nat × Nat × Int)} {n : Nat} {inf : Int}
    {d : Nat → Nat → Int} (h : Exact E n inf d) {i j : Nat} (hi : i < n)
    (hj : j < n) {c : Int} (hc : WalkAny E i j c) : WalkAny E i j (d i j) :=
  ((h i j hi hj).1 ⟨c, hc⟩).1

theorem Exact_edge_le {E : List (Nat × Nat × Int)} {n : Nat} {inf : Int}
    {d : Nat → Nat → Int} (h : Exact E n inf d) (hwf : WFE E n inf)
    {u v : Nat} {w : Int} (he : (u, v, w) ∈ E) : d u v ≤ w :=
  Exact_min h (hwf _ he).1 (hwf _ he).2.1 (WalkAny_edge he)

/-- On a reachable in-range pair, the exact distance is strictly below the
sentinel (it is the cost of a simple path, and the sentinel dominates those). -/
theorem Exact_lt_inf {E : List (Nat × Nat × Int)} {n : Nat} {inf : Int}
    {d : Nat → Nat → Int} (h : Exact E n inf d) (hN : NoNegCycle E)
    (hS : SimpleBound E inf) (hinf : 0 < inf) {i j : Nat} (hi : i < n)
    (hj : j < n) {c : Int} (hc : WalkAny E i j c) : d i j < inf := by
  by_cases hij : i = j
  · subst hij
    rw [Exact_diag h hN hi]
    exact hinf
  · have hach := Exact_achieves h hi hj hc
    rcases hach with ⟨hij', -⟩ | ⟨l, hw⟩
    · exact absurd hij' hij
    · obtain ⟨l', c', hw', hle', -, hnd'⟩ :=
        EWalk_reduce hN l.length (le_refl _) hw hij
      have h1 : d i j ≤ c' := Exact_min h hi hj (Or.inr ⟨l', hw'⟩)
      exact lt_of_le_of_lt h1 (hS i j l' c' hw' hnd')

theorem Exact_le_inf {E : List (Nat × Nat × Int)} {n : Nat} {inf : Int}
    {d : Nat → Nat → Int} (h : Exact E n inf d) (hN : NoNegCycle E)
    (hS : SimpleBound E inf) (hinf : 0 < inf) {i j : Nat} (hi : i < n)
    (hj : j < n) : d i j ≤ inf := by
  by_cases hr : ∃ c, WalkAny E i j c
  · obtain ⟨c, hc⟩ := hr
    exact le_of_lt (Exact_lt_inf h hN hS hinf hi hj hc)
  · rw [(h i j hi hj).2 hr]

theorem Exact_ne_inf_iff {E : List (Nat × Nat × Int)} {n : Nat} {inf : Int}
    {d : Nat → Nat → Int} (h : Exact E n inf d) (hN : NoNegCycle E)
    (hS : SimpleBound E inf) (hinf : 0 < inf) {i j : Nat} (hi : i < n)
    (hj : j < n) : d i j ≠ inf ↔ ∃ c, WalkAny E i j c := by
  constructor
  · intro hne
    by_contra hr
    exact hne ((h i j hi hj).2 hr)
  · intro ⟨c, hc⟩
    exact ne_of_lt (Exact_lt_inf h hN hS hinf hi hj hc)

theorem Exact_triangle {E : List (Nat × Nat × Int)} {n : Nat} {inf : Int}
    {d : Nat → Nat → Int} (h : Exact E n inf d) (hN : NoNegCycle E)
    (hS : SimpleBound E inf) (hinf : 0 < inf) {i m j : Nat} (hi : i < n)
    (hm : m < n) (hj : j < n) (h1 : d i m ≠ inf) (h2 : d m j ≠ inf) :
    d i j ≤ d i m + d m j := by
  obtain ⟨c1, hc1⟩ := (Exact_ne_inf_iff h hN hS hinf hi hm).mp h1
  obtain ⟨c2, hc2⟩ := (Exact_ne_inf_iff h hN hS hinf hm hj).mp h2
  exact Exact_min h hi hj
    (WalkAny_glue (Exact_achieves h hi hm hc1) (Exact_achieves h hm hj hc2))

/-- The empty graph is exactly solved by the fresh matrix. -/
theorem Exact_initMat (n : Nat) (inf : Int) (hinf : 0 < inf) :
    Exact [] n inf (initMat inf) := by
  intro i j hi hj
  constructor
  · rintro ⟨c, hc⟩
    rcases hc with ⟨rfl, rfl⟩ | ⟨l, hw⟩
    · constructor
      · show WalkAny [] i i (if i = i then 0 else inf)
        rw [if_pos rfl]
        exact WalkAny_nil [] i
      · intro c hc
        rcases hc with ⟨-, rfl⟩ | ⟨l, hw⟩
        · rw [initMat, if_pos rfl]
        · exact absurd hw EWalk_nil_elim
    · exact absurd hw EWalk_nil_elim
  · intro hr
    have hij : i ≠ j := fun hh => hr ⟨0, hh ▸ WalkAny_nil [] i⟩
    rw [initMat, if_neg hij]

/-! ### Solving from a matrix of direct costs

Here `M0` is a matrix whose finite entries are zero-step-walk sound: the
diagonal bounds the empty walk and every other finite entry bounds a single
inserted edge.  The stale matrix of a purely lazy insertion phase is of this
shape.  We show the `solve` loop started on such a matrix computes the exact
distances, by relating each round to the `DD` recursion. -/

/-- Lift a capped matrix to `WithTop Int` entrywise. -/
def liftMat (inf : Int) (M : Nat → Nat → Int) : Nat → Nat → WithTop Int :=
  fun i j => liftI inf (M i j)

theorem liftMat_sound {E : List (Nat × Nat × Int)} {n : Nat} {inf : Int}
    {M0 : Nat → Nat → Int}
    (hb0 : ∀ i j, i < n → j < n → M0 i j ≠ inf →
      ∃ c, WalkB E 0 i j c ∧ c ≤ M0 i j) :
    ∀ i j, i < n → j < n → ∀ x : Int, liftMat inf M0 i j = (x : WithTop Int) →
      ∃ c, WalkB E 0 i j c ∧ c ≤ x := by
  intro i j hi hj x hx
  obtain ⟨heq, hne⟩ := liftI_eq_coe hx
  obtain ⟨c, hc, hcle⟩ := hb0 i j hi hj hne
  exact ⟨c, hc, heq ▸ hcle⟩

theorem liftMat_edge {E : List (Nat × Nat × Int)} {n : Nat} {inf : Int}
    {M0 : Nat → Nat → Int} (hW : WFE E n inf)
    (hbedge : ∀ e ∈ E, M0 e.1 e.2.1 ≤ e.2.2) :
    ∀ e ∈ E, liftMat inf M0 e.1 e.2.1 ≤ ((e.2.2 : Int) : WithTop Int) := by
  intro e he
  have h1 : M0 e.1 e.2.1 ≤ e.2.2 := hbedge e he
  have h2 : e.2.2 < inf := (hW e he).2.2
  have hne : M0 e.1 e.2.1 ≠ inf := ne_of_lt (lt_of_le_of_lt h1 h2)
  show liftI inf (M0 e.1 e.2.1) ≤ _
  rw [liftI_of_ne hne]
  exact WithTop.coe_le_coe.mpr h1

theorem DD_diag_zero {E : List (Nat × Nat × Int)} {n : Nat} {inf : Int}
    {M0 : Nat → Nat → Int} (hN : NoNegCycle E) (hinf : 0 < inf)
    (hb0 : ∀ i j, i < n → j < n → M0 i j ≠ inf →
      ∃ c, WalkB E 0 i j c ∧ c ≤ M0 i j)
    (hbdiag : ∀ i, i < n → M0 i i ≤ 0) :
    ∀ k, k ≤ n → ∀ m, m < n →
      DD (liftMat inf M0) k m m = ((0 : Int) : WithTop Int) := by
  intro k hk m hm
  have hne0 : M0 m m ≠ inf := ne_of_lt (lt_of_le_of_lt (hbdiag m hm) hinf)
  have hup : DD (liftMat inf M0) k m m ≤ ((M0 m m : Int) : WithTop Int) := by
    have h1 := DD_le_base (liftMat inf M0) k m m
    rwa [show liftMat inf M0 m m = ((M0 m m : Int) : WithTop Int) from
      liftI_of_ne hne0] at h1
  have h0 : DD (liftMat inf M0) k m m ≤ ((0 : Int) : WithTop Int) :=
    le_trans hup (WithTop.coe_le_coe.mpr (hbdiag m hm))
  have hnetop : DD (liftMat inf M0) k m m ≠ ⊤ := by
    intro hh
    rw [hh] at h0
    exact absurd h0 (by simp)
  obtain ⟨x, hx⟩ := WithTop.ne_top_iff_exists.mp hnetop
  obtain ⟨c, hc, hcx⟩ :=
    DD_sound (liftMat_sound hb0) k hk m m hm hm x hx.symm
  have hc0 : 0 ≤ c := WalkAny_closed_nonneg hN (WalkB_toAny hc)
  have hx0 : x ≤ 0 := by
    rw [← hx] at h0
    exact_mod_cast h0
  have : x = 0 := le_antisymm hx0 (le_trans hc0 hcx)
  rw [← hx, this]

/-- Every finite `DD` value stays strictly below the sentinel: the value is
realised (up to domination) by a bounded walk, which reduces to a simple
path, and the sentinel dominates simple paths. -/
theorem DD_lt_inf {E : List (Nat × Nat × Int)} {n : Nat} {inf : Int}
    {M0 : Nat → Nat → Int} (hN : NoNegCycle E) (hS : SimpleBound E inf)
    (hW : WFE E n inf) (hinf : 0 < inf)
    (hb0 : ∀ i j, i < n → j < n → M0 i j ≠ inf →
      ∃ c, WalkB E 0 i j c ∧ c ≤ M0 i j)
    (hble : ∀ i j, i < n → j < n → M0 i j ≤ inf)
    (hbdiag : ∀ i, i < n → M0 i i ≤ 0)
    (hbedge : ∀ e ∈ E, M0 e.1 e.2.1 ≤ e.2.2) :
    ∀ k, k ≤ n → ∀ i j, i < n → j < n → ∀ x : Int,
      DD (liftMat inf M0) k i j = (x : WithTop Int) → x < inf := by
  intro k
  induction k with
  | zero =>
    intro _ i j hi hj x hx
    obtain ⟨heq, hne⟩ := liftI_eq_coe hx
    rw [← heq]
    exact lt_of_le_of_ne (hble i j hi hj) hne
  | succ k ih =>
    intro hkn i j hi hj x hx
    have hkn' : k ≤ n := Nat.le_of_succ_le hkn
    have hkltn : k < n := Nat.lt_of_succ_le hkn
    by_cases hij : i = j
    · subst hij
      rw [DD_diag_zero hN hinf hb0 hbdiag (k + 1) hkn i hi] at hx
      have : x = 0 := (WithTop.coe_injective hx.symm)
      rw [this]
      exact hinf
    rcases min_cases (DD (liftMat inf M0) k i j)
      (DD (liftMat inf M0) k i k + DD (liftMat inf M0) k k j) with
      ⟨hmin, -⟩ | ⟨hmin, -⟩
    · exact ih hkn' i j hi hj x (by rw [← hmin]; exact hx)
    · have h1 : DD (liftMat inf M0) k i k + DD (liftMat inf M0) k k j =
          (x : WithTop Int) := by rw [← hmin]; exact hx
      have hne : DD (liftMat inf M0) k i k + DD (liftMat inf M0) k k j ≠ ⊤ := by
        rw [h1]; exact WithTop.coe_ne_top
      have hiknt : DD (liftMat inf M0) k i k ≠ ⊤ :=
        fun hh => hne (by rw [hh, WithTop.top_add])
      have hkjnt : DD (liftMat inf M0) k k j ≠ ⊤ :=
        fun hh => hne (by rw [hh, WithTop.add_top])
      obtain ⟨y, hy⟩ := WithTop.ne_top_iff_exists.mp hiknt
      obtain ⟨z, hz⟩ := WithTop.ne_top_iff_exists.mp hkjnt
      rw [← hy, ← hz, ← WithTop.coe_add] at h1
      have hsum : y + z = x := WithTop.coe_injective h1
      obtain ⟨c1, hc1, hc1y⟩ :=
        DD_sound (liftMat_sound hb0) k hkn' i k hi hkltn y hy.symm
      obtain ⟨c2, hc2, hc2z⟩ :=
        DD_sound (liftMat_sound hb0) k hkn' k j hkltn hj z hz.symm
      have hglue := WalkB_glue hc1 hc2
      rcases hglue with ⟨hij', -⟩ | ⟨l, hw, hbnd⟩
      · exact absurd hij' hij
      obtain ⟨l', c', hw', hle', hsub', hnd'⟩ :=
        EWalk_reduce hN l.length (le_refl _) hw hij
      have hndl' : l'.Nodup := by
        have h2 : List.Sublist l' (i :: (l' ++ [j])) :=
          List.Sublist.trans (List.sublist_append_left l' [j])
            (List.sublist_cons_self _ _)
        exact h2.nodup hnd'
      have hbnd' : ∀ y' ∈ l', y' < k + 1 := fun y' hy' => hbnd y' (hsub' hy')
      have hcomp := DD_complete (liftMat_edge hW hbedge) (k + 1) hw' hndl' hbnd'
      have hxle : (x : WithTop Int) ≤ ((c' : Int) : WithTop Int) := by
        rw [← hx]; exact hcomp
      exact lt_of_le_of_lt (WithTop.coe_le_coe.mp hxle) (hS i j l' c' hw' hnd')


theorem DD_succ (base : Nat → Nat → WithTop Int) (k i j : Nat) :
    DD base (k + 1) i j =
      min (DD base k i j) (DD base k i k + DD base k k j) := rfl

theorem liftI_le_coe {inf x y : Int} (h : liftI inf x ≤ (y : WithTop Int)) :
    x ≤ y := by
  by_cases hx : x = inf
  · rw [hx, liftI_self] at h
    exact absurd h (by simp)
  · rw [liftI_of_ne hx] at h
    exact WithTop.coe_le_coe.mp h

theorem nodup_interior {i j : Nat} {l : List Nat}
    (h : (i :: l ++ [j]).Nodup) : l.Nodup :=
  (List.Sublist.trans (List.sublist_append_left l [j])
    (List.sublist_cons_self _ _)).nodup h

/-- One simultaneous round through `k` performs one step of the `DD`
recursion on the lifted matrices. -/
theorem REL_step {E : List (Nat × Nat × Int)} {n : Nat} {inf : Int}
    {M0 : Nat → Nat → Int} (hN : NoNegCycle E) (hS : SimpleBound E inf)
    (hW : WFE E n inf) (hinf : 0 < inf)
    (hb0 : ∀ i j, i < n → j < n → M0 i j ≠ inf →
      ∃ c, WalkB E 0 i j c ∧ c ≤ M0 i j)
    (hble : ∀ i j, i < n → j < n → M0 i j ≤ inf)
    (hbdiag : ∀ i, i < n → M0 i i ≤ 0)
    (hbedge : ∀ e ∈ E, M0 e.1 e.2.1 ≤ e.2.2)
    (k : Nat) (hkn : k < n) (M : Nat → Nat → Int)
    (hrel : ∀ i j, i < n → j < n →
      liftI inf (M i j) = DD (liftMat inf M0) k i j)
    {i j : Nat} (hi : i < n) (hj : j < n) :
    liftI inf (simRelax inf k k id M i j) = DD (liftMat inf M0) (k + 1) i j := by
  have hA := hrel i j hi hj
  have hY := hrel i k hi hkn
  have hZ := hrel k j hkn hj
  rw [DD_succ]
  show liftI inf
    (if M i k = inf then M i j
     else if M k j = inf then M i j
     else if id (M i k) + M k j < M i j then id (M i k) + M k j
     else M i j) = _
  simp only [id_eq]
  by_cases hYtop : M i k = inf
  · have hYt : DD (liftMat inf M0) k i k = ⊤ := by
      rw [← hY, hYtop, liftI_self]
    rw [if_pos hYtop, hA, hYt, WithTop.top_add]
    exact (min_eq_left le_top).symm
  rw [if_neg hYtop]
  have hYc : DD (liftMat inf M0) k i k = ((M i k : Int) : WithTop Int) := by
    rw [← hY, liftI_of_ne hYtop]
  by_cases hZtop : M k j = inf
  · have hZt : DD (liftMat inf M0) k k j = ⊤ := by
      rw [← hZ, hZtop, liftI_self]
    rw [if_pos hZtop, hA, hZt, WithTop.add_top]
    exact (min_eq_left le_top).symm
  rw [if_neg hZtop]
  have hZc : DD (liftMat inf M0) k k j = ((M k j : Int) : WithTop Int) := by
    rw [← hZ, liftI_of_ne hZtop]
  by_cases hAtop : M i j = inf
  · have hAt : DD (liftMat inf M0) k i j = ⊤ := by
      rw [← hA, hAtop, liftI_self]
    by_cases hslt : M i k + M k j < M i j
    · have hsne : M i k + M k j ≠ inf := ne_of_lt (hAtop ▸ hslt)
      rw [if_pos hslt, liftI_of_ne hsne, hAt, hYc, hZc, ← WithTop.coe_add]
      exact (min_eq_right le_top).symm
    · exfalso
      have hDD : DD (liftMat inf M0) (k + 1) i j =
          ((M i k + M k j : Int) : WithTop Int) := by
        rw [DD_succ, hAt, hYc, hZc, ← WithTop.coe_add]
        exact min_eq_right le_top
      have hlt := DD_lt_inf hN hS hW hinf hb0 hble hbdiag hbedge (k + 1)
        (Nat.succ_le_of_lt hkn) i j hi hj _ hDD
      rw [hAtop] at hslt
      exact hslt hlt
  · have hAc : DD (liftMat inf M0) k i j = ((M i j : Int) : WithTop Int) := by
      rw [← hA, liftI_of_ne hAtop]
    by_cases hslt : M i k + M k j < M i j
    · have halt : M i j < inf := DD_lt_inf hN hS hW hinf hb0 hble hbdiag hbedge
        k (le_of_lt hkn) i j hi hj _ hAc
      have hsne : M i k + M k j ≠ inf := ne_of_lt (lt_trans hslt halt)
      rw [if_pos hslt, liftI_of_ne hsne, hAc, hYc, hZc, ← WithTop.coe_add]
      exact (min_eq_right (WithTop.coe_le_coe.mpr (le_of_lt hslt))).symm
    · rw [if_neg hslt, hA, hAc, hYc, hZc, ← WithTop.coe_add]
      exact (min_eq_left (WithTop.coe_le_coe.mpr (not_lt.mp hslt))).symm

/-- After `m` rounds of the in-place loop, the lifted matrix equals the
`DD` recursion at stage `m`. -/
theorem fwLoop_REL {E : List (Nat × Nat × Int)} {n : Nat} {inf : Int}
    {M0 : Nat → Nat → Int} (hN : NoNegCycle E) (hS : SimpleBound E inf)
    (hW : WFE E n inf) (hinf : 0 < inf)
    (hb0 : ∀ i j, i < n → j < n → M0 i j ≠ inf →
      ∃ c, WalkB E 0 i j c ∧ c ≤ M0 i j)
    (hble : ∀ i j, i < n → j < n → M0 i j ≤ inf)
    (hbdiag : ∀ i, i < n → M0 i i ≤ 0)
    (hbedge : ∀ e ∈ E, M0 e.1 e.2.1 ≤ e.2.2) :
    ∀ m, m ≤ n → ∀ i j, i < n → j < n →
      liftI inf ((List.range m).foldl
        (fun d k => (List.range n).foldl (mStep inf k k id (List.range n)) d)
        M0 i j) = DD (liftMat inf M0) m i j := by
  intro m
  induction m with
  | zero => intro _ i j hi hj; rfl
  | succ m ih =>
    intro hmn i j hi hj
    have hmn' : m ≤ n := Nat.le_of_succ_le hmn
    have hmltn : m < n := Nat.lt_of_succ_le hmn
    rw [List.range_succ, List.foldl_append, List.foldl_cons, List.foldl_nil]
    have hrel : ∀ i j, i < n → j < n →
        liftI inf ((List.range m).foldl
          (fun d k => (List.range n).foldl (mStep inf k k id (List.range n)) d)
          M0 i j) = DD (liftMat inf M0) m i j :=
      fun i j hi hj => ih hmn' i j hi hj
    have hkk : ((List.range m).foldl
        (fun d k => (List.range n).foldl (mStep inf k k id (List.range n)) d)
        M0) m m = inf ∨
        0 ≤ ((List.range m).foldl
          (fun d k => (List.range n).foldl (mStep inf k k id (List.range n)) d)
          M0) m m := by
      right
      have h0 := hrel m m hmltn hmltn
      rw [DD_diag_zero hN hinf hb0 hbdiag m hmn' m hmltn] at h0
      rw [(liftI_eq_coe h0).1]
    rw [fwRound_eq_sim n inf m _ hkk i j, if_pos ⟨hi, hj⟩]
    exact REL_step hN hS hW hinf hb0 hble hbdiag hbedge m hmltn _ hrel hi hj

/-- Running the `solve` loop on a matrix of direct costs produces the exact
all-pairs shortest distances. -/
theorem fwLoop_lazy_Exact {E : List (Nat × Nat × Int)} {n : Nat} {inf : Int}
    {M0 : Nat → Nat → Int} (hN : NoNegCycle E) (hS : SimpleBound E inf)
    (hW : WFE E n inf) (hinf : 0 < inf)
    (hb0 : ∀ i j, i < n → j < n → M0 i j ≠ inf →
      ∃ c, WalkB E 0 i j c ∧ c ≤ M0 i j)
    (hble : ∀ i j, i < n → j < n → M0 i j ≤ inf)
    (hbdiag : ∀ i, i < n → M0 i i ≤ 0)
    (hbedge : ∀ e ∈ E, M0 e.1 e.2.1 ≤ e.2.2) :
    Exact E n inf (fwLoop n inf M0) := by
  have hfinal : ∀ i j, i < n → j < n →
      liftI inf (fwLoop n inf M0 i j) = DD (liftMat inf M0) n i j := by
    intro i j hi hj
    rw [fwLoop_eq_rounds]
    exact fwLoop_REL hN hS hW hinf hb0 hble hbdiag hbedge n (le_refl n) i j hi hj
  have hmin : ∀ i j, i < n → j < n → ∀ c, WalkAny E i j c →
      fwLoop n inf M0 i j ≤ c := by
    intro i j hi hj c hc
    by_cases hij : i = j
    · subst hij
      have h0 := hfinal i i hi hi
      rw [DD_diag_zero hN hinf hb0 hbdiag n (le_refl n) i hi] at h0
      rw [(liftI_eq_coe h0).1]
      exact WalkAny_closed_nonneg hN hc
    · rcases hc with ⟨hij', -⟩ | ⟨l, hw⟩
      · exact absurd hij' hij
      obtain ⟨l', c', hw', hle', hsub', hnd'⟩ :=
        EWalk_reduce hN l.length (le_refl _) hw hij
      have hbnd : ∀ y ∈ l', y < n := (EWalk_vertices_lt hW hw').2.2
      have hcomp := DD_complete (liftMat_edge hW hbedge) n hw'
        (nodup_interior hnd') hbnd
      have h1 : liftI inf (fwLoop n inf M0 i j) ≤ ((c' : Int) : WithTop Int) := by
        rw [hfinal i j hi hj]; exact hcomp
      exact le_trans (liftI_le_coe h1) hle'
  intro i j hi hj
  constructor
  · rintro ⟨c, hc⟩
    refine ⟨?_, hmin i j hi hj⟩
    have hne : fwLoop n inf M0 i j ≠ inf := by
      by_cases hij : i = j
      · subst hij
        have h0 := hfinal i i hi hi
        rw [DD_diag_zero hN hinf hb0 hbdiag n (le_refl n) i hi] at h0
        rw [(liftI_eq_coe h0).1]
        exact ne_of_lt hinf
      · rcases hc with ⟨hij', -⟩ | ⟨l, hw⟩
        · exact absurd hij' hij
        obtain ⟨l', c', hw', hle', hsub', hnd'⟩ :=
          EWalk_reduce hN l.length (le_refl _) hw hij
        have h1 : fwLoop n inf M0 i j ≤ c' :=
          hmin i j hi hj c' (Or.inr ⟨l', hw'⟩)
        exact ne_of_lt (lt_of_le_of_lt h1 (hS i j l' c' hw' hnd'))
    have hcoe : liftI inf (fwLoop n inf M0 i j) =
        ((fwLoop n inf M0 i j : Int) : WithTop Int) := liftI_of_ne hne
    rw [hfinal i j hi hj] at hcoe
    obtain ⟨c'', hc'', hc''le⟩ :=
      DD_sound (liftMat_sound hb0) n (le_refl n) i j hi hj _ hcoe
    have h2 : fwLoop n inf M0 i j ≤ c'' :=
      hmin i j hi hj c'' (WalkB_toAny hc'')
    have h3 : c'' = fwLoop n inf M0 i j := le_antisymm hc''le h2
    exact h3 ▸ WalkB_toAny hc''
  · intro hr
    by_contra hne
    have hcoe : liftI inf (fwLoop n inf M0 i j) =
        ((fwLoop n inf M0 i j : Int) : WithTop Int) := liftI_of_ne hne
    rw [hfinal i j hi hj] at hcoe
    obtain ⟨c'', hc'', -⟩ :=
      DD_sound (liftMat_sound hb0) n (le_refl n) i j hi hj _ hcoe
    exact hr ⟨c'', WalkB_toAny hc''⟩


/-! ### Solving an arbitrary stale matrix: squeeze between the exact matrix
and the matrix of direct costs -/

/-- Entry soundness: every finite in-range entry dominates some walk cost. -/
def SWm (E : List (Nat × Nat × Int)) (n : Nat) (inf : Int)
    (M : Nat → Nat → Int) : Prop :=
  ∀ i j, i < n → j < n → M i j ≠ inf → ∃ c, WalkAny E i j c ∧ c ≤ M i j

/-- Entry cap: every in-range entry is at most the sentinel. -/
def LEm (n : Nat) (inf : Int) (M : Nat → Nat → Int) : Prop :=
  ∀ i j, i < n → j < n → M i j ≤ inf

theorem SWm_hkk {E : List (Nat × Nat × Int)} {n : Nat} {inf : Int}
    {M : Nat → Nat → Int} (hN : NoNegCycle E) (hSW : SWm E n inf M)
    {k : Nat} (hk : k < n) : M k k = inf ∨ 0 ≤ M k k := by
  by_cases h : M k k = inf
  · exact Or.inl h
  · obtain ⟨c, hc, hcle⟩ := hSW k k hk hk h
    exact Or.inr (le_trans (WalkAny_closed_nonneg hN hc) hcle)

theorem Exact_SWm {E : List (Nat × Nat × Int)} {n : Nat} {inf : Int}
    {M : Nat → Nat → Int} (hX : Exact E n inf M) : SWm E n inf M := by
  intro i j hi hj hne
  have hr : ∃ c, WalkAny E i j c := by
    by_contra hr
    exact hne ((hX i j hi hj).2 hr)
  exact ⟨M i j, ((hX i j hi hj).1 hr).1, le_refl _⟩

/-- The `solve` loop fixes an exact matrix. -/
theorem fwLoop_fix {E : List (Nat × Nat × Int)} {n : Nat} {inf : Int}
    {M : Nat → Nat → Int} (hN : NoNegCycle E) (hS : SimpleBound E inf)
    (hinf : 0 < inf) (hX : Exact E n inf M) : fwLoop n inf M = M := by
  rw [fwLoop_eq_rounds]
  have hround : ∀ k, k < n →
      (List.range n).foldl (mStep inf k k id (List.range n)) M = M := by
    intro k hk
    funext a b
    have hkk : M k k = inf ∨ 0 ≤ M k k :=
      Or.inr (le_of_eq (Exact_diag hX hN hk).symm)
    rw [fwRound_eq_sim n inf k M hkk a b]
    by_cases hab : a < n ∧ b < n
    · rw [if_pos hab]
      unfold simRelax
      simp only [id_eq]
      by_cases h1 : M a k = inf
      · rw [if_pos h1]
      · rw [if_neg h1]
        by_cases h2 : M k b = inf
        · rw [if_pos h2]
        · rw [if_neg h2,
            if_neg (not_lt_of_le (Exact_triangle hX hN hS hinf hab.1 hk hab.2 h1 h2))]
    · rw [if_neg hab]
  have hfold : ∀ L : List Nat, (∀ k ∈ L, k < n) →
      L.foldl (fun d k =>
        (List.range n).foldl (mStep inf k k id (List.range n)) d) M = M := by
    intro L
    induction L with
    | nil => intro _; rfl
    | cons k L ih =>
      intro hL
      rw [List.foldl_cons, hround k (hL k (List.mem_cons_self _ _)),
        ih (fun k' h => hL k' (List.mem_cons_of_mem _ h))]
  exact hfold (List.range n) (fun k h => List.mem_range.mp h)

/-- One round preserves entry soundness and the sentinel cap. -/
theorem round_preserve {E : List (Nat × Nat × Int)} {n : Nat} {inf : Int}
    {M : Nat → Nat → Int} (hN : NoNegCycle E) (hSW : SWm E n inf M)
    (hLE : LEm n inf M) {k : Nat} (hk : k < n) :
    SWm E n inf ((List.range n).foldl (mStep inf k k id (List.range n)) M) ∧
    LEm n inf ((List.range n).foldl (mStep inf k k id (List.range n)) M) := by
  have hkk := SWm_hkk hN hSW hk
  have hval : ∀ a b, a < n → b < n →
      (List.range n).foldl (mStep inf k k id (List.range n)) M a b =
        simRelax inf k k id M a b := by
    intro a b ha hb
    rw [fwRound_eq_sim n inf k M hkk a b, if_pos ⟨ha, hb⟩]
  constructor
  · intro a b ha hb hne
    rw [hval a b ha hb] at hne ⊢
    unfold simRelax at hne ⊢
    simp only [id_eq] at hne ⊢
    by_cases h1 : M a k = inf
    · rw [if_pos h1] at hne ⊢
      obtain ⟨c, hc, hcle⟩ := hSW a b ha hb hne
      exact ⟨c, hc, hcle⟩
    · rw [if_neg h1] at hne ⊢
      by_cases h2 : M k b = inf
      · rw [if_pos h2] at hne ⊢
        obtain ⟨c, hc, hcle⟩ := hSW a b ha hb hne
        exact ⟨c, hc, hcle⟩
      · rw [if_neg h2] at hne ⊢
        by_cases h3 : M a k + M k b < M a b
        · rw [if_pos h3] at hne ⊢
          obtain ⟨c1, hc1, hc1le⟩ := hSW a k ha hk h1
          obtain ⟨c2, hc2, hc2le⟩ := hSW k b hk hb h2
          exact ⟨c1 + c2, WalkAny_glue hc1 hc2, add_le_add hc1le hc2le⟩
        · rw [if_neg h3] at hne ⊢
          obtain ⟨c, hc, hcle⟩ := hSW a b ha hb hne
          exact ⟨c, hc, hcle⟩
  · intro a b ha hb
    rw [hval a b ha hb]
    unfold simRelax
    simp only [id_eq]
    by_cases h1 : M a k = inf
    · rw [if_pos h1]; exact hLE a b ha hb
    · rw [if_neg h1]
      by_cases h2 : M k b = inf
      · rw [if_pos h2]; exact hLE a b ha hb
      · rw [if_neg h2]
        by_cases h3 : M a k + M k b < M a b
        · rw [if_pos h3]
          exact le_of_lt (lt_of_lt_of_le h3 (hLE a b ha hb))
        · rw [if_neg h3]; exact hLE a b ha hb
  
/-- One round is pointwise monotone in the matrix. -/
theorem round_mono {E : List (Nat × Nat × Int)} {n : Nat} {inf : Int}
    {M M' : Nat → Nat → Int} (hN : NoNegCycle E)
    (hSW : SWm E n inf M) (hSW' : SWm E n inf M')
    (hLE : LEm n inf M) (hLE' : LEm n inf M')
    (hle : ∀ i j, i < n → j < n → M i j ≤ M' i j) {k : Nat} (hk : k < n) :
    ∀ a b, a < n → b < n →
      (List.range n).foldl (mStep inf k k id (List.range n)) M a b ≤
      (List.range n).foldl (mStep inf k k id (List.range n)) M' a b := by
  intro a b ha hb
  rw [fwRound_eq_sim n inf k M (SWm_hkk hN hSW hk) a b, if_pos ⟨ha, hb⟩,
    fwRound_eq_sim n inf k M' (SWm_hkk hN hSW' hk) a b, if_pos ⟨ha, hb⟩]
  unfold simRelax
  simp only [id_eq]
  -- the left result never exceeds both its old entry and, when the right
  -- side fires its update, the right candidate
  have hLold : (if M a k = inf then M a b
      else if M k b = inf then M a b
      else if M a k + M k b < M a b then M a k + M k b else M a b) ≤ M a b := by
    by_cases h1 : M a k = inf
    · rw [if_pos h1]
    · rw [if_neg h1]
      by_cases h2 : M k b = inf
      · rw [if_pos h2]
      · rw [if_neg h2]
        by_cases h3 : M a k + M k b < M a b
        · rw [if_pos h3]; exact le_of_lt h3
        · rw [if_neg h3]
  by_cases h1' : M' a k = inf
  · rw [if_pos h1']
    exact le_trans hLold (hle a b ha hb)
  rw [if_neg h1']
  by_cases h2' : M' k b = inf
  · rw [if_pos h2']
    exact le_trans hLold (hle a b ha hb)
  rw [if_neg h2']
  by_cases h3' : M' a k + M' k b < M' a b
  case neg =>
    rw [if_neg h3']
    exact le_trans hLold (hle a b ha hb)
  rw [if_pos h3']
  -- the right side fires: the left entries cannot be sentinels
  have hak : M a k ≠ inf :=
    ne_of_lt (lt_of_le_of_lt (hle a k ha hk)
      (lt_of_le_of_ne (hLE' a k ha hk) h1'))
  have hkb : M k b ≠ inf :=
    ne_of_lt (lt_of_le_of_lt (hle k b hk hb)
      (lt_of_le_of_ne (hLE' k b hk hb) h2'))
  have hcand : M a k + M k b ≤ M' a k + M' k b :=
    add_le_add (hle a k ha hk) (hle k b hk hb)
  rw [if_neg (fun hh => hak hh)]
  rw [if_neg (fun hh => hkb hh)]
  by_cases h3 : M a k + M k b < M a b
  · rw [if_pos h3]; exact hcand
  · rw [if_neg h3]
    exact le_trans (not_lt.mp h3) hcand

/-- The whole loop is pointwise monotone between sound capped matrices. -/
theorem fwLoop_mono {E : List (Nat × Nat × Int)} {n : Nat} {inf : Int}
    {M M' : Nat → Nat → Int} (hN : NoNegCycle E)
    (hSW : SWm E n inf M) (hSW' : SWm E n inf M')
    (hLE : LEm n inf M) (hLE' : LEm n inf M')
    (hle : ∀ i j, i < n → j < n → M i j ≤ M' i j) :
    ∀ a b, a < n → b < n → fwLoop n inf M a b ≤ fwLoop n inf M' a b := by
  have hfold : ∀ L : List Nat, (∀ k ∈ L, k < n) →
      ∀ M M' : Nat → Nat → Int, SWm E n inf M → SWm E n inf M' →
      LEm n inf M → LEm n inf M' →
      (∀ i j, i < n → j < n → M i j ≤ M' i j) →
      ∀ a b, a < n → b < n →
        L.foldl (fun d k =>
          (List.range n).foldl (mStep inf k k id (List.range n)) d) M a b ≤
        L.foldl (fun d k =>
          (List.range n).foldl (mStep inf k k id (List.range n)) d) M' a b := by
    intro L
    induction L with
    | nil => intro _ M M' _ _ _ _ hle a b ha hb; exact hle a b ha hb
    | cons k L ih =>
      intro hL M M' hSW hSW' hLE hLE' hle a b ha hb
      have hk : k < n := hL k (List.mem_cons_self _ _)
      rw [List.foldl_cons, List.foldl_cons]
      exact ih (fun k' h => hL k' (List.mem_cons_of_mem _ h)) _ _
        (round_preserve hN hSW hLE hk).1 (round_preserve hN hSW' hLE' hk).1
        (round_preserve hN hSW hLE hk).2 (round_preserve hN hSW' hLE' hk).2
        (round_mono hN hSW hSW' hLE hLE' hle hk) a b ha hb
  intro a b ha hb
  rw [fwLoop_eq_rounds, fwLoop_eq_rounds]
  exact hfold (List.range n) (fun k h => List.mem_range.mp h) M M'
    hSW hSW' hLE hLE' hle a b ha hb


/-- The matrix of direct costs: 0 on the diagonal, otherwise the minimum
inserted weight of the ordered pair, the sentinel if none. -/
def lazyMat (E : List (Nat × Nat × Int)) (inf : Int) : Nat → Nat → Int :=
  fun i j => E.foldr
    (fun e acc => if e.1 = i ∧ e.2.1 = j ∧ e.2.2 < acc then e.2.2 else acc)
    (if i = j then 0 else inf)

theorem lazyMat_le_init (E : List (Nat × Nat × Int)) (inf : Int) (i j : Nat) :
    lazyMat E inf i j ≤ (if i = j then 0 else inf) := by
  show List.foldr _ _ E ≤ _
  induction E with
  | nil => exact le_refl _
  | cons e E ih =>
    rw [List.foldr_cons]
    by_cases h : e.1 = i ∧ e.2.1 = j ∧ e.2.2 < List.foldr
        (fun e acc => if e.1 = i ∧ e.2.1 = j ∧ e.2.2 < acc then e.2.2 else acc)
        (if i = j then 0 else inf) E
    · rw [if_pos h]
      exact le_trans (le_of_lt h.2.2) ih
    · rw [if_neg h]
      exact ih

theorem lazyMat_le_edge (E : List (Nat × Nat × Int)) (inf : Int) :
    ∀ e ∈ E, lazyMat E inf e.1 e.2.1 ≤ e.2.2 := by
  induction E with
  | nil => intro e he; exact absurd he (List.not_mem_nil _)
  | cons e0 E ih =>
    intro e he
    rcases List.mem_cons.mp he with rfl | he
    · show (if e.1 = e.1 ∧ e.2.1 = e.2.1 ∧ e.2.2 < List.foldr _ _ E
        then e.2.2 else List.foldr _ _ E) ≤ e.2.2
      by_cases h : e.1 = e.1 ∧ e.2.1 = e.2.1 ∧ e.2.2 < List.foldr
          (fun e' acc => if e'.1 = e.1 ∧ e'.2.1 = e.2.1 ∧ e'.2.2 < acc
            then e'.2.2 else acc)
          (if e.1 = e.2.1 then 0 else inf) E
      · rw [if_pos h]
      · rw [if_neg h]
        rcases not_and_or.mp h with h1 | h1
        · exact absurd rfl h1
        rcases not_and_or.mp h1 with h2 | h2
        · exact absurd rfl h2
        · exact not_lt.mp h2
    · show (if e0.1 = e.1 ∧ e0.2.1 = e.2.1 ∧ e0.2.2 < List.foldr _ _ E
        then e0.2.2 else List.foldr _ _ E) ≤ e.2.2
      by_cases h : e0.1 = e.1 ∧ e0.2.1 = e.2.1 ∧ e0.2.2 < List.foldr
          (fun e' acc => if e'.1 = e.1 ∧ e'.2.1 = e.2.1 ∧ e'.2.2 < acc
            then e'.2.2 else acc)
          (if e.1 = e.2.1 then 0 else inf) E
      · rw [if_pos h]
        exact le_of_lt (lt_of_lt_of_le h.2.2 (ih e he))
      · rw [if_neg h]
        exact ih e he

theorem lazyMat_cases (E : List (Nat × Nat × Int)) (inf : Int) (i j : Nat) :
    lazyMat E inf i j = (if i = j then 0 else inf) ∨
    ∃ e ∈ E, e.1 = i ∧ e.2.1 = j ∧ lazyMat E inf i j = e.2.2 := by
  have main : ∀ (F : List (Nat × Nat × Int)) (init : Int),
      F.foldr (fun e acc => if e.1 = i ∧ e.2.1 = j ∧ e.2.2 < acc
        then e.2.2 else acc) init = init ∨
      ∃ e ∈ F, e.1 = i ∧ e.2.1 = j ∧
        F.foldr (fun e acc => if e.1 = i ∧ e.2.1 = j ∧ e.2.2 < acc
          then e.2.2 else acc) init = e.2.2 := by
    intro F
    induction F with
    | nil => intro init; exact Or.inl rfl
    | cons e0 F ih =>
      intro init
      rw [List.foldr_cons]
      by_cases h : e0.1 = i ∧ e0.2.1 = j ∧ e0.2.2 < F.foldr
          (fun e acc => if e.1 = i ∧ e.2.1 = j ∧ e.2.2 < acc
            then e.2.2 else acc) init
      · rw [if_pos h]
        exact Or.inr ⟨e0, List.mem_cons_self _ _, h.1, h.2.1, rfl⟩
      · rw [if_neg h]
        rcases ih init with h1 | ⟨e, he, h1, h2, h3⟩
        · exact Or.inl h1
        · exact Or.inr ⟨e, List.mem_cons_of_mem _ he, h1, h2, h3⟩
  exact main E (if i = j then 0 else inf)

/-- Solving from any sound, capped, edge- and diagonal-dominated matrix
yields the exact distances: squeeze the loop between the exact matrix (a
fixed point) and the matrix of direct costs. -/
theorem fwLoop_stale_Exact {E : List (Nat × Nat × Int)} {n : Nat} {inf : Int}
    {M0 : Nat → Nat → Int} (hN : NoNegCycle E) (hS : SimpleBound E inf)
    (hW : WFE E n inf) (hinf : 0 < inf)
    (hSW : SWm E n inf M0) (hLE : LEm n inf M0)
    (hdiag : ∀ i, i < n → M0 i i ≤ 0)
    (hedge : ∀ e ∈ E, M0 e.1 e.2.1 ≤ e.2.2) :
    Exact E n inf (fwLoop n inf M0) := by
  -- the matrix of direct costs satisfies the lazy-solve hypotheses
  have hLble : ∀ i j, i < n → j < n → lazyMat E inf i j ≤ inf := by
    intro i j hi hj
    refine le_trans (lazyMat_le_init E inf i j) ?_
    by_cases h : i = j
    · rw [if_pos h]; exact le_of_lt hinf
    · rw [if_neg h]
  have hLdiag : ∀ i, i < n → lazyMat E inf i i ≤ 0 := by
    intro i hi
    have h1 := lazyMat_le_init E inf i i
    rwa [if_pos rfl] at h1
  have hLb0 : ∀ i j, i < n → j < n → lazyMat E inf i j ≠ inf →
      ∃ c, WalkB E 0 i j c ∧ c ≤ lazyMat E inf i j := by
    intro i j hi hj hne
    rcases lazyMat_cases E inf i j with h1 | ⟨e, he, he1, he2, he3⟩
    · by_cases hij : i = j
      · rw [h1, if_pos hij]
        exact ⟨0, Or.inl ⟨hij, rfl⟩, le_refl _⟩
      · rw [h1, if_neg hij] at hne
        exact absurd rfl hne
    · refine ⟨e.2.2, Or.inr ⟨[], ?_, by simp⟩, le_of_eq he3.symm⟩
      have : (e.1, e.2.1, e.2.2) = e := rfl
      rw [he1, he2] at this
      exact EWalk.single (this ▸ he)
  have hXlazy : Exact E n inf (fwLoop n inf (lazyMat E inf)) :=
    fwLoop_lazy_Exact hN hS hW hinf hLb0 hLble hLdiag (lazyMat_le_edge E inf)
  -- squeeze
  have hup : ∀ i j, i < n → j < n → M0 i j ≤ lazyMat E inf i j := by
    intro i j hi hj
    rcases lazyMat_cases E inf i j with h1 | ⟨e, he, he1, he2, he3⟩
    · rw [h1]
      by_cases hij : i = j
      · rw [if_pos hij]
        exact hij ▸ hdiag i hi
      · rw [if_neg hij]
        exact hLE i j hi hj
    · rw [he3, ← he1, ← he2]
      exact hedge e he
  have hdown : ∀ i j, i < n → j < n →
      fwLoop n inf (lazyMat E inf) i j ≤ M0 i j := by
    intro i j hi hj
    by_cases hne : M0 i j = inf
    · rw [hne]
      exact Exact_le_inf hXlazy hN hS hinf hi hj
    · obtain ⟨c, hc, hcle⟩ := hSW i j hi hj hne
      exact le_trans (Exact_min hXlazy hi hj hc) hcle
  have hSWlazy : SWm E n inf (lazyMat E inf) := by
    intro i j hi hj hne
    obtain ⟨c, hc, hle⟩ := hLb0 i j hi hj hne
    exact ⟨c, WalkB_toAny hc, hle⟩
  have hSWX : SWm E n inf (fwLoop n inf (lazyMat E inf)) := Exact_SWm hXlazy
  have hLEX : LEm n inf (fwLoop n inf (lazyMat E inf)) := by
    intro i j hi hj
    exact Exact_le_inf hXlazy hN hS hinf hi hj
  have hfix : fwLoop n inf (fwLoop n inf (lazyMat E inf)) =
      fwLoop n inf (lazyMat E inf) := fwLoop_fix hN hS hinf hXlazy
  have hagree : ∀ i j, i < n → j < n →
      fwLoop n inf M0 i j = fwLoop n inf (lazyMat E inf) i j := by
    intro i j hi hj
    have hlow : fwLoop n inf (lazyMat E inf) i j ≤ fwLoop n inf M0 i j := by
      have h1 := fwLoop_mono hN hSWX hSW hLEX hLE hdown i j hi hj
      rwa [hfix] at h1
    have hhigh : fwLoop n inf M0 i j ≤ fwLoop n inf (lazyMat E inf) i j :=
      fwLoop_mono hN hSW hSWlazy hLE hLble hup i j hi hj
    exact le_antisymm hhigh hlow
  intro i j hi hj
  rw [show fwLoop n inf M0 i j = fwLoop n inf (lazyMat E inf) i j from
    hagree i j hi hj]
  exact hXlazy i j hi hj


/-! ### Incremental relaxation of a single edge on an exact matrix -/

/-- Decomposing a walk over `(u,v,w) :: E` at the first use of the new edge:
either it avoids the new edge, or it splits into an `E`-part into `u`, the
new edge, and a residual part from `v` (recursively eliminated using that no
negative cycle closes through the new edge). -/
theorem EWalk_new_edge_decomp {E : List (Nat × Nat × Int)} {u v : Nat}
    {w : Int} (hN' : NoNegCycle ((u, v, w) :: E)) :
    ∀ {i j : Nat} {l : List Nat} {c : Int}, EWalk ((u, v, w) :: E) i j l c →
      (∃ c', c' ≤ c ∧ WalkAny E i j c') ∨
      (∃ c1 c2, WalkAny E i u c1 ∧ WalkAny E v j c2 ∧ c1 + w + c2 ≤ c) := by
  intro i j l c hw
  induction hw with
  | single he =>
    next a b we =>
    rcases List.mem_cons.mp he with heq | he
    · have ha : a = u := congrArg Prod.fst heq
      have hb : b = v := congrArg (fun p : Nat × Nat × Int => p.2.1) heq
      have hwe : we = w := congrArg (fun p : Nat × Nat × Int => p.2.2) heq
      refine Or.inr ⟨0, 0, ha ▸ WalkAny_nil E a, ?_, ?_⟩
      · rw [← hb]
        exact WalkAny_nil E b
      · rw [hwe]
        ring_nf
        exact le_refl _
    · exact Or.inl ⟨we, le_refl _, WalkAny_edge he⟩
  | cons he hrest ih =>
    next a m j2 we cr l2 =>
    rcases List.mem_cons.mp he with heq | he
    · have ha : a = u := congrArg Prod.fst heq
      have hm : m = v := congrArg (fun p : Nat × Nat × Int => p.2.1) heq
      have hwe : we = w := congrArg (fun p : Nat × Nat × Int => p.2.2) heq
      rcases ih with ⟨c', hle, hE⟩ | ⟨c1, c2, h1, h2, hle⟩
      · refine Or.inr ⟨0, c', ha ▸ WalkAny_nil E a, ?_, by linarith⟩
        rw [← hm]
        exact hE
      · -- the residual still uses the edge: close the cycle v → u → v
        have h1' : WalkAny E v u c1 := hm ▸ h1
        have hclosed : 0 ≤ c1 + w := by
          rcases h1' with ⟨hvu, hc10⟩ | ⟨l1, hw1⟩
          · rw [hc10, zero_add]
            have hpair : ((u : Nat), u, w) = (u, v, w) := by rw [hvu]
            have hmem : ((u : Nat), u, w) ∈ (u, v, w) :: E := by
              rw [hpair]
              exact List.mem_cons_self _ _
            exact hN' u [] w (EWalk.single hmem)
          · have hlift : EWalk ((u, v, w) :: E) v u l1 c1 :=
              EWalk_mono (List.subset_cons_self _ _) hw1
            have hcyc : EWalk ((u, v, w) :: E) v v (l1 ++ u :: []) (c1 + w) :=
              EWalk_append hlift (EWalk.single (List.mem_cons_self _ _))
            exact hN' _ _ _ hcyc
        exact Or.inr ⟨0, c2, ha ▸ WalkAny_nil E a, h2, by linarith⟩
    · rcases ih with ⟨c', hle, hE⟩ | ⟨c1, c2, h1, h2, hle⟩
      · exact Or.inl ⟨we + c', by linarith, WalkAny_glue (WalkAny_edge he) hE⟩
      · exact Or.inr ⟨we + c1, c2, WalkAny_glue (WalkAny_edge he) h1, h2, by linarith⟩

theorem WalkAny_new_edge_decomp {E : List (Nat × Nat × Int)} {u v : Nat}
    {w : Int} (hN' : NoNegCycle ((u, v, w) :: E)) {i j : Nat} {c : Int}
    (hw : WalkAny ((u, v, w) :: E) i j c) :
    (∃ c', c' ≤ c ∧ WalkAny E i j c') ∨
    (∃ c1 c2, WalkAny E i u c1 ∧ WalkAny E v j c2 ∧ c1 + w + c2 ≤ c) := by
  rcases hw with ⟨rfl, rfl⟩ | ⟨l, hw⟩
  · exact Or.inl ⟨0, le_refl _, WalkAny_nil E i⟩
  · exact EWalk_new_edge_decomp hN' hw

/-- A non-improving insertion leaves the matrix exact for the extended edge
list: the new edge never shortens any distance. -/
theorem Exact_insert_noop {E : List (Nat × Nat × Int)} {n : Nat} {inf : Int}
    {M : Nat → Nat → Int} {u v : Nat} {w : Int}
    (hN' : NoNegCycle ((u, v, w) :: E)) (hX : Exact E n inf M)
    (hu : u < n) (hv : v < n) (hle : M u v ≤ w) (hwinf : w < inf) :
    Exact ((u, v, w) :: E) n inf M := by
  have hsub : E ⊆ (u, v, w) :: E := List.subset_cons_self _ _
  have helim : ∀ i j c, WalkAny ((u, v, w) :: E) i j c →
      ∃ c', c' ≤ c ∧ WalkAny E i j c' := by
    intro i j c hc
    rcases WalkAny_new_edge_decomp hN' hc with ⟨c', hle', hE⟩ | ⟨c1, c2, h1, h2, hlec⟩
    · exact ⟨c', hle', hE⟩
    · have hne : M u v ≠ inf := ne_of_lt (lt_of_le_of_lt hle hwinf)
      have hreach : ∃ c0, WalkAny E u v c0 := by
        by_contra hr
        exact hne ((hX u v hu hv).2 hr)
      have hach : WalkAny E u v (M u v) := ((hX u v hu hv).1 hreach).1
      exact ⟨c1 + M u v + c2, by linarith,
        WalkAny_glue (WalkAny_glue h1 hach) h2⟩
  intro i j hi hj
  constructor
  · rintro ⟨c, hc⟩
    obtain ⟨c', hle', hE⟩ := helim i j c hc
    have hreach : ∃ c0, WalkAny E i j c0 := ⟨c', hE⟩
    refine ⟨WalkAny_mono hsub ((hX i j hi hj).1 hreach).1, ?_⟩
    intro c0 hc0
    obtain ⟨c0', hle0, hE0⟩ := helim i j c0 hc0
    exact le_trans (((hX i j hi hj).1 hreach).2 c0' hE0) hle0
  · intro hr
    refine (hX i j hi hj).2 ?_
    rintro ⟨c, hcE⟩
    exact hr ⟨c, WalkAny_mono hsub hcE⟩


/-- An improving insertion followed by the simultaneous propagation formula
yields the exact matrix of the extended edge list. -/
theorem Exact_insert_improve {E : List (Nat × Nat × Int)} {n : Nat} {inf : Int}
    {M : Nat → Nat → Int} {u v : Nat} {w : Int}
    (hN' : NoNegCycle ((u, v, w) :: E)) (hS' : SimpleBound ((u, v, w) :: E) inf)
    (hW' : WFE ((u, v, w) :: E) n inf) (hinf : 0 < inf)
    (hX : Exact E n inf M) (himp : w < M u v) :
    Exact ((u, v, w) :: E) n inf
      (fun i j => if i < n ∧ j < n
        then simRelax inf u v (fun x => x + w) (updD M u v w) i j
        else updD M u v w i j) := by
  have hsub : E ⊆ (u, v, w) :: E := List.subset_cons_self _ _
  have hN : NoNegCycle E := NoNegCycle_anti hsub hN'
  have hS : SimpleBound E inf := SimpleBound_anti hsub hS'
  have hW : WFE E n inf := fun e he => hW' e (hsub he)
  have hu : u < n := (hW' _ (List.mem_cons_self _ _)).1
  have hv : v < n := (hW' _ (List.mem_cons_self _ _)).2.1
  have hwinf : w < inf := (hW' _ (List.mem_cons_self _ _)).2.2
  have huv : u ≠ v := by
    rintro rfl
    rw [Exact_diag hX hN hu] at himp
    exact absurd (hN' u [] w (EWalk.single (List.mem_cons_self _ _)))
      (not_le_of_lt himp)
  have hPiu : ∀ i, updD M u v w i u = M i u :=
    fun i => updD_of_ne M u v w (fun hh => huv hh.2)
  have hPvj : ∀ j, updD M u v w v j = M v j :=
    fun j => updD_of_ne M u v w (fun hh => huv (hh.1.symm))
  have hPuv : updD M u v w u v = w := updD_same M u v w
  have hPle : ∀ i j, updD M u v w i j ≤ M i j := by
    intro i j
    by_cases h : i = u ∧ j = v
    · rw [updD, if_pos h, h.1, h.2]
      exact le_of_lt himp
    · rw [updD_of_ne M u v w h]
  intro i j hi hj
  simp only []
  rw [if_pos ⟨hi, hj⟩]
  by_cases g1 : M i u = inf
  · -- no known path into u: the entry is untouched and the new edge is
    -- unusable from i
    have hval : simRelax inf u v (fun x => x + w) (updD M u v w) i j =
        updD M u v w i j := by
      unfold simRelax
      rw [hPiu i, if_pos g1]
    have hne_uv : ¬ (i = u ∧ j = v) := by
      rintro ⟨rfl, rfl⟩
      rw [Exact_diag hX hN hi] at g1
      exact absurd g1 (ne_of_lt hinf)
    have hPij : updD M u v w i j = M i j := updD_of_ne M u v w hne_uv
    have helim : ∀ c, WalkAny ((u, v, w) :: E) i j c →
        ∃ c', c' ≤ c ∧ WalkAny E i j c' := by
      intro c hc
      rcases WalkAny_new_edge_decomp hN' hc with ⟨c', hle, hE⟩ | ⟨c1, c2, h1, h2, -⟩
      · exact ⟨c', hle, hE⟩
      · exact absurd g1 (ne_of_lt (Exact_lt_inf hX hN hS hinf hi hu h1))
    rw [hval, hPij]
    constructor
    · rintro ⟨c, hc⟩
      obtain ⟨c', hle', hE⟩ := helim c hc
      have hreach : ∃ c0, WalkAny E i j c0 := ⟨c', hE⟩
      refine ⟨WalkAny_mono hsub ((hX i j hi hj).1 hreach).1, ?_⟩
      intro c0 hc0
      obtain ⟨c0', hle0, hE0⟩ := helim c0 hc0
      exact le_trans (((hX i j hi hj).1 hreach).2 c0' hE0) hle0
    · intro hr
      refine (hX i j hi hj).2 ?_
      rintro ⟨c, hcE⟩
      exact hr ⟨c, WalkAny_mono hsub hcE⟩
  by_cases g2 : M v j = inf
  · -- no known path out of v: symmetric to the previous case
    have hval : simRelax inf u v (fun x => x + w) (updD M u v w) i j =
        updD M u v w i j := by
      unfold simRelax
      rw [hPiu i, if_neg g1, hPvj j, if_pos g2]
    have hne_uv : ¬ (i = u ∧ j = v) := by
      rintro ⟨rfl, rfl⟩
      rw [Exact_diag hX hN hj] at g2
      exact absurd g2 (ne_of_lt hinf)
    have hPij : updD M u v w i j = M i j := updD_of_ne M u v w hne_uv
    have helim : ∀ c, WalkAny ((u, v, w) :: E) i j c →
        ∃ c', c' ≤ c ∧ WalkAny E i j c' := by
      intro c hc
      rcases WalkAny_new_edge_decomp hN' hc with ⟨c', hle, hE⟩ | ⟨c1, c2, h1, h2, -⟩
      · exact ⟨c', hle, hE⟩
      · exact absurd g2 (ne_of_lt (Exact_lt_inf hX hN hS hinf hv hj h2))
    rw [hval, hPij]
    constructor
    · rintro ⟨c, hc⟩
      obtain ⟨c', hle', hE⟩ := helim c hc
      have hreach : ∃ c0, WalkAny E i j c0 := ⟨c', hE⟩
      refine ⟨WalkAny_mono hsub ((hX i j hi hj).1 hreach).1, ?_⟩
      intro c0 hc0
      obtain ⟨c0', hle0, hE0⟩ := helim c0 hc0
      exact le_trans (((hX i j hi hj).1 hreach).2 c0' hE0) hle0
    · intro hr
      refine (hX i j hi hj).2 ?_
      rintro ⟨c, hcE⟩
      exact hr ⟨c, WalkAny_mono hsub hcE⟩
  · -- both gates open: the candidate through the new edge is real
    have hreach1 : ∃ c, WalkAny E i u c :=
      (Exact_ne_inf_iff hX hN hS hinf hi hu).mp g1
    have hach1 : WalkAny E i u (M i u) := ((hX i u hi hu).1 hreach1).1
    have hreach2 : ∃ c, WalkAny E v j c :=
      (Exact_ne_inf_iff hX hN hS hinf hv hj).mp g2
    have hach2 : WalkAny E v j (M v j) := ((hX v j hv hj).1 hreach2).1
    have hcand : WalkAny ((u, v, w) :: E) i j (M i u + w + M v j) :=
      WalkAny_glue (WalkAny_glue (WalkAny_mono hsub hach1)
        (WalkAny_edge (List.mem_cons_self _ _))) (WalkAny_mono hsub hach2)
    have hval : simRelax inf u v (fun x => x + w) (updD M u v w) i j =
        if M i u + w + M v j < updD M u v w i j then M i u + w + M v j
        else updD M u v w i j := by
      unfold simRelax
      simp only []
      rw [hPiu i, if_neg g1, hPvj j, if_neg g2]
    have hlow : ∀ c, WalkAny ((u, v, w) :: E) i j c →
        updD M u v w i j ≤ c ∨ M i u + w + M v j ≤ c := by
      intro c hc
      rcases WalkAny_new_edge_decomp hN' hc with
        ⟨c', hle, hE⟩ | ⟨c1, c2, h1, h2, hlec⟩
      · exact Or.inl (le_trans (le_trans (hPle i j) (Exact_min hX hi hj hE)) hle)
      · refine Or.inr ?_
        have e1 : M i u ≤ c1 := Exact_min hX hi hu h1
        have e2 : M v j ≤ c2 := Exact_min hX hv hj h2
        linarith
    rw [hval]
    by_cases hc : M i u + w + M v j < updD M u v w i j
    · rw [if_pos hc]
      constructor
      · rintro -
        refine ⟨hcand, ?_⟩
        intro c hcw
        rcases hlow c hcw with h | h
        · exact le_trans (le_of_lt hc) h
        · exact h
      · intro hr
        exact absurd ⟨_, hcand⟩ hr
    · rw [if_neg hc]
      by_cases huvij : i = u ∧ j = v
      · have hPw : updD M u v w i j = w := by
          rw [huvij.1, huvij.2]
          exact hPuv
        have hcand_w : M i u + w + M v j = w := by
          rw [huvij.1, huvij.2, Exact_diag hX hN hu, Exact_diag hX hN hv]
          ring
        have hachw : WalkAny ((u, v, w) :: E) i j w := by
          rw [huvij.1, huvij.2]
          exact WalkAny_edge (List.mem_cons_self _ _)
        constructor
        · rintro -
          refine ⟨?_, ?_⟩
          · rw [hPw]
            exact hachw
          · intro c hcw
            rcases hlow c hcw with h | h
            · exact h
            · rw [hcand_w] at h
              rw [hPw]
              exact h
        · intro hr
          exact absurd ⟨_, hcand⟩ hr
      · have hPij : updD M u v w i j = M i j := updD_of_ne M u v w huvij
        have hMij : M i j ≠ inf := by
          intro hinfij
          have hij : i ≠ j := by
            rintro rfl
            rw [Exact_diag hX hN hi] at hinfij
            exact absurd hinfij (ne_of_lt hinf)
          rcases hcand with ⟨hijeq, -⟩ | ⟨l, hwlk⟩
          · exact hij hijeq
          obtain ⟨l', c', hw', hle', -, hnd'⟩ :=
            EWalk_reduce hN' l.length (le_refl _) hwlk hij
          have hc'inf : c' < inf := hS' i j l' c' hw' hnd'
          rcases hlow c' (Or.inr ⟨l', hw'⟩) with h | h
          · rw [hPij, hinfij] at h
            exact absurd (lt_of_le_of_lt h hc'inf) (lt_irrefl _)
          · have hcl : M i u + w + M v j < inf := lt_of_le_of_lt h hc'inf
            rw [hPij, hinfij] at hc
            exact hc hcl
        constructor
        · rintro -
          refine ⟨?_, ?_⟩
          · rw [hPij]
            exact WalkAny_mono hsub (((hX i j hi hj).1
              ((Exact_ne_inf_iff hX hN hS hinf hi hj).mp hMij)).1)
          · intro c hcw
            rcases hlow c hcw with h | h
            · exact h
            · exact le_trans (not_lt.mp hc) h
        · intro hr
          exact absurd ⟨_, hcand⟩ hr

/-- The full state effect of an improving propagate-insertion on an exact
matrix: the engine's propagation loop yields the exact matrix of the extended
edge list. -/
theorem Exact_propagate_state {E : List (Nat × Nat × Int)} {n : Nat}
    {inf : Int} {M : Nat → Nat → Int} {u v : Nat} {w : Int}
    (hN' : NoNegCycle ((u, v, w) :: E)) (hS' : SimpleBound ((u, v, w) :: E) inf)
    (hW' : WFE ((u, v, w) :: E) n inf) (hinf : 0 < inf)
    (hX : Exact E n inf M) (himp : w < M u v) :
    Exact ((u, v, w) :: E) n inf (propagateMat n inf u v w (updD M u v w)) := by
  have hsub : E ⊆ (u, v, w) :: E := List.subset_cons_self _ _
  have hN : NoNegCycle E := NoNegCycle_anti hsub hN'
  have hS : SimpleBound E inf := SimpleBound_anti hsub hS'
  have hu : u < n := (hW' _ (List.mem_cons_self _ _)).1
  have hv : v < n := (hW' _ (List.mem_cons_self _ _)).2.1
  have huv : u ≠ v := by
    rintro rfl
    rw [Exact_diag hX hN hu] at himp
    exact absurd (hN' u [] w (EWalk.single (List.mem_cons_self _ _)))
      (not_le_of_lt himp)
  have hrow : updD M u v w v u = inf ∨ 0 ≤ updD M u v w v u + w := by
    rw [updD_of_ne M u v w (fun hh => huv hh.1.symm)]
    by_cases hvu : M v u = inf
    · exact Or.inl hvu
    · refine Or.inr ?_
      obtain ⟨c0, hc0⟩ := (Exact_ne_inf_iff hX hN hS hinf hv hu).mp hvu
      exact WalkAny_closed_nonneg hN'
        (WalkAny_glue (WalkAny_mono hsub (Exact_achieves hX hv hu hc0))
          (WalkAny_edge (List.mem_cons_self _ _)))
  have hmat : propagateMat n inf u v w (updD M u v w) =
      fun i j => if i < n ∧ j < n
        then simRelax inf u v (fun x => x + w) (updD M u v w) i j
        else updD M u v w i j :=
    funext fun a => funext fun b =>
      propagateMat_eq_sim n inf u v w (updD M u v w) hrow a b
  rw [hmat]
  exact Exact_insert_improve hN' hS' hW' hinf hX himp

/-- Exactness only depends on the edge set through membership. -/
theorem Exact_congr {E F : List (Nat × Nat × Int)} {n : Nat} {inf : Int}
    {M : Nat → Nat → Int} (hmem : ∀ x, x ∈ E ↔ x ∈ F) (hX : Exact E n inf M) :
    Exact F n inf M := by
  have h1 : E ⊆ F := fun x hx => (hmem x).mp hx
  have h2 : F ⊆ E := fun x hx => (hmem x).mpr hx
  intro i j hi hj
  constructor
  · rintro ⟨c, hc⟩
    have hc' : WalkAny E i j c := WalkAny_mono h2 hc
    exact ⟨WalkAny_mono h1 ((hX i j hi hj).1 ⟨c, hc'⟩).1,
      fun c0 hc0 => ((hX i j hi hj).1 ⟨c, hc'⟩).2 c0 (WalkAny_mono h2 hc0)⟩
  · intro hr
    exact (hX i j hi hj).2 (fun hh => hr ⟨hh.choose, WalkAny_mono h1 hh.choose_spec⟩)

/-! ### The invariant carried along a run of `add_edge` calls -/

/-- The stale-matrix invariant: the four hypotheses under which the `solve`
loop recovers exact distances.  Entries are walk-sound, capped by the
sentinel, the diagonal is nonpositive, and every inserted edge is bounded by
its direct cost. -/
def Core (E : List (Nat × Nat × Int)) (n : Nat) (inf : Int)
    (M : Nat → Nat → Int) : Prop :=
  SWm E n inf M ∧ LEm n inf M ∧ (∀ i, i < n → M i i ≤ 0) ∧
  (∀ e ∈ E, M e.1 e.2.1 ≤ e.2.2)

theorem Core_congr {E F : List (Nat × Nat × Int)} {n : Nat} {inf : Int}
    {M : Nat → Nat → Int} (hmem : ∀ x, x ∈ E ↔ x ∈ F) (hc : Core E n inf M) :
    Core F n inf M := by
  obtain ⟨hSW, hLE, hdiag, hUB⟩ := hc
  refine ⟨?_, hLE, hdiag, ?_⟩
  · intro i j hi hj hne
    obtain ⟨c, hcw, hcle⟩ := hSW i j hi hj hne
    exact ⟨c, WalkAny_mono (fun x hx => (hmem x).mp hx) hcw, hcle⟩
  · intro e he
    exact hUB e ((hmem e).mpr he)

/-- A non-improving insertion preserves the stale-matrix invariant. -/
theorem Core_noop {E : List (Nat × Nat × Int)} {n : Nat} {inf : Int}
    {M : Nat → Nat → Int} {u v : Nat} {w : Int}
    (hc : Core E n inf M) (hle : M u v ≤ w) :
    Core ((u, v, w) :: E) n inf M := by
  obtain ⟨hSW, hLE, hdiag, hUB⟩ := hc
  refine ⟨?_, hLE, hdiag, ?_⟩
  · intro i j hi hj hne
    obtain ⟨c, hcw, hcle⟩ := hSW i j hi hj hne
    exact ⟨c, WalkAny_mono (List.subset_cons_self _ _) hcw, hcle⟩
  · intro e he
    rcases List.mem_cons.mp he with rfl | he
    · exact hle
    · exact hUB e he

/-- An improving lazy insertion preserves the stale-matrix invariant. -/
theorem Core_insert {E : List (Nat × Nat × Int)} {n : Nat} {inf : Int}
    {M : Nat → Nat → Int} {u v : Nat} {w : Int}
    (hc : Core E n inf M) (himp : w < M u v) (hwinf : w < inf) :
    Core ((u, v, w) :: E) n inf (updD M u v w) := by
  obtain ⟨hSW, hLE, hdiag, hUB⟩ := hc
  refine ⟨?_, ?_, ?_, ?_⟩
  · intro i j hi hj hne
    by_cases hij : i = u ∧ j = v
    · obtain ⟨rfl, rfl⟩ := hij
      rw [updD_same]
      exact ⟨w, WalkAny_edge (List.mem_cons_self _ _), le_refl _⟩
    · rw [updD_of_ne _ _ _ _ hij] at hne ⊢
      obtain ⟨c, hcw, hcle⟩ := hSW i j hi hj hne
      exact ⟨c, WalkAny_mono (List.subset_cons_self _ _) hcw, hcle⟩
  · intro i j hi hj
    by_cases hij : i = u ∧ j = v
    · obtain ⟨rfl, rfl⟩ := hij
      rw [updD_same]
      exact le_of_lt hwinf
    · rw [updD_of_ne _ _ _ _ hij]
      exact hLE i j hi hj
  · intro i hi
    by_cases hij : i = u ∧ i = v
    · rw [updD, if_pos hij]
      have h1 : w < M i i := by
        rw [← hij.1, ← hij.2] at himp
        exact himp
      exact le_trans (le_of_lt h1) (hdiag i hi)
    · rw [updD_of_ne _ _ _ _ hij]
      exact hdiag i hi
  · intro e he
    rcases List.mem_cons.mp he with rfl | he
    · show updD M u v w u v ≤ w
      rw [updD_same]
    · refine le_trans ?_ (hUB e he)
      by_cases hij : e.1 = u ∧ e.2.1 = v
      · rw [updD, if_pos hij, hij.1, hij.2]
        exact le_of_lt himp
      · rw [updD_of_ne _ _ _ _ hij]

/-- An exact matrix satisfies the stale-matrix invariant. -/
theorem Exact_core {E : List (Nat × Nat × Int)} {n : Nat} {inf : Int}
    {M : Nat → Nat → Int} (hX : Exact E n inf M) (hN : NoNegCycle E)
    (hS : SimpleBound E inf) (hW : WFE E n inf) (hinf : 0 < inf) :
    Core E n inf M :=
  ⟨Exact_SWm hX,
   fun i j hi hj => Exact_le_inf hX hN hS hinf hi hj,
   fun i hi => le_of_eq (Exact_diag hX hN hi),
   fun e he => Exact_edge_le hX hW he⟩

/-- The state invariant: either the engine is valid and its matrix is the
exact distance matrix of the edges inserted so far, or it is stale and its
matrix satisfies the recoverable stale-matrix invariant. -/
def Inv (E : List (Nat × Nat × Int)) (s : FW) : Prop :=
  (s.needs_solve = false ∧ Exact E s.n s.inf s.dist) ∨
  (s.needs_solve = true ∧ Core E s.n s.inf s.dist)

theorem Inv_congr {E F : List (Nat × Nat × Int)} {s : FW}
    (hmem : ∀ x, x ∈ E ↔ x ∈ F) (h : Inv E s) : Inv F s := by
  rcases h with ⟨hf, hX⟩ | ⟨hf, hc⟩
  · exact Or.inl ⟨hf, Exact_congr hmem hX⟩
  · exact Or.inr ⟨hf, Core_congr hmem hc⟩

/-- `solve` on any state satisfying the invariant succeeds and leaves the
exact distance matrix. -/
theorem Inv_solve {E : List (Nat × Nat × Int)} {s : FW}
    (hN : NoNegCycle E) (hS : SimpleBound E s.inf) (hW : WFE E s.n s.inf)
    (hinf : 0 < s.inf) (hInv : Inv E s) :
    (solve s).2 = none ∧ (solve s).1.needs_solve = false ∧
    (solve s).1.n = s.n ∧ (solve s).1.inf = s.inf ∧
    Exact E s.n s.inf (solve s).1.dist := by
  rcases hInv with ⟨hflag, hX⟩ | ⟨hflag, hCore⟩
  · rw [solve_of_valid s hinf hflag]
    exact ⟨rfl, hflag, rfl, rfl, hX⟩
  · have hsv : solve s = (⟨s.n, s.inf, fwLoop s.n s.inf s.dist, false⟩, none) := by
      unfold solve
      rw [if_neg (not_not_intro hinf), if_neg (not_not_intro hflag)]
    rw [hsv]
    obtain ⟨hSW, hLE, hdiag, hUB⟩ := hCore
    exact ⟨rfl, rfl, rfl, rfl, fwLoop_stale_Exact hN hS hW hinf hSW hLE hdiag hUB⟩

/-- A successful run only inserts in-range edges with weight below the
sentinel (the `add_edge` assertions). -/
theorem runAdds_wf :
    ∀ (calls : List (Nat × Nat × Int × Bool)) (s t : FW),
      runAdds s calls = (t, none) → WFE (edgesOf calls) s.n s.inf := by
  intro calls
  induction calls with
  | nil =>
    intro s t _ e he
    exact absurd he (List.not_mem_nil _)
  | cons c rest ih =>
    intro s t hrun
    obtain ⟨u, v, w, p⟩ := c
    simp only [runAdds] at hrun
    split at hrun
    · rename_i s1 heq
      obtain ⟨hu, hv, hw, -, -⟩ := addEdge_ok_elim heq
      have hfst : (addEdge s u v w p).1 = s1 := congrArg Prod.fst heq
      have hs1n : s1.n = s.n := by
        rw [← hfst, addEdge_n]
      have hs1i : s1.inf = s.inf := by
        rw [← hfst, addEdge_inf]
      intro e he
      rcases List.mem_cons.mp he with rfl | he
      · exact ⟨hu, hv, hw⟩
      · have h := ih s1 t hrun e he
        rwa [hs1n, hs1i] at h
    · rename_i s1 err heq
      exact absurd (congrArg Prod.snd hrun) (by simp)

/-- A successful run of propagate-only calls keeps the engine valid. -/
theorem runAdds_allTrue_valid :
    ∀ (calls : List (Nat × Nat × Int × Bool)) (s t : FW),
      (∀ c ∈ calls, c.2.2.2 = true) → s.needs_solve = false →
      runAdds s calls = (t, none) → t.needs_solve = false := by
  intro calls
  induction calls with
  | nil =>
    intro s t _ hval hrun
    have hs : s = t := congrArg Prod.fst hrun
    rw [← hs]
    exact hval
  | cons c rest ih =>
    intro s t hall hval hrun
    obtain ⟨u, v, w, p⟩ := c
    have hp : p = true := hall _ (List.mem_cons_self _ _)
    simp only [runAdds] at hrun
    split at hrun
    · rename_i s1 heq
      obtain ⟨-, -, -, -, hcases⟩ := addEdge_ok_elim heq
      have hs1 : s1.needs_solve = false := by
        rcases hcases with ⟨-, rfl⟩ | ⟨-, hpf, -⟩ | ⟨-, -, -, rfl⟩
        · exact hval
        · rw [hp] at hpf
          exact Bool.noConfusion hpf
        · rfl
      exact ih s1 t (fun c hc => hall c (List.mem_cons_of_mem _ hc)) hs1 hrun
    · rename_i s1 err heq
      exact absurd (congrArg Prod.snd hrun) (by simp)

/-- The run invariant: along any successful `add_edge` sequence whose total
edge set has no negative cycle, is dominated by the sentinel on simple paths,
and is well-formed, every intermediate state satisfies `Inv` for the edges
inserted so far. -/
theorem runAdds_inv {n : Nat} {inf : Int} {Efin : List (Nat × Nat × Int)}
    (hinf : 0 < inf) (hN : NoNegCycle Efin) (hS : SimpleBound Efin inf)
    (hW : WFE Efin n inf) :
    ∀ (calls : List (Nat × Nat × Int × Bool)) (E : List (Nat × Nat × Int))
      (s t : FW), s.n = n → s.inf = inf →
      (∀ x ∈ E, x ∈ Efin) → (∀ x ∈ edgesOf calls, x ∈ Efin) →
      Inv E s → runAdds s calls = (t, none) →
      t.n = n ∧ t.inf = inf ∧ Inv ((edgesOf calls).reverse ++ E) t := by
  intro calls
  induction calls with
  | nil =>
    intro E s t hn hifn _ _ hInv hrun
    have hs : s = t := congrArg Prod.fst hrun
    rw [← hs]
    exact ⟨hn, hifn, hInv⟩
  | cons c rest ih =>
    intro E s t hn hifn hsubE hsubC hInv hrun
    obtain ⟨u, v, w, p⟩ := c
    simp only [runAdds] at hrun
    split at hrun
    · rename_i s1 heq
      obtain ⟨hu, hv, hw, hgate, hcases⟩ := addEdge_ok_elim heq
      rw [hn] at hu hv
      rw [hifn] at hw
      have hfst : (addEdge s u v w p).1 = s1 := congrArg Prod.fst heq
      have hs1n : s1.n = n := by
        rw [← hfst, addEdge_n, hn]
      have hs1i : s1.inf = inf := by
        rw [← hfst, addEdge_inf, hifn]
      have hmemE : ((u, v, w) : Nat × Nat × Int) ∈ Efin :=
        hsubC _ (List.mem_cons_self _ _)
      have hsubC' : ∀ x ∈ edgesOf rest, x ∈ Efin := fun x hx =>
        hsubC x (List.mem_cons_of_mem _ hx)
      have hsubE' : ∀ x ∈ ((u, v, w) :: E), x ∈ Efin := by
        intro x hx
        rcases List.mem_cons.mp hx with rfl | hx
        · exact hmemE
        · exact hsubE x hx
      have hN' : NoNegCycle ((u, v, w) :: E) :=
        NoNegCycle_anti (fun x hx => hsubE' x hx) hN
      have hS' : SimpleBound ((u, v, w) :: E) inf :=
        SimpleBound_anti (fun x hx => hsubE' x hx) hS
      have hW' : WFE ((u, v, w) :: E) n inf := fun e he => hW e (hsubE' e he)
      have hNE : NoNegCycle E := NoNegCycle_anti (fun x hx => hsubE x hx) hN
      have hSE : SimpleBound E inf := SimpleBound_anti (fun x hx => hsubE x hx) hS
      have hWE : WFE E n inf := fun e he => hW e (hsubE e he)
      have hInv1 : Inv ((u, v, w) :: E) s1 := by
        rcases hInv with ⟨hflag, hX⟩ | ⟨hflag, hCore⟩
        · rw [hn, hifn] at hX
          rcases hcases with ⟨hle, rfl⟩ | ⟨himp, hpf, rfl⟩ | ⟨himp, hpt, hns, rfl⟩
          · refine Or.inl ⟨hflag, ?_⟩
            rw [hn, hifn]
            exact Exact_insert_noop hN' hX hu hv hle hw
          · refine Or.inr ⟨rfl, ?_⟩
            show Core ((u, v, w) :: E) s.n s.inf (updD s.dist u v w)
            rw [hn, hifn]
            exact Core_insert (Exact_core hX hNE hSE hWE hinf) himp hw
          · refine Or.inl ⟨rfl, ?_⟩
            show Exact ((u, v, w) :: E) s.n s.inf
              (propagateMat s.n s.inf u v w (updD s.dist u v w))
            rw [hn, hifn]
            exact Exact_propagate_state hN' hS' hW' hinf hX himp
        · rw [hn, hifn] at hCore
          rcases hcases with ⟨hle, rfl⟩ | ⟨himp, hpf, rfl⟩ | ⟨himp, hpt, hns, rfl⟩
          · refine Or.inr ⟨hflag, ?_⟩
            rw [hn, hifn]
            exact Core_noop hCore hle
          · refine Or.inr ⟨rfl, ?_⟩
            show Core ((u, v, w) :: E) s.n s.inf (updD s.dist u v w)
            rw [hn, hifn]
            exact Core_insert hCore himp hw
          · rw [hflag] at hns
            exact Bool.noConfusion hns
      obtain ⟨h1, h2, h3⟩ := ih ((u, v, w) :: E) s1 t hs1n hs1i hsubE' hsubC' hInv1 hrun
      refine ⟨h1, h2, ?_⟩
      have hlist : (edgesOf ((u, v, w, p) :: rest)).reverse ++ E =
          (edgesOf rest).reverse ++ ((u, v, w) :: E) := by
        show ((u, v, w) :: edgesOf rest).reverse ++ E = _
        rw [List.reverse_cons, List.append_assoc, List.singleton_append]
      rw [hlist]
      exact h3
    · rename_i s1 err heq
      exact absurd (congrArg Prod.snd hrun) (by simp)

/-- A concrete sufficient condition for `SimpleBound`: if every edge weight
is at most `B ≥ 0` and `n * B < inf`, simple paths (at most `n` vertices,
hence at most `n - 1` edges) cost less than the sentinel. -/
theorem SimpleBound_of_budget {E : List (Nat × Nat × Int)} {n : Nat}
    {inf B : Int} (hW : WFE E n inf) (hB : ∀ e ∈ E, e.2.2 ≤ B) (hB0 : 0 ≤ B)
    (hn : (n : Int) * B < inf) : SimpleBound E inf := by
  intro i j l c hw hnd
  have hvert := EWalk_vertices_lt hW hw
  have hsub : ∀ x ∈ (i :: l ++ [j]), x ∈ List.range n := by
    intro x hx
    rw [List.mem_range]
    rcases List.mem_cons.mp hx with rfl | hx
    · exact hvert.1
    rcases List.mem_append.mp hx with hx | hx
    · exact hvert.2.2 x hx
    · rw [List.mem_singleton.mp hx]
      exact hvert.2.1
  have hlen : (i :: l ++ [j]).length ≤ n := by
    have h1 : (i :: l ++ [j]).length = (i :: l ++ [j]).toFinset.card :=
      (List.toFinset_card_of_nodup hnd).symm
    have h2 : (i :: l ++ [j]).toFinset ⊆ (List.range n).toFinset := by
      intro x hx
      rw [List.mem_toFinset] at hx ⊢
      exact hsub x hx
    have h3 := Finset.card_le_card h2
    rw [List.toFinset_card_of_nodup (List.nodup_range n), List.length_range] at h3
    rw [h1]
    exact h3
  have hc := EWalk_cost_le hB hw
  have hl2 : l.length + 2 ≤ n := by
    have hL : (i :: l ++ [j]).length = l.length + 2 := by
      simp [List.length_append]
    rwa [hL] at hlen
  have hstep : ((l.length : Int) + 1) * B ≤ (n : Int) * B := by
    apply mul_le_mul_of_nonneg_right _ hB0
    have hcast : (l.length : Int) + 2 ≤ (n : Int) := by exact_mod_cast hl2
    linarith
  calc c ≤ ((l.length : Int) + 1) * B := hc
  _ ≤ (n : Int) * B := hstep
  _ < inf := hn

/-- Tagging an edge list with a fixed propagate flag inserts exactly that
edge list. -/
theorem edgesOf_map (es : List (Nat × Nat × Int)) (b : Bool) :
    edgesOf (es.map (fun e => (e.1, e.2.1, e.2.2, b))) = es := by
  induction es with
  | nil => rfl
  | cons e t ih =>
    show (e.1, e.2.1, e.2.2) :: edgesOf (t.map (fun e => (e.1, e.2.1, e.2.2, b))) = e :: t
    rw [ih]

/-! ### Claim C1 -/

/-- C1 counterexample data for the unconditional claim: with sentinel 10 and
nonnegative edges 0→1 and 1→2 of weight 6 each, a lazy run followed by
`solve` succeeds and the edge set has no negative cycle, yet the solved
matrix stores the sentinel at the reachable pair (0, 2) (a walk of cost 12
exists), so "distance equals the sentinel exactly when no path exists" fails
without a largeness assumption on the sentinel. -/
theorem solve_shortest_paths_counterexample :
    initFW 3 10 = .ok (mkFW 3 10) ∧
    (runAdds (mkFW 3 10) [(0, 1, 6, false), (1, 2, 6, false)]).2 = none ∧
    NoNegCycle (edgesOf [(0, 1, 6, false), (1, 2, 6, false)]) ∧
    (solve (runAdds (mkFW 3 10) [(0, 1, 6, false), (1, 2, 6, false)]).1).2 = none ∧
    (solve (runAdds (mkFW 3 10)
      [(0, 1, 6, false), (1, 2, 6, false)]).1).1.dist 0 2 = 10 ∧
    WalkAny (edgesOf [(0, 1, 6, false), (1, 2, 6, false)]) 0 2 12 := by
  refine ⟨rfl, by decide, nonneg_weights_no_neg_cycle (by decide), by decide,
    by decide, ?_⟩
  refine Or.inr ⟨[1], ?_⟩
  have h12 : (12 : Int) = 6 + 6 := by decide
  rw [h12]
  exact EWalk.cons (by decide) (EWalk.single (by decide))

/-! ### Claim C2 -/

/-- C2 counterexample data for the unconditional claim: with sentinel 10 and
edges 0→2, 2→1 of weight 6 and 1→3 of weight −9 (all weights below the
sentinel, no negative cycle), both the propagate=true run and the lazy run
followed by `solve` succeed, but they disagree at the pair (0, 3): the
incremental run keeps the sentinel 10 while the full solve computes 3,
because the intermediate distance 0→1 of true cost 12 collides with the
sentinel and is treated as unreachable. -/
theorem incremental_vs_solve_counterexample :
    (runAdds (mkFW 4 10) ([(0, 2, 6), (2, 1, 6), (1, 3, -9)].map
      (fun e => (e.1, e.2.1, e.2.2, true)))).2 = none ∧
    (runAdds (mkFW 4 10) ([(0, 2, 6), (2, 1, 6), (1, 3, -9)].map
      (fun e => (e.1, e.2.1, e.2.2, false)))).2 = none ∧
    NoNegCycle [(0, 2, 6), (2, 1, 6), (1, 3, -9)] ∧
    (∀ e ∈ ([(0, 2, 6), (2, 1, 6), (1, 3, -9)] : List (Nat × Nat × Int)),
      e.2.2 < 10) ∧
    (solve (runAdds (mkFW 4 10) ([(0, 2, 6), (2, 1, 6), (1, 3, -9)].map
      (fun e => (e.1, e.2.1, e.2.2, false)))).1).2 = none ∧
    (runAdds (mkFW 4 10) ([(0, 2, 6), (2, 1, 6), (1, 3, -9)].map
      (fun e => (e.1, e.2.1, e.2.2, true)))).1.dist 0 3 = 10 ∧
    (solve (runAdds (mkFW 4 10) ([(0, 2, 6), (2, 1, 6), (1, 3, -9)].map
      (fun e => (e.1, e.2.1, e.2.2, false)))).1).1.dist 0 3 = 3 := by
  refine ⟨by decide, by decide, ?_, by decide, by decide, by decide, by decide⟩
  exact measure_increasing_no_neg_cycle
    (fun x => if x = 0 then 0 else if x = 2 then 1 else if x = 1 then 2 else 3)
    (by decide)

/-! ### The documented sentinel requirement

The docstring requires a finite sentinel to be strictly larger than any
attainable shortest-path distance.  `SentinelOK` states exactly that: the
minimal walk cost of every in-range pair, where attained, is below the
sentinel. -/

/-- The sentinel strictly exceeds every attainable shortest-path distance:
whenever `c` is the cost of a walk from `i` to `j` and is minimal among all
such costs, `c < inf`. -/
def SentinelOK (E : List (Nat × Nat × Int)) (n : Nat) (inf : Int) : Prop :=
  ∀ i j, i < n → j < n → ∀ c, WalkAny E i j c →
    (∀ c', WalkAny E i j c' → c ≤ c') → c < inf

/-- The simultaneous relaxation never increases an entry. -/
theorem simRelax_le (inf : Int) (q r : Nat) (g : Int → Int)
    (d : Nat → Nat → Int) (a b : Nat) : simRelax inf q r g d a b ≤ d a b := by
  unfold simRelax
  by_cases h1 : d a q = inf
  · rw [if_pos h1]
  · rw [if_neg h1]
    by_cases h2 : d r b = inf
    · rw [if_pos h2]
    · rw [if_neg h2]
      by_cases h3 : g (d a q) + d r b < d a b
      · rw [if_pos h3]
        exact le_of_lt h3
      · rw [if_neg h3]

/-- Every edge weight is at least `B`, so a walk of `k + 1` edges costs at
least `(k + 1) * B`. -/
theorem EWalk_cost_ge {E : List (Nat × Nat × Int)} {B : Int}
    (hB : ∀ e ∈ E, B ≤ e.2.2) {i j : Nat} {l : List Nat} {c : Int}
    (h : EWalk E i j l c) : ((l.length : Int) + 1) * B ≤ c := by
  induction h with
  | single he => simpa using hB _ he
  | cons he hw ih =>
    next u v j' w c' l' =>
    have h1 : B ≤ w := hB _ he
    calc (((v :: l').length : Int) + 1) * B = B + ((l'.length : Int) + 1) * B := by
          simp only [List.length_cons]
          push_cast
          ring
    _ ≤ w + c' := add_le_add h1 ih

/-- A duplicate-free list of vertices below `n` has length at most `n`. -/
theorem nodup_length_le {n : Nat} {l : List Nat} (hnd : l.Nodup)
    (hlt : ∀ x ∈ l, x < n) : l.length ≤ n := by
  have h1 : l.length = l.toFinset.card := (List.toFinset_card_of_nodup hnd).symm
  have h2 : l.toFinset ⊆ (List.range n).toFinset := by
    intro x hx
    rw [List.mem_toFinset] at hx ⊢
    exact List.mem_range.mpr (hlt x hx)
  have h3 := Finset.card_le_card h2
  rw [List.toFinset_card_of_nodup (List.nodup_range n), List.length_range] at h3
  rw [h1]
  exact h3

/-- An element of a list of nonnegative integers is at most the list sum. -/
theorem mem_le_sum_of_nonneg {l : List Int} (h0 : ∀ x ∈ l, 0 ≤ x) {x : Int}
    (hx : x ∈ l) : x ≤ l.sum := by
  induction l with
  | nil => exact absurd hx (List.not_mem_nil _)
  | cons y t ih =>
    rw [List.sum_cons]
    rcases List.mem_cons.mp hx with rfl | hx
    · have h1 : 0 ≤ t.sum :=
        List.sum_nonneg (fun z hz => h0 z (List.mem_cons_of_mem _ hz))
      linarith
    · have h1 : x ≤ t.sum := ih (fun z hz => h0 z (List.mem_cons_of_mem _ hz)) hx
      have h2 : 0 ≤ y := h0 y (List.mem_cons_self _ _)
      linarith

/-- Under no negative cycle, every walk cost is bounded below by `n * B` for
any nonpositive lower bound `B` on the edge weights. -/
theorem WalkAny_cost_lower {E : List (Nat × Nat × Int)} {n : Nat} {inf B : Int}
    (hN : NoNegCycle E) (hW : WFE E n inf) (hB : ∀ e ∈ E, B ≤ e.2.2)
    (hB0 : B ≤ 0) {i j : Nat} {c : Int} (hc : WalkAny E i j c) :
    (n : Int) * B ≤ c := by
  have hn0 : (0 : Int) ≤ (n : Int) := Int.natCast_nonneg n
  have hnB : (n : Int) * B ≤ 0 := by nlinarith
  rcases hc with ⟨heq, hc0⟩ | ⟨l, hw⟩
  · rw [hc0]
    exact hnB
  · by_cases hij : i = j
    · subst hij
      exact le_trans hnB (hN i l c hw)
    · obtain ⟨l', c', hw', hle', -, hnd'⟩ :=
        EWalk_reduce hN l.length (le_refl _) hw hij
      have hlow : ((l'.length : Int) + 1) * B ≤ c' := EWalk_cost_ge hB hw'
      have hlen : l'.length + 2 ≤ n := by
        have h2 : ∀ x ∈ (i :: l' ++ [j]), x < n := by
          have hvert := EWalk_vertices_lt hW hw'
          intro x hx
          rcases List.mem_cons.mp hx with rfl | hx
          · exact hvert.1
          rcases List.mem_append.mp hx with hx | hx
          · exact hvert.2.2 x hx
          · rw [List.mem_singleton.mp hx]
            exact hvert.2.1
        have h3 := nodup_length_le hnd' h2
        have h4 : (i :: l' ++ [j]).length = l'.length + 2 := by
          simp [List.length_append]
        rwa [h4] at h3
      have hcast : (l'.length : Int) + 2 ≤ (n : Int) := by exact_mod_cast hlen
      have hmul : (n : Int) * B ≤ ((l'.length : Int) + 1) * B := by nlinarith
      linarith

/-- Attainment: under no negative cycle, every reachable pair has a walk of
minimal cost (walk costs are integers bounded below). -/
theorem WalkAny_attains {E : List (Nat × Nat × Int)} {n : Nat} {inf : Int}
    (hN : NoNegCycle E) (hW : WFE E n inf) {i j : Nat}
    (hr : ∃ c, WalkAny E i j c) :
    ∃ c, WalkAny E i j c ∧ ∀ c', WalkAny E i j c' → c ≤ c' := by
  have habs : ∀ x ∈ E.map (fun e => |e.2.2|), (0 : Int) ≤ x := by
    intro x hx
    obtain ⟨e', -, rfl⟩ := List.mem_map.mp hx
    exact abs_nonneg _
  have hB : ∀ e ∈ E, -((E.map (fun e => |e.2.2|)).sum) ≤ e.2.2 := by
    intro e he
    have h1 : |e.2.2| ≤ (E.map (fun e => |e.2.2|)).sum :=
      mem_le_sum_of_nonneg habs (List.mem_map.mpr ⟨e, he, rfl⟩)
    have h2 : -|e.2.2| ≤ e.2.2 := neg_abs_le _
    linarith
  have hB0 : -((E.map (fun e => |e.2.2|)).sum) ≤ 0 := by
    have h1 : 0 ≤ (E.map (fun e => |e.2.2|)).sum := List.sum_nonneg habs
    linarith
  obtain ⟨lb, hlb1, hlb2⟩ :=
    @Int.exists_least_of_bdd (fun c => WalkAny E i j c)
      ⟨(n : Int) * (-((E.map (fun e => |e.2.2|)).sum)),
        fun z hz => WalkAny_cost_lower hN hW hB hB0 hz⟩ hr
  exact ⟨lb, hlb1, hlb2⟩

/-- The simple-path bound implies the documented sentinel requirement. -/
theorem SentinelOK_of_SimpleBound {E : List (Nat × Nat × Int)} {n : Nat}
    {inf : Int} (hN : NoNegCycle E) (hinf : 0 < inf) (hS : SimpleBound E inf) :
    SentinelOK E n inf := by
  intro i j hi hj c hc hmin
  rcases hc with ⟨heq, hc0⟩ | ⟨l, hw⟩
  · rw [hc0]
    exact hinf
  · by_cases hij : i = j
    · subst hij
      have h1 : c ≤ 0 := hmin 0 (WalkAny_nil E i)
      exact lt_of_le_of_lt h1 hinf
    · obtain ⟨l', c', hw', hle', -, hnd'⟩ :=
        EWalk_reduce hN l.length (le_refl _) hw hij
      have h1 : c ≤ c' := hmin c' (Or.inr ⟨l', hw'⟩)
      exact lt_of_le_of_lt h1 (hS i j l' c' hw' hnd')

/-- On an exact matrix, reachable in-range entries are below the sentinel
whenever the sentinel dominates attainable shortest distances. -/
theorem Exact_lt_inf_s {E : List (Nat × Nat × Int)} {n : Nat} {inf : Int}
    {M : Nat → Nat → Int} (hX : Exact E n inf M) (hOK : SentinelOK E n inf)
    {i j : Nat} (hi : i < n) (hj : j < n) {c : Int} (hc : WalkAny E i j c) :
    M i j < inf :=
  hOK i j hi hj (M i j) ((hX i j hi hj).1 ⟨c, hc⟩).1 ((hX i j hi hj).1 ⟨c, hc⟩).2

/-- The first `K` rounds of the `solve` loop. -/
def fwRounds (n : Nat) (inf : Int) (M0 : Nat → Nat → Int) (K : Nat) :
    Nat → Nat → Int :=
  (List.range K).foldl
    (fun d k => (List.range n).foldl (mStep inf k k id (List.range n)) d) M0

theorem fwRounds_succ (n : Nat) (inf : Int) (M0 : Nat → Nat → Int) (K : Nat) :
    fwRounds n inf M0 (K + 1) =
      (List.range n).foldl (mStep inf K K id (List.range n))
        (fwRounds n inf M0 K) := by
  unfold fwRounds
  rw [List.range_succ, List.foldl_append]
  rfl

theorem fwRounds_eq_fwLoop (n : Nat) (inf : Int) (M0 : Nat → Nat → Int) :
    fwRounds n inf M0 n = fwLoop n inf M0 := by
  rw [fwLoop_eq_rounds]
  rfl

/-- One `solve` round never increases an entry. -/
theorem round_le {E : List (Nat × Nat × Int)} {n : Nat} {inf : Int}
    {M : Nat → Nat → Int} (hN : NoNegCycle E) (hSW : SWm E n inf M)
    {k : Nat} (hk : k < n) (a b : Nat) :
    (List.range n).foldl (mStep inf k k id (List.range n)) M a b ≤ M a b := by
  have hkk := SWm_hkk hN hSW hk
  rw [fwRound_eq_sim n inf k M hkk a b]
  by_cases hab : a < n ∧ b < n
  · rw [if_pos hab]
    exact simRelax_le inf k k id M a b
  · rw [if_neg hab]

/-- The round invariant of the `solve` loop under the documented sentinel
requirement: after `K` rounds the matrix is walk-sound, capped, nonpositive
on the diagonal, and bounded above by the cost of every globally minimal walk
whose intermediates lie below `K`. -/
theorem rounds_sentinel_ub {E : List (Nat × Nat × Int)} {n : Nat} {inf : Int}
    (hN : NoNegCycle E) (hW : WFE E n inf) (hinf : 0 < inf)
    (hOK : SentinelOK E n inf) {M0 : Nat → Nat → Int}
    (hSW : SWm E n inf M0) (hLE : LEm n inf M0)
    (hdiag : ∀ i, i < n → M0 i i ≤ 0)
    (hedge : ∀ e ∈ E, M0 e.1 e.2.1 ≤ e.2.2) :
    ∀ K, K ≤ n →
      SWm E n inf (fwRounds n inf M0 K) ∧ LEm n inf (fwRounds n inf M0 K) ∧
      (∀ a, a < n → fwRounds n inf M0 K a a ≤ 0) ∧
      (∀ a b, a < n → b < n → ∀ l c, EWalk E a b l c →
        (∀ c', WalkAny E a b c' → c ≤ c') → (∀ x ∈ l, x < K) →
        fwRounds n inf M0 K a b ≤ c) := by
  intro K
  induction K with
  | zero =>
    intro _
    refine ⟨hSW, hLE, hdiag, ?_⟩
    intro a b ha hb l c hw hmin hl
    have hl0 : l = [] := by
      cases l with
      | nil => rfl
      | cons x t => exact absurd (hl x (List.mem_cons_self _ _)) (Nat.not_lt_zero x)
    subst hl0
    cases hw with
    | single he => exact hedge _ he
  | succ K ih =>
    intro hKn
    have hK : K < n := lt_of_lt_of_le (Nat.lt_succ_self K) hKn
    obtain ⟨hSWK, hLEK, hdiagK, hubK⟩ := ih (le_of_lt hK)
    have hstep := fwRounds_succ n inf M0 K
    have hpres := round_preserve hN hSWK hLEK hK
    have hkk := SWm_hkk hN hSWK hK
    have hSW1 : SWm E n inf (fwRounds n inf M0 (K + 1)) := by
      rw [hstep]
      exact hpres.1
    have hLE1 : LEm n inf (fwRounds n inf M0 (K + 1)) := by
      rw [hstep]
      exact hpres.2
    have hd1 : ∀ a, a < n → fwRounds n inf M0 (K + 1) a a ≤ 0 := by
      intro a ha
      have h1 : fwRounds n inf M0 (K + 1) a a ≤ fwRounds n inf M0 K a a := by
        rw [hstep]
        exact round_le hN hSWK hK a a
      exact le_trans h1 (hdiagK a ha)
    have hval : ∀ a b, a < n → b < n →
        fwRounds n inf M0 (K + 1) a b =
          simRelax inf K K id (fwRounds n inf M0 K) a b := by
      intro a b ha hb
      have hc : a < n ∧ b < n := ⟨ha, hb⟩
      rw [hstep, fwRound_eq_sim n inf K (fwRounds n inf M0 K) hkk a b, if_pos hc]
    refine ⟨hSW1, hLE1, hd1, ?_⟩
    intro a b ha hb l c hw hmin hl
    have hmono : fwRounds n inf M0 (K + 1) a b ≤ fwRounds n inf M0 K a b := by
      rw [hstep]
      exact round_le hN hSWK hK a b
    by_cases hab : a = b
    · subst hab
      have h0 : c ≤ 0 := hmin 0 (WalkAny_nil E a)
      have h1 : 0 ≤ c := hN a l c hw
      rw [le_antisymm h0 h1]
      exact hd1 a ha
    · obtain ⟨l2, c2, hw2, hle2, hsub2, hnd2⟩ :=
        EWalk_reduce hN l.length (le_refl _) hw hab
      have hc2 : c2 = c := le_antisymm hle2 (hmin c2 (Or.inr ⟨l2, hw2⟩))
      have hl2 : ∀ x ∈ l2, x < K + 1 := fun x hx => hl x (hsub2 hx)
      by_cases hKl : K ∈ l2
      · obtain ⟨l21, l22, hsplit⟩ := List.append_of_mem hKl
        subst hsplit
        obtain ⟨cx, cy, hwx, hwy, hcsum⟩ := EWalk_split l21 hw2
        have hminx : ∀ z, WalkAny E a K z → cx ≤ z := by
          intro z hz
          have h1 : WalkAny E a b (z + cy) := WalkAny_glue hz (Or.inr ⟨l22, hwy⟩)
          have h2 : c ≤ z + cy := hmin _ h1
          rw [← hc2, hcsum] at h2
          linarith
        have hminy : ∀ z, WalkAny E K b z → cy ≤ z := by
          intro z hz
          have h1 : WalkAny E a b (cx + z) := WalkAny_glue (Or.inr ⟨l21, hwx⟩) hz
          have h2 : c ≤ cx + z := hmin _ h1
          rw [← hc2, hcsum] at h2
          linarith
        -- duplicate-freeness localizes the single occurrence of K
        have hnd_t : ((l21 ++ K :: l22) ++ [b]).Nodup := (List.nodup_cons.mp hnd2).2
        have hnd_L : (l21 ++ K :: l22).Nodup := hnd_t.of_append_left
        have hKl21 : K ∉ l21 := by
          intro hmem
          exact (List.disjoint_of_nodup_append hnd_L) hmem (List.mem_cons_self _ _)
        have hKl22 : K ∉ l22 :=
          (List.nodup_cons.mp hnd_L.of_append_right).1
        have hx_lt : ∀ x ∈ l21, x < K := by
          intro x hx
          have h1 : x < K + 1 := hl2 x (List.mem_append_left _ hx)
          rcases Nat.lt_succ_iff_lt_or_eq.mp h1 with h | rfl
          · exact h
          · exact absurd hx hKl21
        have hy_lt : ∀ x ∈ l22, x < K := by
          intro x hx
          have h1 : x < K + 1 :=
            hl2 x (List.mem_append_right _ (List.mem_cons_of_mem _ hx))
          rcases Nat.lt_succ_iff_lt_or_eq.mp h1 with h | rfl
          · exact h
          · exact absurd hx hKl22
        have h1 : fwRounds n inf M0 K a K ≤ cx :=
          hubK a K ha hK l21 cx hwx hminx hx_lt
        have h2 : fwRounds n inf M0 K K b ≤ cy :=
          hubK K b hK hb l22 cy hwy hminy hy_lt
        have hcx_inf : cx < inf := hOK a K ha hK cx (Or.inr ⟨l21, hwx⟩) hminx
        have hcy_inf : cy < inf := hOK K b hK hb cy (Or.inr ⟨l22, hwy⟩) hminy
        have hgate1 : fwRounds n inf M0 K a K ≠ inf :=
          ne_of_lt (lt_of_le_of_lt h1 hcx_inf)
        have hgate2 : fwRounds n inf M0 K K b ≠ inf :=
          ne_of_lt (lt_of_le_of_lt h2 hcy_inf)
        rw [hval a b ha hb]
        unfold simRelax
        simp only [id_eq]
        rw [if_neg hgate1, if_neg hgate2]
        rw [← hc2, hcsum]
        by_cases hcand : fwRounds n inf M0 K a K + fwRounds n inf M0 K K b <
            fwRounds n inf M0 K a b
        · rw [if_pos hcand]
          exact add_le_add h1 h2
        · rw [if_neg hcand]
          exact le_trans (not_lt.mp hcand) (add_le_add h1 h2)
      · have hl2K : ∀ x ∈ l2, x < K := by
          intro x hx
          rcases Nat.lt_succ_iff_lt_or_eq.mp (hl2 x hx) with h | rfl
          · exact h
          · exact absurd hx hKl
        have h1 : fwRounds n inf M0 K a b ≤ c2 := by
          refine hubK a b ha hb l2 c2 hw2 ?_ hl2K
          intro c' hc'
          rw [hc2]
          exact hmin c' hc'
        rw [← hc2]
        exact le_trans hmono h1

/-- The `solve` loop computes the exact distance matrix from any walk-sound,
capped matrix with nonpositive diagonal and direct-cost edge bounds, provided
no negative cycle exists and the sentinel strictly exceeds every attainable
shortest-path distance. -/
theorem fwLoop_sentinel_Exact {E : List (Nat × Nat × Int)} {n : Nat}
    {inf : Int} {M0 : Nat → Nat → Int} (hN : NoNegCycle E) (hW : WFE E n inf)
    (hinf : 0 < inf) (hOK : SentinelOK E n inf)
    (hSW : SWm E n inf M0) (hLE : LEm n inf M0)
    (hdiag : ∀ i, i < n → M0 i i ≤ 0)
    (hedge : ∀ e ∈ E, M0 e.1 e.2.1 ≤ e.2.2) :
    Exact E n inf (fwLoop n inf M0) := by
  obtain ⟨hSWn, hLEn, hdiagn, hubn⟩ :=
    rounds_sentinel_ub hN hW hinf hOK hSW hLE hdiag hedge n (le_refl n)
  rw [← fwRounds_eq_fwLoop]
  intro a b ha hb
  constructor
  · rintro ⟨c0, hc0⟩
    obtain ⟨m, hm, hmin⟩ := WalkAny_attains hN hW ⟨c0, hc0⟩
    have hub : fwRounds n inf M0 n a b ≤ m := by
      rcases hm with ⟨heq, hm0⟩ | ⟨l, hwl⟩
      · rw [hm0, heq]
        exact hdiagn b hb
      · by_cases hab : a = b
        · subst hab
          have h1 : m ≤ 0 := hmin 0 (WalkAny_nil E a)
          have h2 : 0 ≤ m := hN a l m hwl
          rw [le_antisymm h1 h2]
          exact hdiagn a ha
        · exact hubn a b ha hb l m hwl hmin (EWalk_vertices_lt hW hwl).2.2
    have hlt : m < inf := hOK a b ha hb m hm hmin
    have hne : fwRounds n inf M0 n a b ≠ inf :=
      ne_of_lt (lt_of_le_of_lt hub hlt)
    obtain ⟨q, hq, hqle⟩ := hSWn a b ha hb hne
    have heq : fwRounds n inf M0 n a b = m :=
      le_antisymm hub (le_trans (hmin q hq) hqle)
    constructor
    · rw [heq]
      exact hm
    · intro c' hc'
      rw [heq]
      exact hmin c' hc'
  · intro hr
    by_contra hne
    obtain ⟨q, hq, -⟩ := hSWn a b ha hb hne
    exact hr ⟨q, hq⟩

/-- A valid engine's completeness invariant relative to the final edge set
`E`: every entry is bounded by the cost of any walk over the inserted prefix
`F` that is globally minimal over `E`. -/
def UBopt (E F : List (Nat × Nat × Int)) (n : Nat) (M : Nat → Nat → Int) :
    Prop :=
  ∀ a b, a < n → b < n → ∀ c, WalkAny F a b c →
    (∀ c', WalkAny E a b c' → c ≤ c') → M a b ≤ c

theorem UBopt_congr {E F F' : List (Nat × Nat × Int)} {n : Nat}
    {M : Nat → Nat → Int} (hmem : ∀ x, x ∈ F ↔ x ∈ F') (h : UBopt E F n M) :
    UBopt E F' n M :=
  fun a b ha hb c hc hmin =>
    h a b ha hb c (WalkAny_mono (fun x hx => (hmem x).mpr hx) hc) hmin

/-- When a globally minimal walk decomposes through a new edge of `E`, both
halves are globally minimal for their own endpoint pairs. -/
theorem new_edge_opt_split {E F : List (Nat × Nat × Int)} {u v : Nat}
    {w : Int} (hmemE : ((u, v, w) : Nat × Nat × Int) ∈ E)
    (hFE : ∀ x ∈ F, x ∈ E) {a b : Nat} {c c1 c2 : Int}
    (hc1 : WalkAny F a u c1) (hc2 : WalkAny F v b c2)
    (hlec : c1 + w + c2 ≤ c)
    (hmin : ∀ c', WalkAny E a b c' → c ≤ c') :
    (∀ z, WalkAny E a u z → c1 ≤ z) ∧ (∀ z, WalkAny E v b z → c2 ≤ z) := by
  have hc1E : WalkAny E a u c1 := WalkAny_mono (fun x hx => hFE x hx) hc1
  have hc2E : WalkAny E v b c2 := WalkAny_mono (fun x hx => hFE x hx) hc2
  constructor
  · intro z hz
    have h1 : WalkAny E a b (z + w + c2) :=
      WalkAny_glue (WalkAny_glue hz (WalkAny_edge hmemE)) hc2E
    have h2 : c ≤ z + w + c2 := hmin _ h1
    linarith
  · intro z hz
    have h1 : WalkAny E a b (c1 + w + z) :=
      WalkAny_glue (WalkAny_glue hc1E (WalkAny_edge hmemE)) hz
    have h2 : c ≤ c1 + w + z := hmin _ h1
    linarith

/-- A non-improving insertion preserves the completeness invariant: the
stored direct cost can replace the new edge in any globally minimal walk. -/
theorem UBopt_noop {E F : List (Nat × Nat × Int)} {n : Nat} {inf : Int}
    {M : Nat → Nat → Int} {u v : Nat} {w : Int}
    (hN : NoNegCycle E) (hsub : ∀ x ∈ ((u, v, w) :: F), x ∈ E)
    (hSW : SWm F n inf M) (hu : u < n) (hv : v < n)
    (hle : M u v ≤ w) (hwinf : w < inf)
    (hUB : UBopt E F n M) : UBopt E ((u, v, w) :: F) n M := by
  have hmemE : ((u, v, w) : Nat × Nat × Int) ∈ E :=
    hsub _ (List.mem_cons_self _ _)
  have hFE : ∀ x ∈ F, x ∈ E := fun x hx => hsub x (List.mem_cons_of_mem _ hx)
  have hNF' : NoNegCycle ((u, v, w) :: F) :=
    NoNegCycle_anti (fun x hx => hsub x hx) hN
  intro a b ha hb c hc hmin
  rcases WalkAny_new_edge_decomp hNF' hc with
    ⟨c', hle', hF⟩ | ⟨c1, c2, h1, h2, hlec⟩
  · refine le_trans (hUB a b ha hb c' hF ?_) hle'
    intro z hz
    exact le_trans hle' (hmin z hz)
  · obtain ⟨hmin1, hmin2⟩ := new_edge_opt_split hmemE hFE h1 h2 hlec hmin
    have hne : M u v ≠ inf := ne_of_lt (lt_of_le_of_lt hle hwinf)
    obtain ⟨cq, hq, hqle⟩ := hSW u v hu hv hne
    have hsp : WalkAny F a b (c1 + cq + c2) :=
      WalkAny_glue (WalkAny_glue h1 hq) h2
    have hsple : c1 + cq + c2 ≤ c := by linarith
    refine le_trans (hUB a b ha hb (c1 + cq + c2) hsp ?_) hsple
    intro z hz
    exact le_trans hsple (hmin z hz)

/-- An improving propagate-insertion preserves the stale-matrix invariant. -/
theorem Core_propagate {F : List (Nat × Nat × Int)} {n : Nat} {inf : Int}
    {M : Nat → Nat → Int} {u v : Nat} {w : Int}
    (hN' : NoNegCycle ((u, v, w) :: F)) (hc : Core F n inf M)
    (hu : u < n) (hv : v < n) (hwinf : w < inf) (hinf : 0 < inf)
    (himp : w < M u v) :
    Core ((u, v, w) :: F) n inf (propagateMat n inf u v w (updD M u v w)) := by
  obtain ⟨hSW, hLE, hdiag, hUBe⟩ := hc
  have huv : u ≠ v := by
    rintro rfl
    have h1 : w < 0 := lt_of_lt_of_le himp (hdiag u hu)
    exact absurd (hN' u [] w (EWalk.single (List.mem_cons_self _ _)))
      (not_le_of_lt h1)
  have hPc : Core ((u, v, w) :: F) n inf (updD M u v w) :=
    Core_insert ⟨hSW, hLE, hdiag, hUBe⟩ himp hwinf
  obtain ⟨hSWP, hLEP, hdiagP, hUBP⟩ := hPc
  have hrow : updD M u v w v u = inf ∨ 0 ≤ updD M u v w v u + w := by
    rw [updD_of_ne M u v w (fun hh => huv hh.1.symm)]
    by_cases hvu : M v u = inf
    · exact Or.inl hvu
    · refine Or.inr ?_
      obtain ⟨cq, hq, hqle⟩ := hSW v u hv hu hvu
      have h1 : WalkAny ((u, v, w) :: F) v v (cq + w) :=
        WalkAny_glue (WalkAny_mono (List.subset_cons_self _ _) hq)
          (WalkAny_edge (List.mem_cons_self _ _))
      have h2 : 0 ≤ cq + w := WalkAny_closed_nonneg hN' h1
      linarith
  have hval : ∀ a b, a < n → b < n →
      propagateMat n inf u v w (updD M u v w) a b =
        simRelax inf u v (fun x => x + w) (updD M u v w) a b := by
    intro a b ha hb
    have hcnd : a < n ∧ b < n := ⟨ha, hb⟩
    rw [propagateMat_eq_sim n inf u v w (updD M u v w) hrow a b, if_pos hcnd]
  refine ⟨?_, ?_, ?_, ?_⟩
  · intro a b ha hb hne
    rw [hval a b ha hb] at hne ⊢
    unfold simRelax at hne ⊢
    simp only [] at hne ⊢
    by_cases h1 : updD M u v w a u = inf
    · rw [if_pos h1] at hne ⊢
      exact hSWP a b ha hb hne
    rw [if_neg h1] at hne ⊢
    by_cases h2 : updD M u v w v b = inf
    · rw [if_pos h2] at hne ⊢
      exact hSWP a b ha hb hne
    rw [if_neg h2] at hne ⊢
    by_cases h3 : updD M u v w a u + w + updD M u v w v b < updD M u v w a b
    · rw [if_pos h3] at hne ⊢
      obtain ⟨c1, hq1, hle1⟩ := hSWP a u ha hu h1
      obtain ⟨c2, hq2, hle2⟩ := hSWP v b hv hb h2
      refine ⟨c1 + w + c2, ?_, by linarith⟩
      exact WalkAny_glue
        (WalkAny_glue hq1 (WalkAny_edge (List.mem_cons_self _ _))) hq2
    · rw [if_neg h3] at hne ⊢
      exact hSWP a b ha hb hne
  · intro a b ha hb
    exact le_trans (propagateMat_le n inf u v w (updD M u v w) a b)
      (hLEP a b ha hb)
  · intro a ha
    exact le_trans (propagateMat_le n inf u v w (updD M u v w) a a)
      (hdiagP a ha)
  · intro e he
    exact le_trans (propagateMat_le n inf u v w (updD M u v w) e.1 e.2.1)
      (hUBP e he)

/-- An improving propagate-insertion preserves the completeness invariant:
every globally minimal walk either avoids the new edge, in which case the old
bound carries over, or passes through it, in which case both halves are
globally minimal, below the sentinel, and the propagation loop relaxes the
entry with exactly their sum. -/
theorem UBopt_propagate {E F : List (Nat × Nat × Int)} {n : Nat} {inf : Int}
    {M : Nat → Nat → Int} {u v : Nat} {w : Int}
    (hN : NoNegCycle E) (hW : WFE E n inf) (hinf : 0 < inf)
    (hOK : SentinelOK E n inf) (hsub : ∀ x ∈ ((u, v, w) :: F), x ∈ E)
    (hc : Core F n inf M) (hu : u < n) (hv : v < n)
    (himp : w < M u v) (hwinf : w < inf)
    (hUB : UBopt E F n M) :
    UBopt E ((u, v, w) :: F) n (propagateMat n inf u v w (updD M u v w)) := by
  obtain ⟨hSW, hLE, hdiag, hUBe⟩ := hc
  have hmemE : ((u, v, w) : Nat × Nat × Int) ∈ E :=
    hsub _ (List.mem_cons_self _ _)
  have hFE : ∀ x ∈ F, x ∈ E := fun x hx => hsub x (List.mem_cons_of_mem _ hx)
  have hNF' : NoNegCycle ((u, v, w) :: F) :=
    NoNegCycle_anti (fun x hx => hsub x hx) hN
  have huv : u ≠ v := by
    rintro rfl
    have h1 : w < 0 := lt_of_lt_of_le himp (hdiag u hu)
    exact absurd (hNF' u [] w (EWalk.single (List.mem_cons_self _ _)))
      (not_le_of_lt h1)
  have hrow : updD M u v w v u = inf ∨ 0 ≤ updD M u v w v u + w := by
    rw [updD_of_ne M u v w (fun hh => huv hh.1.symm)]
    by_cases hvu : M v u = inf
    · exact Or.inl hvu
    · refine Or.inr ?_
      obtain ⟨cq, hq, hqle⟩ := hSW v u hv hu hvu
      have h1 : WalkAny ((u, v, w) :: F) v v (cq + w) :=
        WalkAny_glue (WalkAny_mono (List.subset_cons_self _ _) hq)
          (WalkAny_edge (List.mem_cons_self _ _))
      have h2 : 0 ≤ cq + w := WalkAny_closed_nonneg hNF' h1
      linarith
  have hval : ∀ a b, a < n → b < n →
      propagateMat n inf u v w (updD M u v w) a b =
        simRelax inf u v (fun x => x + w) (updD M u v w) a b := by
    intro a b ha hb
    have hcnd : a < n ∧ b < n := ⟨ha, hb⟩
    rw [propagateMat_eq_sim n inf u v w (updD M u v w) hrow a b, if_pos hcnd]
  have hPiu : ∀ a, updD M u v w a u = M a u :=
    fun a => updD_of_ne M u v w (fun hh => huv hh.2)
  have hPvb : ∀ b, updD M u v w v b = M v b :=
    fun b => updD_of_ne M u v w (fun hh => huv hh.1.symm)
  intro a b ha hb c hc0 hmin
  rcases WalkAny_new_edge_decomp hNF' hc0 with
    ⟨c', hle', hF⟩ | ⟨c1, c2, h1, h2, hlec⟩
  · have hMab : M a b ≤ c' :=
      hUB a b ha hb c' hF (fun z hz => le_trans hle' (hmin z hz))
    have hPab : updD M u v w a b ≤ c := by
      by_cases hab : a = u ∧ b = v
      · rw [updD, if_pos hab]
        have h3 : M u v ≤ c' := by
          rw [← hab.1, ← hab.2]
          exact hMab
        have h4 := le_trans h3 hle'
        linarith
      · rw [updD_of_ne M u v w hab]
        exact le_trans hMab hle'
    exact le_trans (propagateMat_le n inf u v w (updD M u v w) a b) hPab
  · obtain ⟨hmin1, hmin2⟩ := new_edge_opt_split hmemE hFE h1 h2 hlec hmin
    have hMau : updD M u v w a u ≤ c1 := by
      rw [hPiu a]
      exact hUB a u ha hu c1 h1 hmin1
    have hMvb : updD M u v w v b ≤ c2 := by
      rw [hPvb b]
      exact hUB v b hv hb c2 h2 hmin2
    have hc1inf : c1 < inf := hOK a u ha hu c1 (WalkAny_mono hFE h1) hmin1
    have hc2inf : c2 < inf := hOK v b hv hb c2 (WalkAny_mono hFE h2) hmin2
    have hg1 : updD M u v w a u ≠ inf :=
      ne_of_lt (lt_of_le_of_lt hMau hc1inf)
    have hg2 : updD M u v w v b ≠ inf :=
      ne_of_lt (lt_of_le_of_lt hMvb hc2inf)
    rw [hval a b ha hb]
    unfold simRelax
    simp only []
    rw [if_neg hg1, if_neg hg2]
    by_cases hcand : updD M u v w a u + w + updD M u v w v b < updD M u v w a b
    · rw [if_pos hcand]
      linarith
    · rw [if_neg hcand]
      have h3 := not_lt.mp hcand
      linarith

/-- A valid state satisfying both invariants relative to its own edge set is
exact. -/
theorem UBopt_Exact {E : List (Nat × Nat × Int)} {n : Nat} {inf : Int}
    {M : Nat → Nat → Int} (hN : NoNegCycle E) (hW : WFE E n inf)
    (hinf : 0 < inf) (hOK : SentinelOK E n inf) (hc : Core E n inf M)
    (hUB : UBopt E E n M) : Exact E n inf M := by
  obtain ⟨hSW, hLE, hdiag, -⟩ := hc
  intro a b ha hb
  constructor
  · rintro ⟨c0, hc0⟩
    obtain ⟨m, hm, hmin⟩ := WalkAny_attains hN hW ⟨c0, hc0⟩
    have hub : M a b ≤ m := hUB a b ha hb m hm hmin
    have hlt : m < inf := hOK a b ha hb m hm hmin
    have hne : M a b ≠ inf := ne_of_lt (lt_of_le_of_lt hub hlt)
    obtain ⟨q, hq, hqle⟩ := hSW a b ha hb hne
    have heq : M a b = m := le_antisymm hub (le_trans (hmin q hq) hqle)
    refine ⟨?_, ?_⟩
    · rw [heq]
      exact hm
    · intro c' hc'
      rw [heq]
      exact hmin c' hc'
  · intro hr
    by_contra hne
    obtain ⟨q, hq, -⟩ := hSW a b ha hb hne
    exact hr ⟨q, hq⟩

/-- The run invariant under the documented sentinel requirement: the matrix
is always walk-sound, capped, nonpositive on the diagonal and bounded by the
direct costs, and while the engine is valid it is also complete for globally
minimal walks. -/
def InvS (E F : List (Nat × Nat × Int)) (s : FW) : Prop :=
  Core F s.n s.inf s.dist ∧ (s.needs_solve = false → UBopt E F s.n s.dist)

theorem InvS_congr {E F F' : List (Nat × Nat × Int)} {s : FW}
    (hmem : ∀ x, x ∈ F ↔ x ∈ F') (h : InvS E F s) : InvS E F' s :=
  ⟨Core_congr hmem h.1, fun hval => UBopt_congr hmem (h.2 hval)⟩

/-- `solve` on any state satisfying the run invariant for its full edge set
succeeds and leaves the exact distance matrix. -/
theorem InvS_solve {E : List (Nat × Nat × Int)} {s : FW}
    (hN : NoNegCycle E) (hW : WFE E s.n s.inf) (hinf : 0 < s.inf)
    (hOK : SentinelOK E s.n s.inf) (hInv : InvS E E s) :
    (solve s).2 = none ∧ (solve s).1.needs_solve = false ∧
    (solve s).1.n = s.n ∧ (solve s).1.inf = s.inf ∧
    Exact E s.n s.inf (solve s).1.dist := by
  obtain ⟨hCore, hUBv⟩ := hInv
  by_cases hb : s.needs_solve = true
  · have hsv : solve s = (⟨s.n, s.inf, fwLoop s.n s.inf s.dist, false⟩, none) := by
      unfold solve
      rw [if_neg (not_not_intro hinf), if_neg (not_not_intro hb)]
    rw [hsv]
    obtain ⟨hSW, hLE, hdiag, hUBe⟩ := hCore
    exact ⟨rfl, rfl, rfl, rfl,
      fwLoop_sentinel_Exact hN hW hinf hOK hSW hLE hdiag hUBe⟩
  · have hb' : s.needs_solve = false := by
      cases hx : s.needs_solve
      · rfl
      · exact absurd hx hb
    rw [solve_of_valid s hinf hb']
    exact ⟨rfl, hb', rfl, rfl, UBopt_Exact hN hW hinf hOK hCore (hUBv hb')⟩

/-- The fresh matrix satisfies the stale-matrix invariant for the empty edge
set. -/
theorem Core_initMat (n : Nat) (inf : Int) (hinf : 0 < inf) :
    Core [] n inf (initMat inf) := by
  refine ⟨?_, ?_, ?_, ?_⟩
  · intro i j hi hj hne
    by_cases hij : i = j
    · subst hij
      refine ⟨0, WalkAny_nil [] i, ?_⟩
      have h1 : initMat inf i i = 0 := if_pos rfl
      rw [h1]
    · have h1 : initMat inf i j = inf := if_neg hij
      rw [h1] at hne
      exact absurd rfl hne
  · intro i j hi hj
    by_cases hij : i = j
    · have h1 : initMat inf i j = 0 := if_pos hij
      rw [h1]
      exact le_of_lt hinf
    · have h1 : initMat inf i j = inf := if_neg hij
      rw [h1]
  · intro i hi
    have h1 : initMat inf i i = 0 := if_pos rfl
    rw [h1]
  · intro e he
    exact absurd he (List.not_mem_nil _)

/-- The fresh matrix satisfies the completeness invariant for the empty edge
set. -/
theorem UBopt_initMat (E : List (Nat × Nat × Int)) (n : Nat) (inf : Int) :
    UBopt E [] n (initMat inf) := by
  intro a b ha hb c hc hmin
  rcases hc with ⟨heq, hc0⟩ | ⟨l, hw⟩
  · rw [hc0, heq]
    have h1 : initMat inf b b = 0 := if_pos rfl
    rw [h1]
  · exact absurd hw EWalk_nil_elim

/-- The run invariant holds along every successful `add_edge` sequence whose
full edge set has no negative cycle and respects the documented sentinel
requirement. -/
theorem runAdds_invS {n : Nat} {inf : Int} {E : List (Nat × Nat × Int)}
    (hinf : 0 < inf) (hN : NoNegCycle E) (hOK : SentinelOK E n inf)
    (hW : WFE E n inf) :
    ∀ (calls : List (Nat × Nat × Int × Bool)) (F : List (Nat × Nat × Int))
      (s t : FW), s.n = n → s.inf = inf →
      (∀ x ∈ F, x ∈ E) → (∀ x ∈ edgesOf calls, x ∈ E) →
      InvS E F s → runAdds s calls = (t, none) →
      t.n = n ∧ t.inf = inf ∧ InvS E ((edgesOf calls).reverse ++ F) t := by
  intro calls
  induction calls with
  | nil =>
    intro F s t hn hifn _ _ hInv hrun
    have hs : s = t := congrArg Prod.fst hrun
    rw [← hs]
    exact ⟨hn, hifn, hInv⟩
  | cons c rest ih =>
    intro F s t hn hifn hsubF hsubC hInv hrun
    obtain ⟨u, v, w, p⟩ := c
    simp only [runAdds] at hrun
    split at hrun
    · rename_i s1 heq
      obtain ⟨hu, hv, hw, hgate, hcases⟩ := addEdge_ok_elim heq
      rw [hn] at hu hv
      rw [hifn] at hw
      have hfst : (addEdge s u v w p).1 = s1 := congrArg Prod.fst heq
      have hs1n : s1.n = n := by
        rw [← hfst, addEdge_n, hn]
      have hs1i : s1.inf = inf := by
        rw [← hfst, addEdge_inf, hifn]
      have hmemE : ((u, v, w) : Nat × Nat × Int) ∈ E :=
        hsubC _ (List.mem_cons_self _ _)
      have hsubC' : ∀ x ∈ edgesOf rest, x ∈ E := fun x hx =>
        hsubC x (List.mem_cons_of_mem _ hx)
      have hsubF' : ∀ x ∈ ((u, v, w) :: F), x ∈ E := by
        intro x hx
        rcases List.mem_cons.mp hx with rfl | hx
        · exact hmemE
        · exact hsubF x hx
      have hNF' : NoNegCycle ((u, v, w) :: F) :=
        NoNegCycle_anti (fun x hx => hsubF' x hx) hN
      obtain ⟨hCore, hUBv⟩ := hInv
      rw [hn, hifn] at hCore
      have hInv1 : InvS E ((u, v, w) :: F) s1 := by
        rcases hcases with ⟨hle, heq1⟩ | ⟨himp, hpf, heq1⟩ | ⟨himp, hpt, hns, heq1⟩ <;>
          rw [heq1]
        · constructor
          · show Core ((u, v, w) :: F) s.n s.inf s.dist
            rw [hn, hifn]
            exact Core_noop hCore hle
          · intro hval
            show UBopt E ((u, v, w) :: F) s.n s.dist
            rw [hn]
            refine UBopt_noop hN hsubF' hCore.1 hu hv hle hw ?_
            have h0 := hUBv hval
            rw [hn] at h0
            exact h0
        · constructor
          · show Core ((u, v, w) :: F) s.n s.inf (updD s.dist u v w)
            rw [hn, hifn]
            exact Core_insert hCore himp hw
          · intro hval
            exact Bool.noConfusion hval
        · constructor
          · show Core ((u, v, w) :: F) s.n s.inf
              (propagateMat s.n s.inf u v w (updD s.dist u v w))
            rw [hn, hifn]
            exact Core_propagate hNF' hCore hu hv hw hinf himp
          · intro hval
            show UBopt E ((u, v, w) :: F) s.n
              (propagateMat s.n s.inf u v w (updD s.dist u v w))
            rw [hn, hifn]
            refine UBopt_propagate hN hW hinf hOK hsubF' hCore hu hv himp hw ?_
            have h0 := hUBv hns
            rw [hn] at h0
            exact h0
      obtain ⟨h1, h2, h3⟩ :=
        ih ((u, v, w) :: F) s1 t hs1n hs1i hsubF' hsubC' hInv1 hrun
      refine ⟨h1, h2, ?_⟩
      have hlist : (edgesOf ((u, v, w, p) :: rest)).reverse ++ F =
          (edgesOf rest).reverse ++ ((u, v, w) :: F) := by
        show ((u, v, w) :: edgesOf rest).reverse ++ F = _
        rw [List.reverse_cons, List.append_assoc, List.singleton_append]
      rw [hlist]
      exact h3
    · rename_i s1 err heq
      exact absurd (congrArg Prod.snd hrun) (by simp)

/-! ### Claims C1 and C2 -/

/-- C1 (corrected): for every sequence of `add_edge` calls on a freshly
constructed engine that runs without an exception, if the inserted edge set
has no negative cycle and the sentinel strictly exceeds every attainable
shortest-path distance (the documented requirement on a finite sentinel),
then `solve` succeeds and the resulting matrix is the exact all-pairs
shortest-distance matrix: on in-range pairs it is achieved by a walk and
minimal among walk costs when a walk exists, and it equals the sentinel
exactly when no walk exists. -/
theorem solve_computes_shortest_paths {num_v : Nat} {inf : Int} {s0 s1 : FW}
    {calls : List (Nat × Nat × Int × Bool)}
    (h0 : initFW num_v inf = .ok s0)
    (hrun : runAdds s0 calls = (s1, none))
    (hN : NoNegCycle (edgesOf calls))
    (hOK : SentinelOK (edgesOf calls) num_v inf) :
    (solve s1).2 = none ∧
    Exact (edgesOf calls) num_v inf (solve s1).1.dist ∧
    ∀ i j, i < num_v → j < num_v →
      ((solve s1).1.dist i j = inf ↔ ¬ ∃ c, WalkAny (edgesOf calls) i j c) := by
  have hinf : 0 < inf := by
    unfold initFW at h0
    by_cases h : 0 < inf
    · exact h
    · rw [if_neg h] at h0
      exact absurd h0 (by simp)
  have hs0 : s0 = mkFW num_v inf := by
    unfold initFW at h0
    rw [if_pos hinf] at h0
    injection h0 with h
    exact h.symm
  subst hs0
  have hW : WFE (edgesOf calls) num_v inf :=
    runAdds_wf calls (mkFW num_v inf) s1 hrun
  obtain ⟨hs1n, hs1i, hInv1⟩ :=
    runAdds_invS hinf hN hOK hW calls [] (mkFW num_v inf) s1 rfl rfl
      (fun x hx => absurd hx (List.not_mem_nil _))
      (fun x hx => hx)
      ⟨Core_initMat num_v inf hinf,
        fun _ => UBopt_initMat (edgesOf calls) num_v inf⟩ hrun
  have hmem : ∀ x : Nat × Nat × Int,
      x ∈ (edgesOf calls).reverse ++ ([] : List (Nat × Nat × Int)) ↔
      x ∈ edgesOf calls := by
    intro x
    rw [List.append_nil, List.mem_reverse]
  have hInv2 : InvS (edgesOf calls) (edgesOf calls) s1 := InvS_congr hmem hInv1
  have hW1 : WFE (edgesOf calls) s1.n s1.inf := by
    rw [hs1n, hs1i]
    exact hW
  have hinf1 : 0 < s1.inf := by
    rw [hs1i]
    exact hinf
  have hOK1 : SentinelOK (edgesOf calls) s1.n s1.inf := by
    rw [hs1n, hs1i]
    exact hOK
  obtain ⟨hok, hval, hn2, hi2, hX⟩ := InvS_solve hN hW1 hinf1 hOK1 hInv2
  rw [hs1n, hs1i] at hX
  refine ⟨hok, hX, ?_⟩
  intro i j hi hj
  constructor
  · intro hsent hr
    obtain ⟨c, hc⟩ := hr
    exact absurd hsent (ne_of_lt (Exact_lt_inf_s hX hOK hi hj hc))
  · intro hr
    exact (hX i j hi hj).2 hr

/-- Witness instantiating C1: a single lazy insertion of edge 0→1 weight 3
with a large sentinel, then `solve`. -/
theorem solve_computes_shortest_paths_witness :
    (solve (runAdds (mkFW 2 1000000) [(0, 1, 3, false)]).1).2 = none ∧
    Exact (edgesOf [(0, 1, 3, false)]) 2 1000000
      (solve (runAdds (mkFW 2 1000000) [(0, 1, 3, false)]).1).1.dist := by
  have hN : NoNegCycle (edgesOf [(0, 1, 3, false)]) :=
    nonneg_weights_no_neg_cycle (by decide)
  have h := @solve_computes_shortest_paths 2 1000000 (mkFW 2 1000000)
    (runAdds (mkFW 2 1000000) [(0, 1, 3, false)]).1 [(0, 1, 3, false)]
    rfl rfl hN
    (SentinelOK_of_SimpleBound hN (by decide)
      (@SimpleBound_of_budget (edgesOf [(0, 1, 3, false)]) 2 1000000 3
        (by unfold WFE; decide) (by decide) (by decide) (by decide)))
  exact ⟨h.1, h.2.1⟩

/-- C2 (corrected): for every edge sequence whose graph has no negative
cycle and whose sentinel strictly exceeds every attainable shortest-path
distance (the documented requirement on a finite sentinel), a successful
one-at-a-time propagate=true run from a fresh engine produces the same
matrix (on in-range pairs) as a successful propagate=false run from a fresh
engine followed by one `solve`, which succeeds. -/
theorem incremental_matches_full_solve {num_v : Nat} {inf : Int}
    {sA0 sB0 sA sB : FW} {es : List (Nat × Nat × Int)}
    (h0A : initFW num_v inf = .ok sA0) (h0B : initFW num_v inf = .ok sB0)
    (hrunA : runAdds sA0 (es.map (fun e => (e.1, e.2.1, e.2.2, true))) =
      (sA, none))
    (hrunB : runAdds sB0 (es.map (fun e => (e.1, e.2.1, e.2.2, false))) =
      (sB, none))
    (hN : NoNegCycle es) (hOK : SentinelOK es num_v inf) :
    (solve sB).2 = none ∧
    ∀ i j, i < num_v → j < num_v → sA.dist i j = (solve sB).1.dist i j := by
  have hinf : 0 < inf := by
    unfold initFW at h0A
    by_cases h : 0 < inf
    · exact h
    · rw [if_neg h] at h0A
      exact absurd h0A (by simp)
  have hsA0 : sA0 = mkFW num_v inf := by
    unfold initFW at h0A
    rw [if_pos hinf] at h0A
    injection h0A with h
    exact h.symm
  have hsB0 : sB0 = mkFW num_v inf := by
    unfold initFW at h0B
    rw [if_pos hinf] at h0B
    injection h0B with h
    exact h.symm
  subst hsA0
  subst hsB0
  have hEA : edgesOf (es.map (fun e => (e.1, e.2.1, e.2.2, true))) = es :=
    edgesOf_map es true
  have hEB : edgesOf (es.map (fun e => (e.1, e.2.1, e.2.2, false))) = es :=
    edgesOf_map es false
  have hWA : WFE es num_v inf := by
    have h := runAdds_wf _ (mkFW num_v inf) sA hrunA
    rw [hEA] at h
    exact h
  obtain ⟨hAn, hAi, hInvA⟩ :=
    runAdds_invS hinf hN hOK hWA (es.map (fun e => (e.1, e.2.1, e.2.2, true)))
      [] (mkFW num_v inf) sA rfl rfl
      (fun x hx => absurd hx (List.not_mem_nil _))
      (fun x hx => by rw [hEA] at hx; exact hx)
      ⟨Core_initMat num_v inf hinf, fun _ => UBopt_initMat es num_v inf⟩ hrunA
  have hAvalid : sA.needs_solve = false := by
    refine runAdds_allTrue_valid _ (mkFW num_v inf) sA ?_ rfl hrunA
    intro c hc
    obtain ⟨e, -, rfl⟩ := List.mem_map.mp hc
    rfl
  have hInvA2 : InvS es es sA := by
    refine InvS_congr ?_ hInvA
    intro x
    rw [List.append_nil, List.mem_reverse, hEA]
  have hXA : Exact es num_v inf sA.dist := by
    obtain ⟨hCoreA, hUBvA⟩ := hInvA2
    rw [hAn, hAi] at hCoreA
    have hUBA := hUBvA hAvalid
    rw [hAn] at hUBA
    exact UBopt_Exact hN hWA hinf hOK hCoreA hUBA
  obtain ⟨hBn, hBi, hInvB⟩ :=
    runAdds_invS hinf hN hOK hWA (es.map (fun e => (e.1, e.2.1, e.2.2, false)))
      [] (mkFW num_v inf) sB rfl rfl
      (fun x hx => absurd hx (List.not_mem_nil _))
      (fun x hx => by rw [hEB] at hx; exact hx)
      ⟨Core_initMat num_v inf hinf, fun _ => UBopt_initMat es num_v inf⟩ hrunB
  have hInvB2 : InvS es es sB := by
    refine InvS_congr ?_ hInvB
    intro x
    rw [List.append_nil, List.mem_reverse, hEB]
  have hWB1 : WFE es sB.n sB.inf := by
    rw [hBn, hBi]
    exact hWA
  have hinfB : 0 < sB.inf := by
    rw [hBi]
    exact hinf
  have hOKB : SentinelOK es sB.n sB.inf := by
    rw [hBn, hBi]
    exact hOK
  obtain ⟨hok, -, -, -, hXB⟩ := InvS_solve hN hWB1 hinfB hOKB hInvB2
  rw [hBn, hBi] at hXB
  refine ⟨hok, ?_⟩
  intro i j hi hj
  exact Exact_unique hXA hXB hi hj

/-- Witness instantiating C2: one edge 0→1 weight 3 with a large sentinel,
inserted with propagation versus lazily plus `solve`. -/
theorem incremental_matches_full_solve_witness :
    (solve (runAdds (mkFW 2 1000000) ([((0 : Nat), (1 : Nat), (3 : Int))].map
      (fun e => (e.1, e.2.1, e.2.2, false)))).1).2 = none ∧
    ∀ i j, i < 2 → j < 2 →
      (runAdds (mkFW 2 1000000) ([((0 : Nat), (1 : Nat), (3 : Int))].map
        (fun e => (e.1, e.2.1, e.2.2, true)))).1.dist i j =
      (solve (runAdds (mkFW 2 1000000) ([((0 : Nat), (1 : Nat), (3 : Int))].map
        (fun e => (e.1, e.2.1, e.2.2, false)))).1).1.dist i j := by
  have hN : NoNegCycle [((0 : Nat), (1 : Nat), (3 : Int))] :=
    nonneg_weights_no_neg_cycle (by decide)
  have h := @incremental_matches_full_solve 2 1000000 (mkFW 2 1000000)
    (mkFW 2 1000000)
    (runAdds (mkFW 2 1000000) ([((0 : Nat), (1 : Nat), (3 : Int))].map
      (fun e => (e.1, e.2.1, e.2.2, true)))).1
    (runAdds (mkFW 2 1000000) ([((0 : Nat), (1 : Nat), (3 : Int))].map
      (fun e => (e.1, e.2.1, e.2.2, false)))).1
    [((0 : Nat), (1 : Nat), (3 : Int))]
    rfl rfl rfl rfl hN
    (SentinelOK_of_SimpleBound hN (by decide)
      (@SimpleBound_of_budget [((0 : Nat), (1 : Nat), (3 : Int))] 2 1000000 3
        (by unfold WFE; decide) (by decide) (by decide) (by decide)))
  exact h

end FWSpec
